import Mathlib

/-!
# rust-colors : the frontier octree and the placement driver of `main.cpp`

A shallow embedding of `src/main.cpp`.

* `ColorPoint`, `SpacePoint`, `Point`, `BB`, `Search` are the C++ records.  A `Point` holds two
  pointers: `space` points into the immutable position grid and is kept by value (x, y, hash; the
  mutable `written` flag lives in the driver state, keyed by the hash, which is the grid offset);
  `color` points into the mutable palette array `colors` and is kept as the array index, every
  function that dereferences it takes the palette memory `colors : Nat → ColorPoint`.
* An `Octree*` is an `Octree`: `null` or a node with its fields and its array of eight children
  (modelled as a function on indices; only indices `0..7` are read by the loops).
  `unordered_map<uint32_t,uint32_t> pointHash` is a finite partial map `Nat → Option Nat`
  (the code only uses `find`, `operator[]` and `erase`).
* The `parent` back pointer is the stack of ancestors walked by `findNearest` from the root.
* Code that `throw`s returns `Except.error`; dereferencing a null pointer or indexing outside a
  vector is reported as an error as well.
* C `int` values are `Int`; colours are in `0..255` wherever arithmetic is done, where nothing
  overflows.  `(int) sqrt(double n)` is `Nat.sqrt n`.
-/

namespace RustColors

/-! ## Constants -/

def WIDTH : Nat := 4096
def HEIGHT : Nat := 4096
def quadTune : Nat := 64
def treeTune : Nat := 4

/-- Everything the program can `throw`, plus the undefined behaviours the embedding makes
explicit. -/
inductive Err where
  | removeNonExisting   -- "Tried removing non-existing point %d@%d from %d"
  | removeFromEmpty     -- "Tried removing from empty Octree"
  | removeEmptyBucket   -- "Tried removing an empty bucket"
  | findNearestNoPoints -- "Tried findNearest no points at depth %d"
  | searchWrongTree     -- "We're searching up the wrong tree!"
  | seedOutOfBounds     -- "Tried seeding out of bounds"
  | seedTooFar          -- "Tried seeding colors too far"
  | seedWritten         -- "Seeding already written point"
  | needSeed            -- "Need at least one seed point"
  | nullDeref           -- a null `Octree*` is dereferenced
  | outOfRange          -- a vector is indexed outside its size
  | outOfFuel           -- the recursion bound of the embedding is exhausted
deriving DecidableEq, Repr

/-! ## Colours, positions, frontier points -/

structure ColorPoint where
  r : Int
  g : Int
  b : Int
deriving DecidableEq, Repr

/-- `ColorPoint::distanceTo` (the Euclidean branch, `MANHATTAN` is not defined). -/
def ColorPoint.distanceTo (self other : ColorPoint) : Int :=
  let dr := self.r - other.r
  let dg := self.g - other.g
  let db := self.b - other.b
  dr * dr + dg * dg + db * db

/-- The immutable part of a `SpacePoint`. -/
structure SpacePoint where
  x : Nat
  y : Nat
  hash : Nat
deriving DecidableEq, Repr

/-- `SpacePoint::spaceOffset`: `y << 12 | x` on `uint32_t`. -/
def spaceOffset (x y : Nat) : Nat :=
  ((y <<< 12) % 2 ^ 32) ||| x

/-- The `Point` record: a position and a pointer into the palette. -/
structure Point where
  space : SpacePoint
  color : Nat
deriving DecidableEq, Repr

abbrev Bucket := List Point

/-! ## Bounding boxes -/

structure BB where
  lr : Int
  lg : Int
  lb : Int
  ur : Int
  ug : Int
  ub : Int
deriving DecidableEq, Repr

/-- `BB::intersects`. -/
def BB.intersects (self other : BB) : Bool :=
  !(decide (self.ur < other.lr) || decide (other.ur < self.lr)) &&
  !(decide (self.ug < other.lg) || decide (other.ug < self.lg)) &&
  !(decide (self.ub < other.lb) || decide (other.ub < self.lb))

/-- `BB::contains`. -/
def BB.contains (self other : BB) : Bool :=
  decide (other.ur ≤ self.ur) && decide (other.lr ≥ self.lr) &&
  decide (other.ug ≤ self.ug) && decide (other.lg ≥ self.lg) &&
  decide (other.ub ≤ self.ub) && decide (other.lb ≥ self.lb)

/-- `BB::setAround`. -/
def BB.setAround (center : ColorPoint) (radius : Int) : BB :=
  { lr := center.r - radius, ur := center.r + radius,
    lg := center.g - radius, ug := center.g + radius,
    lb := center.b - radius, ub := center.b + radius }

/-- The value of `sqrt(n)` once converted to `int`. -/
def sqrtInt (n : Int) : Int := (Nat.sqrt n.toNat : Nat)

/-- The state of a nearest-neighbour search. -/
structure Search where
  candidate : Point
  source : ColorPoint
  bestDistanceSq : Int
  bounds : BB
deriving DecidableEq, Repr

/-! ## The octree -/

/-- The data members of an `Octree` node other than `parent` and `children`. -/
structure NodeData where
  depth : Nat
  coord : Nat
  bounds : BB
  diameter : Int
  radius : Int
  points : List Bucket
  pointHash : Nat → Option Nat

/-- An `Octree*`. -/
inductive Octree where
  | null : Octree
  | node (data : NodeData) (children : Nat → Octree) : Octree

/-- The constructor `Octree(parent, depth, coord, lr, lg, lb, ur, ug, ub)`. -/
def Octree.new (depth coord : Nat) (lr lg lb ur ug ub : Int) : Octree :=
  .node { depth := depth, coord := coord, bounds := ⟨lr, lg, lb, ur, ug, ub⟩,
          diameter := ((256 >>> depth : Nat) : Int), radius := ((128 >>> depth : Nat) : Int),
          points := [], pointHash := fun _ => none }
        (fun _ => .null)

/-- The root built by `Colorful()`: `root(nullptr, 0, 0)` with the default bounds. -/
def Octree.root : Octree := Octree.new 0 0 0 0 0 256 256 256

def Octree.isNull : Octree → Bool
  | .null => true
  | .node _ _ => false

/-- The value of `points.size()` of the node a pointer refers to (0 for null, never read there). -/
def Octree.pointsSize : Octree → Nat
  | .null => 0
  | .node n _ => n.points.length

/-- Assignment `children[i] = c`. -/
def setChild (children : Nat → Octree) (i : Nat) (c : Octree) : Nat → Octree :=
  fun j => if j = i then c else children j

/-- Assignment `pointHash[h] = i`. -/
def hashSet (m : Nat → Option Nat) (h i : Nat) : Nat → Option Nat :=
  fun k => if k = h then some i else m k

/-- The call `pointHash.erase(h)`. -/
def hashErase (m : Nat → Option Nat) (h : Nat) : Nat → Option Nat :=
  fun k => if k = h then none else m k

/-- `Octree::addr` at a node of the given depth; all intermediate values are `uint8_t`. -/
def addr (depth : Nat) (color : ColorPoint) : Nat :=
  let mask : Nat := (128 >>> depth) % 256
  let over : Nat := (7 + 256 - depth % 256) % 256
  let raddr : Nat := (((Int.land color.r mask) >>> over) % 256).toNat
  let gaddr : Nat := (((Int.land color.g mask) >>> over) % 256).toNat
  let baddr : Nat := (((Int.land color.b mask) >>> over) % 256).toNat
  ((raddr <<< 2) ||| (gaddr <<< 1) ||| baddr) % 256

/-- `Octree::getOrCreateChild`: the children array after the call; the returned pointer is its
entry `addr(color)`. -/
def getOrCreateChild (n : NodeData) (children : Nat → Octree) (color : ColorPoint) :
    Nat → Octree :=
  let caddr := addr n.depth color
  match children caddr with
  | .null =>
    let clr := if color.r > n.bounds.lr + n.radius then n.bounds.lr + n.radius else n.bounds.lr
    let cur := if color.r < n.bounds.ur - n.radius then n.bounds.ur - n.radius else n.bounds.ur
    let clg := if color.g > n.bounds.lg + n.radius then n.bounds.lg + n.radius else n.bounds.lg
    let cug := if color.g < n.bounds.ug - n.radius then n.bounds.ug - n.radius else n.bounds.ug
    let clb := if color.b > n.bounds.lb + n.radius then n.bounds.lb + n.radius else n.bounds.lb
    let cub := if color.b < n.bounds.ub - n.radius then n.bounds.ub - n.radius else n.bounds.ub
    setChild children caddr
      (Octree.new ((n.depth + 1) % 256)
        ((n.coord ||| (caddr <<< (18 - 3 * n.depth))) % 2 ^ 32) clr clg clb cur cug cub)
  | .node _ _ => children

/-- The part of `add` that works on the node itself: a new bucket at the end when the position
hash is unknown, otherwise the point goes at the end of its bucket. -/
def addLocal (n : NodeData) (point : Point) : NodeData :=
  let h := point.space.hash
  match n.pointHash h with
  | none =>
    { n with pointHash := hashSet n.pointHash h n.points.length,
             points := n.points ++ [[point]] }
  | some hashIdx =>
    { n with points := n.points.set hashIdx (n.points.getD hashIdx [] ++ [point]) }

/-- `Octree::add`, with an explicit bound on the recursion depth.  The recursion descends one
level per call while `depth < treeTune`; `Octree.add` supplies `treeTune + 1` levels. -/
def addFuel (colors : Nat → ColorPoint) : Nat → Octree → Point → Octree
  | 0, t, _ => t
  | _ + 1, .null, _ => .null
  | fuel + 1, .node n children, point =>
    let children1 :=
      if n.depth < treeTune then
        let ch := getOrCreateChild n children (colors point.color)
        let caddr := addr n.depth (colors point.color)
        setChild ch caddr (addFuel colors fuel (ch caddr) point)
      else children
    .node (addLocal n point) children1

/-- `Octree::add`. -/
def Octree.add (colors : Nat → ColorPoint) (t : Octree) (point : Point) : Octree :=
  addFuel colors (treeTune + 1) t point

/-- One iteration of the loop of `remove` over the members of `thisBucket`: the state is the
seen-mask and the children array; `rm` is the recursive call `children[a]->remove(point)`. -/
def removeStep (colors : Nat → ColorPoint) (depth : Nat) (rm : Octree → Except Err Octree)
    (st : Nat × (Nat → Octree)) (subpoint : Point) : Except Err (Nat × (Nat → Octree)) :=
  let a := addr depth (colors subpoint.color)
  let o := 1 <<< a
  if st.1 &&& o = 0 then
    match rm (st.2 a) with
    | .error e => .error e
    | .ok c => .ok (st.1 ||| o, setChild st.2 a c)
  else .ok (st.1 ||| o, st.2)

/-- The loop of `remove` over `thisBucket`. -/
def removeLoop (colors : Nat → ColorPoint) (depth : Nat) (rm : Octree → Except Err Octree) :
    List Point → Nat × (Nat → Octree) → Except Err (Nat × (Nat → Octree))
  | [], st => .ok st
  | subpoint :: rest, st =>
    match removeStep colors depth rm st subpoint with
    | .error e => .error e
    | .ok st1 => removeLoop colors depth rm rest st1

/-- The tail of `remove` after the children were handled: swap the last bucket into the hole,
pop, erase the key. -/
def removeLocal (n : NodeData) (h idx : Nat) (lastBucket thisBucket : Bucket) :
    Except Err NodeData :=
  match lastBucket with
  | [] => .error .removeEmptyBucket
  | lastSample :: _ =>
    if lastSample.space.hash ≠ h then
      .ok { n with
            points := ((n.points.set idx lastBucket).set (n.points.length - 1) thisBucket).dropLast,
            pointHash := hashErase (hashSet n.pointHash lastSample.space.hash idx) h }
    else
      .ok { n with points := n.points.dropLast, pointHash := hashErase n.pointHash h }

/-- `Octree::remove`, with an explicit bound on the recursion depth (see `addFuel`). -/
def removeFuel (colors : Nat → ColorPoint) : Nat → Octree → Point → Except Err Octree
  | 0, _, _ => .error .outOfFuel
  | _ + 1, .null, _ => .error .nullDeref
  | fuel + 1, .node n children, point =>
    let h := point.space.hash
    match n.pointHash h with
    | none => .error .removeNonExisting
    | some idx =>
      match n.points.getLast? with
      | none => .error .removeFromEmpty
      | some lastBucket =>
        match n.points.get? idx with
        | none => .error .outOfRange
        | some thisBucket =>
          let handled : Except Err (Nat → Octree) :=
            if n.depth < treeTune then
              match removeLoop colors n.depth (fun c => removeFuel colors fuel c point)
                      thisBucket (0, children) with
              | .error e => .error e
              | .ok st => .ok st.2
            else .ok children
          match handled with
          | .error e => .error e
          | .ok children1 =>
            match removeLocal n h idx lastBucket thisBucket with
            | .error e => .error e
            | .ok n1 => .ok (.node n1 children1)

/-- `Octree::remove`. -/
def Octree.remove (colors : Nat → ColorPoint) (t : Octree) (point : Point) : Except Err Octree :=
  removeFuel colors (treeTune + 1) t point

/-- The loop of `nearestInUs`: the state is `(bestDist, bestBucket)`. -/
def nearestLoop (colors : Nat → ColorPoint) (color : ColorPoint) :
    List Bucket → Int × Bucket → Except Err (Int × Bucket)
  | [], st => .ok st
  | [] :: _, _ => .error .outOfRange
  | (p :: ps) :: rest, st =>
    let dist := color.distanceTo (colors p.color)
    if dist < st.1 then nearestLoop colors color rest (dist, p :: ps)
    else nearestLoop colors color rest st

/-- `Octree::nearestInUs` (`ROTBIAS` is not defined). -/
def nearestInUs (colors : Nat → ColorPoint) (points : List Bucket) (color : ColorPoint) :
    Except Err Point :=
  match points with
  | [] => .error .outOfRange
  | b0 :: _ =>
    match nearestLoop colors color points (90000000, b0) with
    | .error e => .error e
    | .ok (_, []) => .error .outOfRange
    | .ok (_, p :: _) => .ok p

/-- The loop `for (int i = 0; i < 8; i++)` threading the search state through `body`. -/
def searchLoop (body : Nat → Search → Except Err Search) :
    List Nat → Search → Except Err Search
  | [], s => .ok s
  | i :: rest, s =>
    match body i s with
    | .error e => .error e
    | .ok s1 => searchLoop body rest s1

/-- `Octree::NNSearchDown`. -/
def NNSearchDown (colors : Nat → ColorPoint) : Octree → Search → Except Err Search
  | .null, _ => .error .nullDeref
  | .node n children, search =>
    if !search.bounds.intersects n.bounds then .ok search
    else if n.points.length = 0 then .ok search
    else if n.points.length ≤ quadTune then
      match nearestInUs colors n.points search.source with
      | .error e => .error e
      | .ok ourNearest =>
        if search.source.distanceTo (colors ourNearest.color) < search.bestDistanceSq then
          .ok { search with
                candidate := ourNearest,
                bestDistanceSq := search.source.distanceTo (colors ourNearest.color),
                bounds := BB.setAround search.source
                  (sqrtInt (search.source.distanceTo (colors ourNearest.color))) }
        else .ok search
    else if n.depth < treeTune then
      searchLoop (fun i s =>
        match children i with
        | .null => .ok s
        | .node _ _ => NNSearchDown colors (children i) s) (List.range 8) search
    else .ok search

/-- `Octree::NNSearchUp`, called on the first node of the stack of ancestors; each ancestor comes
with the index of the child the search came from (`children[i] != from` is `i ≠ from`; an index
outside `0..7` stands for a `from` that is no child of the node). -/
def NNSearchUp (colors : Nat → ColorPoint) : List (Octree × Nat) → Search → Except Err Search
  | [], _ => .error .nullDeref
  | (.null, _) :: _, _ => .error .nullDeref
  | (.node n children, fromIdx) :: ancestors, search =>
    if !search.bounds.intersects n.bounds then .error .searchWrongTree
    else
      match searchLoop (fun i s =>
          if !(children i).isNull && i ≠ fromIdx then NNSearchDown colors (children i) s
          else .ok s) (List.range 8) search with
      | .error e => .error e
      | .ok search1 =>
        if n.depth > 0 && !n.bounds.contains search1.bounds then
          NNSearchUp colors ancestors search1
        else .ok search1

/-- `Octree::findNearest` on a node reached from the root through `ancestors` (nearest first;
empty for the root, whose `parent` is null). -/
def findNearestFrom (colors : Nat → ColorPoint) :
    Octree → List (Octree × Nat) → ColorPoint → Except Err Point
  | .null, _, _ => .error .nullDeref
  | .node n children, ancestors, color =>
    let child := children (addr n.depth color)
    if n.points.length = 0 then .error .findNearestNoPoints
    else if n.points.length ≤ quadTune || child.isNull || child.pointsSize = 0 then
      match nearestInUs colors n.points color with
      | .error e => .error e
      | .ok ret =>
        let distance := color.distanceTo (colors ret.color)
        let radiusSq := n.radius * n.radius
        if n.depth > 0 && distance > radiusSq then
          let search : Search :=
            { candidate := ret, source := color, bestDistanceSq := distance,
              bounds := BB.setAround color (sqrtInt distance) }
          match NNSearchUp colors ancestors search with
          | .error e => .error e
          | .ok search1 => .ok search1.candidate
        else .ok ret
    else if child.isNull || child.pointsSize = 0 then
      match n.points with
      | [] => .error .outOfRange
      | [] :: _ => .error .outOfRange
      | (p :: _) :: _ =>
        let search : Search :=
          { candidate := p, source := color,
            bestDistanceSq := color.distanceTo (colors p.color), bounds := n.bounds }
        match ancestors with
        | [] =>
          match searchLoop (fun i s =>
              if !(children i).isNull then NNSearchDown colors (children i) s else .ok s)
              (List.range 8) search with
          | .error e => .error e
          | .ok search1 => .ok search1.candidate
        | _ :: _ =>
          match NNSearchUp colors ((.node n children, 8) :: ancestors) search with
          | .error e => .error e
          | .ok search1 =>
            if (children 0).isNull then .error .nullDeref else .ok search1.candidate
    else
      findNearestFrom colors (children (addr n.depth color))
        ((.node n children, addr n.depth color) :: ancestors) color

/-- `Octree::findNearest` called on the root. -/
def Octree.findNearest (colors : Nat → ColorPoint) (t : Octree) (color : ColorPoint) :
    Except Err Point :=
  findNearestFrom colors t [] color

/-! ## The placement driver -/

/-- A pixel of the image (`rgb_pixel`, three bytes). -/
structure RgbPixel where
  red : Nat
  green : Nat
  blue : Nat
deriving DecidableEq, Repr

/-- `ColorPoint::toColor`: the channels converted to bytes. -/
def ColorPoint.toColor (c : ColorPoint) : RgbPixel :=
  ⟨(c.r % 256).toNat, (c.g % 256).toNat, (c.b % 256).toNat⟩

/-- `SpacePoint::getNeighbors` on an empty output list (`OCTNEIGH` and `FARNEIGH` are not
defined): the grid cells pushed, in order. -/
def getNeighbors (space : Nat → SpacePoint) (self : SpacePoint) : List SpacePoint :=
  (if self.x > 0 then [space (spaceOffset (self.x - 1) self.y)] else []) ++
  (if self.x < 4095 then [space (spaceOffset (self.x + 1) self.y)] else []) ++
  (if self.y > 0 then [space (spaceOffset self.x (self.y - 1))] else []) ++
  (if self.y < 4095 then [space (spaceOffset self.x (self.y + 1))] else [])

/-- The state of a `Colorful`.  `written h` is the `written` flag of the grid cell whose hash is
`h` (the cell at offset `h` of `space`, see `fillSpaceSpace`); `puts` is the trace of the calls of
`put`, the latest first. `currentPixel` is an `int` that only counts up from 0. -/
structure Colorful where
  root : Octree
  image : Nat → Nat → RgbPixel
  colors : Nat → ColorPoint
  space : Nat → SpacePoint
  written : Nat → Bool
  currentPixel : Nat
  puts : List (SpacePoint × ColorPoint)

/-- The value of an `int` expression after wrapping to 32 bits. -/
def wrapInt32 (z : Int) : Int := (z + 2 ^ 31) % 2 ^ 32 - 2 ^ 31

/-- The call `swap(colors[i], colors[j])`. -/
def swapColors (colors : Nat → ColorPoint) (i j : Nat) : Nat → ColorPoint :=
  fun k => if k = i then colors j else if k = j then colors i else colors k

/-- The function `put`: `(*image)[point->y][point->x] = color->toColor()`. -/
def put (image : Nat → Nat → RgbPixel) (point : SpacePoint) (color : ColorPoint) :
    Nat → Nat → RgbPixel :=
  fun y x => if y = point.y ∧ x = point.x then color.toColor else image y x

/-- Assignment `point->written = true`. -/
def markWritten (written : Nat → Bool) (point : SpacePoint) : Nat → Bool :=
  fun h => if h = point.hash then true else written h

/-- The loop over the neighbours shared by `seedIdx` and `simulateTo`: every neighbour that is
not written gets a new `Point` with the colour pointer `colors + colorIdx`, added to the root. -/
def addNeighbors (colors : Nat → ColorPoint) (written : Nat → Bool) (colorIdx : Nat) :
    Octree → List SpacePoint → Octree
  | root, [] => root
  | root, it :: rest =>
    if !written it.hash then
      addNeighbors colors written colorIdx (root.add colors ⟨it, colorIdx⟩) rest
    else addNeighbors colors written colorIdx root rest

/-- `Colorful::seedIdx`. -/
def Colorful.seedIdx (st : Colorful) (x y cpIdx0 : Int) : Except Err Colorful :=
  let cpIdx := wrapInt32 (cpIdx0 * 4096)
  if x < 0 || y < 0 || x ≥ 4096 || y ≥ 4096 then .error .seedOutOfBounds
  else if cpIdx < 0 || cpIdx ≥ 4096 * 4096 then .error .seedTooFar
  else
    let colors1 := swapColors st.colors st.currentPixel cpIdx.toNat
    let firstPoint := st.space (spaceOffset x.toNat y.toNat)
    if st.written firstPoint.hash then .error .seedWritten
    else
      let firstColor := colors1 st.currentPixel
      let firstNeighbors := getNeighbors st.space firstPoint
      let root1 := addNeighbors colors1 st.written st.currentPixel st.root firstNeighbors
      .ok { st with
            root := root1,
            colors := colors1,
            image := put st.image firstPoint firstColor,
            puts := (firstPoint, firstColor) :: st.puts,
            written := markWritten st.written firstPoint,
            currentPixel := st.currentPixel + 1 }

/-- The body of the loop of `Colorful::simulateTo` for the palette index `c` (progress output
and snapshots do not touch the state). -/
def Colorful.simulateStep (st : Colorful) (c : Nat) : Except Err Colorful :=
  let at_ := st.colors c
  match st.root.findNearest st.colors at_ with
  | .error e => .error e
  | .ok next =>
    let image1 := put st.image next.space at_
    let written1 := markWritten st.written next.space
    let nextNeighbors := getNeighbors st.space next.space
    let root1 := addNeighbors st.colors written1 c st.root nextNeighbors
    match root1.remove st.colors next with
    | .error e => .error e
    | .ok root2 =>
      .ok { st with root := root2, image := image1, written := written1,
                    puts := (next.space, at_) :: st.puts }

/-- The loop `for (int c = ...; c < idxTo; c++)` with `count` iterations left. -/
def Colorful.simulateLoop : Nat → Nat → Colorful → Except Err Colorful
  | 0, _, st => .ok st
  | count + 1, c, st =>
    match st.simulateStep c with
    | .error e => .error e
    | .ok st1 => Colorful.simulateLoop count (c + 1) st1

/-- `Colorful::simulateTo`. -/
def Colorful.simulateTo (st : Colorful) (idxTo : Int) : Except Err Colorful :=
  if st.currentPixel = 0 then .error .needSeed
  else Colorful.simulateLoop (idxTo - st.currentPixel).toNat st.currentPixel st

/-- The grid `fillSpaceSpace` builds, in closed form (`fillSpaceSpace_eq`): the cell at offset
`o = y << 12 | x` holds `x`, `y` and `hash = o`. -/
def gridSpace : Nat → SpacePoint :=
  fun o => if o < 4096 * 4096 then ⟨o % 4096, o / 4096, o⟩ else ⟨0, 0, 0⟩

/-- The palette `fillColorSpace` builds, in closed form (`fillColorSpace_eq`): the entry
`r << 16 | g << 8 | b` is the colour `(r,g,b)`. -/
def gridColors : Nat → ColorPoint :=
  fun i => if i < 4096 * 4096 then ⟨((i / 65536 : Nat) : Int), ((i / 256 % 256 : Nat) : Int),
    ((i % 256 : Nat) : Int)⟩ else ⟨0, 0, 0⟩

/-- `Colorful::fillSpaceSpace`: the loops over `x` and `y` assigning `x`, `y` and `hash` of the
cell at `spaceOffset(x, y)`, on an array of default `SpacePoint`s. -/
def fillSpaceSpace : Nat → SpacePoint :=
  (List.range 4096).foldl (fun space x =>
    (List.range 4096).foldl (fun space y =>
      fun o => if o = spaceOffset x y then ⟨x, y, spaceOffset x y⟩ else space o) space)
    (fun _ => ⟨0, 0, 0⟩)

/-- `Colorful::fillColorSpace`: the loops over `r`, `g` and `b` assigning the channels of the
entry `r << 16 | g << 8 | b`, on an array of default `ColorPoint`s. -/
def fillColorSpace : Nat → ColorPoint :=
  (List.range 256).foldl (fun colors r =>
    (List.range 256).foldl (fun colors g =>
      (List.range 256).foldl (fun colors b =>
        fun i => if i = ((r <<< 16) ||| (g <<< 8) ||| b)
          then ⟨(r : Int), (g : Int), (b : Int)⟩ else colors i) colors) colors)
    (fun _ => ⟨0, 0, 0⟩)

/-- The constructor `Colorful()`: empty root, black image, `currentPixel = 0`, then
`fillColorSpace()` and `fillSpaceSpace()`. -/
def Colorful.construct : Colorful :=
  { root := Octree.root, image := fun _ _ => ⟨0, 0, 0⟩, colors := fillColorSpace,
    space := fillSpaceSpace, written := fun _ => false, currentPixel := 0, puts := [] }

/-- The state `Colorful()` builds, with the two arrays in closed form (`construct_eq_new`). -/
def Colorful.new : Colorful :=
  { root := Octree.root, image := fun _ _ => ⟨0, 0, 0⟩, colors := gridColors, space := gridSpace,
    written := fun _ => false, currentPixel := 0, puts := [] }

instance instDecidableEqExcept {ε α : Type} [DecidableEq ε] [DecidableEq α] :
    DecidableEq (Except ε α)
  | .ok a, .ok b =>
    if h : a = b then isTrue (by rw [h]) else isFalse (fun h1 => by cases h1; exact h rfl)
  | .error a, .error b =>
    if h : a = b then isTrue (by rw [h]) else isFalse (fun h1 => by cases h1; exact h rfl)
  | .ok _, .error _ => isFalse (fun h1 => by cases h1)
  | .error _, .ok _ => isFalse (fun h1 => by cases h1)

end RustColors

/-! ## Vocabulary of the specification -/

namespace RustColors

/-- A colour of the palette: every channel in `0..255`. -/
def InRange (c : ColorPoint) : Prop :=
  0 ≤ c.r ∧ c.r ≤ 255 ∧ 0 ≤ c.g ∧ c.g ≤ 255 ∧ 0 ≤ c.b ∧ c.b ≤ 255

instance instDecidableInRange (c : ColorPoint) : Decidable (InRange c) := by
  unfold InRange; infer_instance

/-- The bucket a node keeps for the position hash `h` (empty when `h` is no key). -/
def bucketOf (n : NodeData) (h : Nat) : Bucket :=
  match n.pointHash h with
  | none => []
  | some i => n.points.getD i []

/-- The bucket the node behind a pointer keeps for `h`. -/
def Octree.bucketAt : Octree → Nat → Bucket
  | .null, _ => []
  | .node n _, h => bucketOf n h

/-- The point `q` is a member of some bucket of the node. -/
def NodeData.Holds (n : NodeData) (q : Point) : Prop :=
  ∃ b ∈ n.points, q ∈ b

/-- Consistency of `points` and `pointHash` at one node (P2 and P3 of the specification):
every key maps to an index inside `points` whose bucket is non-empty and holds only points of that
position hash, and the keys are in bijection with the indices. -/
structure NodeOK (n : NodeData) : Prop where
  lt : ∀ h i, n.pointHash h = some i → i < n.points.length
  inj : ∀ h k i, n.pointHash h = some i → n.pointHash k = some i → h = k
  surj : ∀ i, i < n.points.length → ∃ h, n.pointHash h = some i
  nonempty : ∀ h i, n.pointHash h = some i → bucketOf n h ≠ []
  hash : ∀ h q, q ∈ bucketOf n h → q.space.hash = h

/-- Well-formed subtree hanging at depth `d`: every node is consistent, knows its depth, nodes at
depth `treeTune` have no children, and the bucket a child keeps for a position consists of exactly
the members of the parent's bucket whose colour routes to that child, in the same order. -/
def WF (colors : Nat → ColorPoint) : Nat → Octree → Prop
  | _, .null => True
  | d, .node n children =>
    n.depth = d ∧ d ≤ treeTune ∧ NodeOK n ∧
    (d = treeTune → ∀ i, children i = .null) ∧
    (∀ i, WF colors (d + 1) (children i)) ∧
    (d < treeTune → ∀ i h, (children i).bucketAt h =
      (bucketOf n h).filter (fun q => addr d (colors q.color) = i))

/-- A well-formed tree: a root node at depth 0. -/
def WFRoot (colors : Nat → ColorPoint) (t : Octree) : Prop :=
  t.isNull = false ∧ WF colors 0 t

/-- Every node of the tree satisfies `P`. -/
def Octree.All (P : NodeData → Prop) : Octree → Prop
  | .null => True
  | .node n children => P n ∧ ∀ i, Octree.All P (children i)

/-- The two trees have the same shape and `R` relates the nodes at the same place. -/
def Octree.Rel (R : NodeData → NodeData → Prop) : Octree → Octree → Prop
  | .null, t => t = .null
  | .node n children, t =>
    match t with
    | .null => False
    | .node n1 children1 => R n n1 ∧ ∀ i, Octree.Rel R (children i) (children1 i)

/-- The node reached by following the child indices of `path` (null when the walk leaves the
tree). -/
def Octree.descend : Octree → List Nat → Octree
  | t, [] => t
  | .null, _ :: _ => .null
  | .node _ children, i :: rest => (children i).descend rest

/-- The child indices `addr` assigns to a colour at the depths `d, d+1, ..., d+k-1`. -/
def addrPath (c : ColorPoint) : Nat → Nat → List Nat
  | _, 0 => []
  | d, k + 1 => addr d c :: addrPath c (d + 1) k

/-- Trees obtained from the empty root by `add` calls and `remove` calls that do not fail. -/
inductive Reachable (colors : Nat → ColorPoint) : Octree → Prop where
  | root : Reachable colors Octree.root
  | add (t : Octree) (p : Point) : Reachable colors t → Reachable colors (t.add colors p)
  | remove (t t1 : Octree) (p : Point) :
      Reachable colors t → t.remove colors p = .ok t1 → Reachable colors t1

/-- The value `pointHash` of the node behind a pointer gives to the key `h`. -/
def Octree.keyAt : Octree → Nat → Option Nat
  | .null, _ => none
  | .node n _, h => n.pointHash h

/-- The node `n1` is the node `n` without the bucket of the position hash `h`: the key `h` is
gone, every other key is still a key and its bucket has the same members in the same order (the
index of a bucket inside `points` may differ). -/
structure RemovedNode (h : Nat) (n n1 : NodeData) : Prop where
  depth : n1.depth = n.depth
  coord : n1.coord = n.coord
  bounds : n1.bounds = n.bounds
  diameter : n1.diameter = n.diameter
  radius : n1.radius = n.radius
  ok : NodeOK n
  ok1 : NodeOK n1
  nokey : n1.pointHash h = none
  keys : ∀ k, k ≠ h → (n1.pointHash k).isSome = (n.pointHash k).isSome
  bucket : ∀ k, bucketOf n1 k = if k = h then [] else bucketOf n k

/-- Every frontier point stored at the root, bucket after bucket. -/
def Octree.allPoints : Octree → List Point
  | .null => []
  | .node n _ => n.points.flatten

end RustColors

namespace RustColors

/-- What the local part of `remove` leaves, stated on lengths, entries and keys. -/
structure RemovedLocal (n n1 : NodeData) (h idx hl : Nat) (last : Bucket) : Prop where
  len : n1.points.length = n.points.length - 1
  get : ∀ i, i < n.points.length - 1 →
    n1.points.getD i [] = if i = idx then last else n.points.getD i []
  key : ∀ k, n1.pointHash k =
    if k = h then none else if k = hl then some idx else n.pointHash k
  depth : n1.depth = n.depth
  coord : n1.coord = n.coord
  bounds : n1.bounds = n.bounds
  diameter : n1.diameter = n.diameter
  radius : n1.radius = n.radius

/-- The state of the loop of `remove` after some members of the bucket were handled: the children
whose bit is set in the mask had the position removed, the others are untouched. -/
def LoopInv (colors : Nat → ColorPoint) (h d : Nat) (ch : Nat → Octree)
    (st : Nat × (Nat → Octree)) : Prop :=
  ∀ i, (st.1.testBit i = true → WF colors (d + 1) (st.2 i) ∧
          Octree.Rel (RemovedNode h) (ch i) (st.2 i)) ∧
       (st.1.testBit i = false → st.2 i = ch i)

/-- The buckets of the node behind a pointer. -/
def Octree.buckets : Octree → List Bucket
  | .null => []
  | .node n _ => n.points

/-- Side of the sub-cube of a node at depth `d`: `256 >> d`. -/
def cubeSide (d : Nat) : Int := ((256 >>> d : Nat) : Int)

/-- The colour lies in the cube with lower corner `(tr,tg,tb)` and side `s`. -/
def InCube (c : ColorPoint) (s tr tg tb : Int) : Prop :=
  (tr ≤ c.r ∧ c.r < tr + s) ∧ (tg ≤ c.g ∧ c.g < tg + s) ∧ (tb ≤ c.b ∧ c.b < tb + s)

/-- On one axis, the interval `[l, u]` of a bounding box covers the interval `[t, t + s)` of the
sub-cube, both ends lie a multiple of `s` away, and the sub-cube is a cell of the grid of side `s`
inside `[0, 256)`. -/
def Aligned (l u t s : Int) : Prop :=
  l ≤ t ∧ t + s ≤ u ∧ (t - l) % s = 0 ∧ (u - (t + s)) % s = 0 ∧ 0 ≤ t ∧ t % s = 0 ∧ t + s ≤ 256

/-- Geometry of a subtree whose top node is at depth `d` and owns the sub-cube with lower corner
`(tr,tg,tb)`: the radius is `128 >> d`, the bounding box covers the sub-cube on every axis, and
the child `i` owns the half selected by the bits of `i` on every axis. -/
def Geo : Octree → Nat → Int → Int → Int → Prop
  | .null, _, _, _, _ => True
  | .node n children, d, tr, tg, tb =>
    n.radius = ((128 >>> d : Nat) : Int) ∧
    Aligned n.bounds.lr n.bounds.ur tr (cubeSide d) ∧
    Aligned n.bounds.lg n.bounds.ug tg (cubeSide d) ∧
    Aligned n.bounds.lb n.bounds.ub tb (cubeSide d) ∧
    ∀ i, Geo (children i) (d + 1)
      (tr + ((i / 4 % 2 : Nat) : Int) * cubeSide (d + 1))
      (tg + ((i / 2 % 2 : Nat) : Int) * cubeSide (d + 1))
      (tb + ((i % 2 : Nat) : Int) * cubeSide (d + 1))

/-- Every member of a bucket of the top node of the subtree satisfies `Q`. -/
def Inside (Q : Point → Prop) (t : Octree) : Prop :=
  ∀ h q, q ∈ t.bucketAt h → Q q

/-- The colour lies in the closed box. -/
def BB.Has (b : BB) (c : ColorPoint) : Prop :=
  (b.lr ≤ c.r ∧ c.r ≤ b.ur) ∧ (b.lg ≤ c.g ∧ c.g ≤ b.ug) ∧ (b.lb ≤ c.b ∧ c.b ≤ b.ub)

/-- The state of a search for `c` is sound: the candidate satisfies `Q`, the source is `c`, and
the search box contains `c`. -/
def SearchInv (Q : Point → Prop) (c : ColorPoint) (s : Search) : Prop :=
  Q s.candidate ∧ s.source = c ∧ s.bounds.Has c

/-- The stack of ancestors walked by `findNearest(c)`: every entry is a well-formed node whose
depth is the number of entries below it, whose bucket members satisfy `Q` and whose box
contains `c`. -/
def StackOK (colors : Nat → ColorPoint) (Q : Point → Prop) (c : ColorPoint) :
    List (Octree × Nat) → Prop
  | [] => True
  | (t, _) :: rest =>
    (∃ n ch, t = .node n ch ∧ n.depth = rest.length ∧ n.bounds.Has c) ∧
    WF colors rest.length t ∧ Inside Q t ∧ StackOK colors Q c rest

/-- Number of cells of the grid, `4096 * 4096`. -/
def gridSize : Nat := 4096 * 4096

/-- The hashes of the cells `getNeighbors` pushes for the cell of hash `g`, in order: left, right,
up, down, each only when it exists. -/
def nbrs (g : Nat) : List Nat :=
  (if g % 4096 > 0 then [g - 1] else []) ++
  (if g % 4096 < 4095 then [g + 1] else []) ++
  (if g / 4096 > 0 then [g - 4096] else []) ++
  (if g / 4096 < 4095 then [g + 4096] else [])

/-- The frontier of a set of written cells: the unwritten cells that some written cell has among
its neighbours. -/
def Frontier (written : Nat → Bool) (h : Nat) : Prop :=
  h < gridSize ∧ written h = false ∧ ∃ g, g < gridSize ∧ written g = true ∧ h ∈ nbrs g

/-- A cell of the grid as `fillSpaceSpace` leaves it: the cell at the offset given by its own
hash. -/
def IsCell (sp : SpacePoint) : Prop :=
  sp.hash < gridSize ∧ sp = gridSpace sp.hash

/-- The index of the driver: a well-formed tree with the geometry of the root, holding grid cells
only, whose keys are exactly the frontier of the written cells. -/
structure TreeInv (colors : Nat → ColorPoint) (written : Nat → Bool) (root : Octree) : Prop where
  wf : WFRoot colors root
  geo : Geo root 0 0 0 0
  cells : ∀ h q, q ∈ root.bucketAt h → IsCell q.space
  keys : ∀ h, root.keyAt h ≠ none ↔ Frontier written h

/-- The state of the driver after `c` pixels were placed: the index is sound, every `put` so far
went to a grid cell, no cell twice, the written cells are the cells of the `put` calls, and the
`k`-th `put` wrote the palette entry `k`. -/
structure DrvInv (st : Colorful) (c : Nat) : Prop where
  tree : TreeInv st.colors st.written st.root
  space : st.space = gridSpace
  pal : ∀ i, InRange (st.colors i)
  len : st.puts.length = c
  cellsPut : ∀ e ∈ st.puts, IsCell e.1
  nodup : (st.puts.map (fun e => e.1.hash)).Nodup
  written : ∀ h, st.written h = true ↔ h ∈ st.puts.map (fun e => e.1.hash)
  colorsPut : st.puts.reverse.map Prod.snd = (List.range c).map st.colors

/-- A driver on which nothing was placed: the state `Colorful()` builds, with any palette of
colours in `0..255` (the palette may have been shuffled). -/
structure Fresh (st : Colorful) : Prop where
  root : st.root = Octree.root
  written : ∀ h, st.written h = false
  currentPixel : st.currentPixel = 0
  puts : st.puts = []
  space : st.space = gridSpace
  pal : ∀ i, InRange (st.colors i)

end RustColors

/-! ## Concrete palettes, cells and trees used as examples -/

namespace RustColors

/-- A palette for the examples: entry 0 is (200,200,200), entry 1 is black, entry 2 is
(250,10,10), the rest is (100,0,0). -/
def palA : Nat → ColorPoint :=
  fun i => if i = 0 then ⟨200, 200, 200⟩ else if i = 1 then ⟨0, 0, 0⟩
    else if i = 2 then ⟨250, 10, 10⟩ else ⟨100, 0, 0⟩

/-- The grid cell (5,7). -/
def cellA : SpacePoint := ⟨5, 7, spaceOffset 5 7⟩

/-- The grid cell (6,7). -/
def cellB : SpacePoint := ⟨6, 7, spaceOffset 6 7⟩

/-- The tree holding two points of cell (5,7) and, between them, one of cell (6,7). -/
def treeA3 : Octree :=
  ((Octree.root.add palA ⟨cellA, 0⟩).add palA ⟨cellB, 1⟩).add palA ⟨cellA, 2⟩

/-- The tree left by the removal of cell (5,7) from `treeA3`. -/
def treeA : Octree :=
  match treeA3.remove palA ⟨cellA, 0⟩ with
  | .ok t => t
  | .error _ => .null

/-- The grid cell (7,7). -/
def cellC : SpacePoint := ⟨7, 7, spaceOffset 7 7⟩

/-- Two points of cell (5,7) whose colours (200,200,200) and (0,0,0) route to the children 7 and
0 of the root. -/
def treeTwo : Octree := (Octree.root.add palA ⟨cellA, 0⟩).add palA ⟨cellA, 1⟩

/-- The tree left by `remove` of the first point of `treeTwo`. -/
def treeTwoRemoved : Octree :=
  match treeTwo.remove palA ⟨cellA, 0⟩ with
  | .ok t => t
  | .error _ => .null

/-- A palette whose entry 64 is (128,0,0) and whose other entries are (100,0,0). -/
def palQ : Nat → ColorPoint :=
  fun i => if i = 64 then ⟨128, 0, 0⟩ else ⟨100, 0, 0⟩

/-- 65 frontier points at the cells (0,0) .. (64,0); point `i` has the colour `palQ i`. -/
def pointsQ : List Point :=
  (List.range 65).map (fun i => ⟨⟨i, 0, spaceOffset i 0⟩, i⟩)

/-- The tree holding `pointsQ`. -/
def treeQ : Octree := pointsQ.foldl (Octree.add palQ) Octree.root

/-- The driver after the call `seedIdx(2048, 2048, 0)` of `main`. -/
def seedCenter : Colorful :=
  match Colorful.new.seedIdx 2048 2048 0 with
  | .ok st => st
  | .error _ => Colorful.new

/-- The driver after `seedIdx(0, 0, 0)`. -/
def seedCorner : Colorful :=
  match Colorful.new.seedIdx 0 0 0 with
  | .ok st => st
  | .error _ => Colorful.new

/-- The driver after `seedIdx(0, 0, 0)` and then `seedIdx(1, 0, 1)`, a cell next to the first. -/
def seedCornerTwice : Colorful :=
  match seedCorner.seedIdx 1 0 1 with
  | .ok st => st
  | .error _ => Colorful.new

/-- The driver after `seedIdx(5, 5, 1)`. -/
def seedRowOne : Colorful :=
  match Colorful.new.seedIdx 5 5 1 with
  | .ok st => st
  | .error _ => Colorful.new

end RustColors

/-! ## The state a `throw` leaves behind, and `shuffleColors` -/

namespace RustColors

/-- The result of a call that may `throw`, read off the state it leaves and the exception. -/
def toExcept {α : Type} : α × Option Err → Except Err α
  | (a, none) => .ok a
  | (_, some e) => .error e

/-- The loop of `remove` over `thisBucket`, as `removeLoop`, returning the seen-mask and the
children array as they are when the loop ends or a child's `remove` throws; `rm` returns the child
as the call leaves it and the exception, if any. -/
def removeLoopS (colors : Nat → ColorPoint) (depth : Nat)
    (rm : Octree → Octree × Option Err) :
    List Point → Nat × (Nat → Octree) → (Nat × (Nat → Octree)) × Option Err
  | [], st => (st, none)
  | subpoint :: rest, st =>
    let a := addr depth (colors subpoint.color)
    let o := 1 <<< a
    if st.1 &&& o = 0 then
      match rm (st.2 a) with
      | (c, some e) => ((st.1, setChild st.2 a c), some e)
      | (c, none) => removeLoopS colors depth rm rest (st.1 ||| o, setChild st.2 a c)
    else removeLoopS colors depth rm rest (st.1 ||| o, st.2)

/-- `Octree::remove`, as `removeFuel`, returning the node as the call leaves it together with the
exception thrown, if any. -/
def removeFuelS (colors : Nat → ColorPoint) : Nat → Octree → Point → Octree × Option Err
  | 0, t, _ => (t, some .outOfFuel)
  | _ + 1, .null, _ => (.null, some .nullDeref)
  | fuel + 1, .node n children, point =>
    let h := point.space.hash
    match n.pointHash h with
    | none => (.node n children, some .removeNonExisting)
    | some idx =>
      match n.points.getLast? with
      | none => (.node n children, some .removeFromEmpty)
      | some lastBucket =>
        match n.points.get? idx with
        | none => (.node n children, some .outOfRange)
        | some thisBucket =>
          let handled : (Nat → Octree) × Option Err :=
            if n.depth < treeTune then
              match removeLoopS colors n.depth (fun c => removeFuelS colors fuel c point)
                      thisBucket (0, children) with
              | (st, e) => (st.2, e)
            else (children, none)
          match handled with
          | (children1, some e) => (.node n children1, some e)
          | (children1, none) =>
            match removeLocal n h idx lastBucket thisBucket with
            | .error e => (.node n children1, some e)
            | .ok n1 => (.node n1 children1, none)

/-- `Octree::remove` with the tree it leaves behind, also when it throws. -/
def Octree.removeS (colors : Nat → ColorPoint) (t : Octree) (point : Point) :
    Octree × Option Err :=
  removeFuelS colors (treeTune + 1) t point

/-- The body of the loop of `simulateTo`, as `simulateStep`, with the driver it leaves behind. -/
def Colorful.simulateStepS (st : Colorful) (c : Nat) : Colorful × Option Err :=
  let at_ := st.colors c
  match st.root.findNearest st.colors at_ with
  | .error e => (st, some e)
  | .ok next =>
    let image1 := put st.image next.space at_
    let written1 := markWritten st.written next.space
    let nextNeighbors := getNeighbors st.space next.space
    let root1 := addNeighbors st.colors written1 c st.root nextNeighbors
    match root1.removeS st.colors next with
    | (root2, e) =>
      ({ st with root := root2, image := image1, written := written1,
                 puts := (next.space, at_) :: st.puts }, e)

/-- The loop of `simulateTo`, as `simulateLoop`, with the driver it leaves behind. -/
def Colorful.simulateLoopS : Nat → Nat → Colorful → Colorful × Option Err
  | 0, _, st => (st, none)
  | count + 1, c, st =>
    match st.simulateStepS c with
    | (st1, some e) => (st1, some e)
    | (st1, none) => Colorful.simulateLoopS count (c + 1) st1

/-- `Colorful::simulateTo` with the driver it leaves behind, also when it throws. -/
def Colorful.simulateToS (st : Colorful) (idxTo : Int) : Colorful × Option Err :=
  if st.currentPixel = 0 then (st, some .needSeed)
  else Colorful.simulateLoopS (idxTo - st.currentPixel).toNat st.currentPixel st

/-- The swap partner of step `i` of `shuffleColors`: `rand() % (4096 * 4096 - i) + i`, where
`rand i` is the value the call of `rand()` in that step returns. -/
def shufflePartner (rand : Nat → Nat) (i : Nat) : Nat :=
  rand i % (4096 * 4096 - i) + i

/-- `Colorful::shuffleColors` on the palette (`LOOSESHUFFLE` is not defined): the loop over
`i = 0 .. 4096 * 4096 - 2` swapping the entries `i` and `j`. -/
def shuffleColors (colors : Nat → ColorPoint) (rand : Nat → Nat) : Nat → ColorPoint :=
  (List.range (4096 * 4096 - 1)).foldl
    (fun cs i => swapColors cs i (shufflePartner rand i)) colors

/-- The hypothesis of BB claims: lower below upper on every axis. -/
def BB.Proper (b : BB) : Prop :=
  b.lr < b.ur ∧ b.lg < b.ug ∧ b.lb < b.ub

end RustColors

/-! ## Examples: a thick node at depth `treeTune`, and the root node -/

namespace RustColors

/-- The member `bounds` of the node behind a pointer (the empty box for null, never read
there). -/
def Octree.box : Octree → BB
  | .null => ⟨0, 0, 0, 0, 0, 0⟩
  | .node n _ => n.bounds

/-- A palette whose entry 65 is black and whose other entries are (17,0,0). -/
def palD : Nat → ColorPoint :=
  fun i => if i = 65 then ⟨0, 0, 0⟩ else ⟨17, 0, 0⟩

/-- 66 frontier points at the cells (0,0) .. (65,0); point `i` has the colour `palD i`. -/
def pointsD : List Point :=
  (List.range 66).map (fun i => ⟨⟨i, 0, spaceOffset i 0⟩, i⟩)

/-- The tree holding `pointsD`. -/
def treeD : Octree := pointsD.foldl (Octree.add palD) Octree.root

/-- The node of `treeD` at depth 4 with the box `[16,32) x [0,16) x [0,16)`: the 65 points of
colour (17,0,0) are routed to it. -/
def leafD : Octree := treeD.descend [0, 0, 0, 4]

/-- The search for (15,0,0) whose best candidate so far is the black point of `treeD`, at squared
distance 225. -/
def searchD : Search :=
  { candidate := ⟨⟨65, 0, 65⟩, 65⟩, source := ⟨15, 0, 0⟩, bestDistanceSq := 225,
    bounds := BB.setAround ⟨15, 0, 0⟩ 15 }

/-- The data of the root node `Colorful()` builds. -/
def rootNode : NodeData :=
  { depth := 0, coord := 0, bounds := ⟨0, 0, 0, 256, 256, 256⟩, diameter := 256, radius := 128,
    points := [], pointHash := fun _ => none }

/-- Three buckets whose first members have the colours (200,200,200), (100,0,0) and (100,0,0)
of `palA`; the second bucket holds a black point behind its first member. -/
def bucketsA : List Bucket :=
  [[⟨cellA, 0⟩], [⟨cellB, 3⟩, ⟨cellB, 1⟩], [⟨cellC, 4⟩]]

end RustColors

/-! ## The child index as the specification writes it, and first members of buckets -/

namespace RustColors

/-- The child index in the words of the specification, `((c.r & m) >> k) << 2 |
((c.g & m) >> k) << 1 | ((c.b & m) >> k)` with `m = 128 >> d` and `k = 7 - d`, on unbounded
integers: nothing is cut to 8 bits.  It is compared with `addr`, the code. -/
def addrSpec (d : Nat) (c : ColorPoint) : Nat :=
  let m : Nat := 128 >>> d
  let k : Nat := 7 - d
  ((((Int.land c.r m) >>> k).toNat <<< 2) ||| (((Int.land c.g m) >>> k).toNat <<< 1) |||
    ((Int.land c.b m) >>> k).toNat)

/-- The point `p` is the first member of a bucket of some node of the tree. -/
def Octree.HeadOf (t : Octree) (p : Point) : Prop :=
  ∃ path n ch, t.descend path = .node n ch ∧ ∃ b ∈ n.points, b.head? = some p

end RustColors

/-! ## The image a trace of `put` calls leaves -/

namespace RustColors

/-- The image after the calls of `put` of a trace (the latest call first) on the image `img`. -/
def replayPuts : List (SpacePoint × ColorPoint) → (Nat → Nat → RgbPixel) → Nat → Nat → RgbPixel
  | [], img => img
  | e :: rest, img => put (replayPuts rest img) e.1 e.2

end RustColors


/-! ## One node: `points` and `pointHash` under the local parts of `add` and `remove` -/

namespace RustColors

theorem bucketOf_none {n : NodeData} {h : Nat} (hn : n.pointHash h = none) :
    bucketOf n h = [] := by
  simp [bucketOf, hn]

theorem bucketOf_some {n : NodeData} {h i : Nat} (hn : n.pointHash h = some i) :
    bucketOf n h = n.points.getD i [] := by
  simp [bucketOf, hn]

theorem NodeOK.bucketOf_eq_nil_iff {n : NodeData} (ok : NodeOK n) (h : Nat) :
    bucketOf n h = [] ↔ n.pointHash h = none := by
  constructor
  · intro hb
    cases hn : n.pointHash h with
    | none => rfl
    | some i => exact absurd hb (ok.nonempty h i hn)
  · exact bucketOf_none

theorem getD_mem_of_lt {l : List Bucket} {i : Nat} (hi : i < l.length) : l.getD i [] ∈ l := by
  rw [List.getD_eq_getElem _ _ hi]
  exact List.getElem_mem hi

/-- Membership in some bucket of a consistent node is membership in the bucket of the point's
own hash. -/
theorem NodeOK.holds_iff {n : NodeData} (ok : NodeOK n) (q : Point) :
    n.Holds q ↔ q ∈ bucketOf n q.space.hash := by
  constructor
  · rintro ⟨b, hb, hq⟩
    obtain ⟨i, hi, rfl⟩ := List.getElem_of_mem hb
    obtain ⟨h, hh⟩ := ok.surj i hi
    have hget : n.points.getD i [] = n.points[i] := List.getD_eq_getElem _ _ hi
    have hq2 : q ∈ bucketOf n h := by rw [bucketOf_some hh, hget]; exact hq
    rw [ok.hash h q hq2]
    exact hq2
  · intro hq
    cases hn : n.pointHash q.space.hash with
    | none => simp [bucketOf_none hn] at hq
    | some i =>
      rw [bucketOf_some hn] at hq
      exact ⟨_, getD_mem_of_lt (ok.lt _ _ hn), hq⟩

theorem addLocal_none {n : NodeData} {p : Point} (hn : n.pointHash p.space.hash = none) :
    addLocal n p = { n with pointHash := hashSet n.pointHash p.space.hash n.points.length,
                            points := n.points ++ [[p]] } := by
  simp [addLocal, hn]

theorem addLocal_some {n : NodeData} {p : Point} {idx : Nat}
    (hn : n.pointHash p.space.hash = some idx) :
    addLocal n p = { n with points := n.points.set idx (n.points.getD idx [] ++ [p]) } := by
  simp [addLocal, hn]

theorem bucketOf_addLocal {n : NodeData} (ok : NodeOK n) (p : Point) (k : Nat) :
    bucketOf (addLocal n p) k =
      if k = p.space.hash then bucketOf n k ++ [p] else bucketOf n k := by
  cases hn : n.pointHash p.space.hash with
  | none =>
    rw [addLocal_none hn]
    by_cases hk : k = p.space.hash
    · subst hk
      simp [bucketOf, hn, hashSet]
    · simp only [bucketOf, hashSet, hk, if_false]
      cases hk2 : n.pointHash k with
      | none => rfl
      | some j =>
        have := ok.lt k j hk2
        simp [List.getD_eq_getElem?_getD, List.getElem?_append_left this]
  | some idx =>
    rw [addLocal_some hn]
    have hidx := ok.lt _ _ hn
    by_cases hk : k = p.space.hash
    · subst hk
      simp [bucketOf, hn, List.getD_eq_getElem?_getD, List.getElem?_set_self hidx]
    · simp only [bucketOf, hk, if_false]
      cases hk2 : n.pointHash k with
      | none => rfl
      | some j =>
        have hne : idx ≠ j := fun e => hk (ok.inj _ _ _ hk2 (e ▸ hn))
        simp [List.getD_eq_getElem?_getD, List.getElem?_set_ne hne]

theorem nodeOK_addLocal {n : NodeData} (ok : NodeOK n) (p : Point) : NodeOK (addLocal n p) := by
  have hb := bucketOf_addLocal ok p
  have hnonempty : ∀ h, bucketOf n h ≠ [] ∨ h = p.space.hash → bucketOf (addLocal n p) h ≠ [] := by
    intro h hh
    rw [hb]
    split
    · simp
    · rcases hh with hh | hh
      · exact hh
      · contradiction
  have hhash : ∀ h q, q ∈ bucketOf (addLocal n p) h → q.space.hash = h := by
    intro h q hq
    rw [hb] at hq
    split at hq
    · rename_i he
      simp only [List.mem_append, List.mem_singleton] at hq
      rcases hq with hq | hq
      · exact ok.hash h q hq
      · rw [hq, he]
    · exact ok.hash h q hq
  cases hn : n.pointHash p.space.hash with
  | none =>
    rw [addLocal_none hn] at hnonempty hhash ⊢
    refine ⟨?_, ?_, ?_, ?_, hhash⟩
    · intro h i hi
      simp only [hashSet] at hi
      simp only [List.length_append, List.length_singleton]
      split at hi
      · cases hi; omega
      · have := ok.lt h i hi; omega
    · intro h k i hh hk
      simp only [hashSet] at hh hk
      split at hh <;> split at hk
      · simp_all
      · cases hh; have := ok.lt _ _ hk; omega
      · cases hk; have := ok.lt _ _ hh; omega
      · exact ok.inj _ _ _ hh hk
    · intro i hi
      simp only [List.length_append, List.length_singleton] at hi
      by_cases hlt : i < n.points.length
      · obtain ⟨h, hh⟩ := ok.surj i hlt
        refine ⟨h, ?_⟩
        have : h ≠ p.space.hash := fun e => by rw [e, hn] at hh; cases hh
        simp [hashSet, this, hh]
      · exact ⟨p.space.hash, by simp [hashSet]; omega⟩
    · intro h i hi
      apply hnonempty
      simp only [hashSet] at hi
      split at hi
      · right; assumption
      · left; exact ok.nonempty h i hi
  | some idx =>
    rw [addLocal_some hn] at hnonempty hhash ⊢
    have hidx := ok.lt _ _ hn
    refine ⟨?_, ok.inj, ?_, ?_, hhash⟩
    · intro h i hi
      simpa using ok.lt h i hi
    · intro i hi
      exact ok.surj i (by simpa using hi)
    · intro h i hi
      exact hnonempty h (Or.inl (ok.nonempty h i hi))

end RustColors


/-! ## One node: the local part of `remove` -/

namespace RustColors

theorem getD_dropLast {l : List Bucket} {i : Nat} (hi : i < l.length - 1) :
    l.dropLast.getD i [] = l.getD i [] := by
  simp only [List.getD_eq_getElem?_getD, List.getElem?_dropLast]
  rw [if_pos hi]

theorem removeLocal_spec {n : NodeData} (ok : NodeOK n) {h idx : Nat}
    (hn : n.pointHash h = some idx) {last this : Bucket}
    (hlast : n.points.getLast? = some last) (hthis : n.points.get? idx = some this) :
    ∃ n1 hl, removeLocal n h idx last this = .ok n1 ∧
      n.pointHash hl = some (n.points.length - 1) ∧
      last = n.points.getD (n.points.length - 1) [] ∧
      RemovedLocal n n1 h idx hl last := by
  have hidx := ok.lt _ _ hn
  have hlen : n.points.length - 1 < n.points.length := by omega
  have hlastD : last = n.points.getD (n.points.length - 1) [] := by
    rw [List.getLast?_eq_getElem?] at hlast
    simp [List.getD_eq_getElem?_getD, hlast]
  obtain ⟨kl, hkl⟩ := ok.surj _ hlen
  have hne : last ≠ [] := by
    rw [hlastD, ← bucketOf_some hkl]; exact ok.nonempty _ _ hkl
  obtain ⟨s, rest, hs⟩ := List.exists_cons_of_ne_nil hne
  have hsl : s.space.hash = kl := by
    apply ok.hash
    rw [bucketOf_some hkl, ← hlastD, hs]
    exact List.mem_cons_self _ _
  subst hs
  by_cases hc : s.space.hash = h
  · have hidx2 : idx = n.points.length - 1 := by
      have : kl = h := by rw [← hsl, hc]
      subst this
      rw [hn] at hkl
      exact Option.some.inj hkl
    refine ⟨{ n with points := n.points.dropLast, pointHash := hashErase n.pointHash h }, kl,
      by simp [removeLocal, hc], hkl, hlastD, ?_, ?_, ?_, rfl, rfl, rfl, rfl, rfl⟩
    · simp
    · intro i hi
      rw [if_neg (by omega)]
      exact getD_dropLast hi
    · intro k
      simp only [hashErase]
      by_cases hk : k = h
      · simp [hk]
      · have : k ≠ kl := by rw [← hsl, hc]; exact hk
        simp [hk, this]
  · have hidx2 : idx ≠ n.points.length - 1 := by
      intro e
      rw [e] at hn
      exact hc (by rw [hsl]; exact ok.inj _ _ _ hkl hn)
    refine ⟨{ n with
        points := ((n.points.set idx (s :: rest)).set (n.points.length - 1) this).dropLast,
        pointHash := hashErase (hashSet n.pointHash s.space.hash idx) h }, kl,
      by simp [removeLocal, hc], hkl, hlastD, ?_, ?_, ?_, rfl, rfl, rfl, rfl, rfl⟩
    · simp
    · intro i hi
      rw [getD_dropLast (by simpa using hi)]
      simp only [List.getD_eq_getElem?_getD]
      rw [List.getElem?_set_ne (by omega)]
      by_cases hi2 : i = idx
      · subst hi2; simp [List.getElem?_set_self hidx]
      · rw [List.getElem?_set_ne (fun e => hi2 e.symm), if_neg hi2]
    · intro k
      simp only [hashErase, hashSet, hsl]

/-- The buckets after the local part of `remove`: the bucket of `h` is gone, the others keep
their contents. -/
theorem RemovedLocal.bucketOf_eq {n n1 : NodeData} {h idx hl : Nat} {last : Bucket}
    (ok : NodeOK n) (hn : n.pointHash h = some idx)
    (hkl : n.pointHash hl = some (n.points.length - 1))
    (hlastD : last = n.points.getD (n.points.length - 1) [])
    (r : RemovedLocal n n1 h idx hl last) (k : Nat) :
    bucketOf n1 k = if k = h then [] else bucketOf n k := by
  have hidx := ok.lt _ _ hn
  by_cases hk : k = h
  · rw [if_pos hk]
    apply bucketOf_none
    rw [r.key, if_pos hk]
  · rw [if_neg hk]
    by_cases hk2 : k = hl
    · subst hk2
      have hne : idx ≠ n.points.length - 1 := fun e => hk (ok.inj _ _ _ hkl (e ▸ hn))
      have h1 : n1.pointHash k = some idx := by rw [r.key, if_neg hk, if_pos rfl]
      rw [bucketOf_some h1, bucketOf_some hkl, r.get idx (by omega), if_pos rfl, hlastD]
    · cases hj : n.pointHash k with
      | none =>
        rw [bucketOf_none hj]
        apply bucketOf_none
        rw [r.key, if_neg hk, if_neg hk2, hj]
      | some j =>
        have h1 : n1.pointHash k = some j := by rw [r.key, if_neg hk, if_neg hk2, hj]
        have hj1 : j ≠ idx := fun e => hk (ok.inj _ _ _ (e ▸ hj) hn)
        have hj2 : j ≠ n.points.length - 1 := fun e => hk2 (ok.inj _ _ _ (e ▸ hj) hkl)
        have hj3 := ok.lt _ _ hj
        rw [bucketOf_some h1, bucketOf_some hj, r.get j (by omega), if_neg hj1]

theorem RemovedLocal.nodeOK {n n1 : NodeData} {h idx hl : Nat} {last : Bucket}
    (ok : NodeOK n) (hn : n.pointHash h = some idx)
    (hkl : n.pointHash hl = some (n.points.length - 1))
    (hlastD : last = n.points.getD (n.points.length - 1) [])
    (r : RemovedLocal n n1 h idx hl last) : NodeOK n1 := by
  have hidx := ok.lt _ _ hn
  have hb := r.bucketOf_eq ok hn hkl hlastD
  have hkey : ∀ k j, n1.pointHash k = some j → k ≠ h ∧
      ((k = hl ∧ j = idx) ∨ (k ≠ hl ∧ n.pointHash k = some j)) := by
    intro k j hj
    rw [r.key] at hj
    split at hj
    · cases hj
    · split at hj
      · rename_i h1 h2; exact ⟨h1, Or.inl ⟨h2, (Option.some.inj hj).symm⟩⟩
      · rename_i h1 h2; exact ⟨h1, Or.inr ⟨h2, hj⟩⟩
  refine ⟨?_, ?_, ?_, ?_, ?_⟩
  · intro k j hj
    rw [r.len]
    obtain ⟨hk, hj2 | hj2⟩ := hkey k j hj
    · obtain ⟨rfl, rfl⟩ := hj2
      have hne : j ≠ n.points.length - 1 := fun e => hk (ok.inj _ _ _ hkl (e ▸ hn))
      omega
    · have h1 : j ≠ n.points.length - 1 := fun e => hj2.1 (ok.inj _ _ _ (e ▸ hj2.2) hkl)
      have := ok.lt _ _ hj2.2
      omega
  · intro a b j ha hb2
    obtain ⟨hka, ha2 | ha2⟩ := hkey a j ha <;> obtain ⟨hkb, hb3 | hb3⟩ := hkey b j hb2
    · rw [ha2.1, hb3.1]
    · exact absurd (ok.inj _ _ _ (ha2.2 ▸ hb3.2) hn) hkb
    · exact absurd (ok.inj _ _ _ (hb3.2 ▸ ha2.2) hn) hka
    · exact ok.inj _ _ _ ha2.2 hb3.2
  · intro i hi
    rw [r.len] at hi
    by_cases hi2 : i = idx
    · subst hi2
      refine ⟨hl, ?_⟩
      have : hl ≠ h := fun e => by
        rw [e, hn] at hkl
        have := Option.some.inj hkl
        omega
      rw [r.key, if_neg this, if_pos rfl]
    · obtain ⟨k, hk⟩ := ok.surj i (by omega)
      refine ⟨k, ?_⟩
      have h1 : k ≠ h := fun e => hi2 (by rw [e, hn] at hk; exact (Option.some.inj hk).symm)
      have h2 : k ≠ hl := fun e => by
        rw [e, hkl] at hk
        have := Option.some.inj hk
        omega
      rw [r.key, if_neg h1, if_neg h2, hk]
  · intro k j hj
    obtain ⟨hk, hj2 | hj2⟩ := hkey k j hj
    · rw [hb, if_neg hk, hj2.1]
      exact ok.nonempty _ _ hkl
    · rw [hb, if_neg hk]
      exact ok.nonempty _ _ hj2.2
  · intro k q hq
    rw [hb] at hq
    split at hq
    · simp at hq
    · exact ok.hash k q hq

end RustColors


/-! ## `add` keeps the tree well formed -/

namespace RustColors

theorem addLocal_depth (n : NodeData) (p : Point) : (addLocal n p).depth = n.depth := by
  cases hn : n.pointHash p.space.hash with
  | none => rw [addLocal_none hn]
  | some i => rw [addLocal_some hn]

theorem addLocal_radius (n : NodeData) (p : Point) : (addLocal n p).radius = n.radius := by
  cases hn : n.pointHash p.space.hash with
  | none => rw [addLocal_none hn]
  | some i => rw [addLocal_some hn]

theorem addLocal_bounds (n : NodeData) (p : Point) : (addLocal n p).bounds = n.bounds := by
  cases hn : n.pointHash p.space.hash with
  | none => rw [addLocal_none hn]
  | some i => rw [addLocal_some hn]

theorem nodeOK_empty (n : NodeData) (hp : n.points = []) (hh : ∀ k, n.pointHash k = none) :
    NodeOK n := by
  refine ⟨?_, ?_, ?_, ?_, ?_⟩
  · intro h i hi; rw [hh] at hi; cases hi
  · intro h k i hi; rw [hh] at hi; cases hi
  · intro i hi; rw [hp] at hi; cases hi
  · intro h i hi; rw [hh] at hi; cases hi
  · intro h q hq; rw [bucketOf_none (hh h)] at hq; cases hq

theorem bucketAt_new (d c : Nat) (lr lg lb ur ug ub : Int) (h : Nat) :
    (Octree.new d c lr lg lb ur ug ub).bucketAt h = [] := rfl

theorem wf_new (colors : Nat → ColorPoint) (d c : Nat) (lr lg lb ur ug ub : Int)
    (hd : d ≤ treeTune) : WF colors d (Octree.new d c lr lg lb ur ug ub) := by
  unfold Octree.new WF
  refine ⟨rfl, hd, nodeOK_empty _ rfl (fun _ => rfl), fun _ _ => rfl, fun _ => ?_, ?_⟩
  · simp [WF]
  · intro _ i h
    simp [Octree.bucketAt, bucketOf]

theorem wfRoot_root (colors : Nat → ColorPoint) : WFRoot colors Octree.root :=
  ⟨rfl, wf_new colors 0 0 0 0 0 256 256 256 (by decide)⟩

theorem setChild_same (ch : Nat → Octree) (i : Nat) (c : Octree) : setChild ch i c i = c := by
  simp [setChild]

theorem setChild_other (ch : Nat → Octree) {i j : Nat} (c : Octree) (h : j ≠ i) :
    setChild ch i c j = ch j := by
  simp [setChild, h]

/-- `getOrCreateChild` leaves a node at `addr(color)`, keeps every other entry, and the
entry at `addr(color)` is the old one or a fresh empty node one level down. -/
theorem getOrCreateChild_spec (n : NodeData) (ch : Nat → Octree) (c : ColorPoint) :
    (∀ i, i ≠ addr n.depth c → getOrCreateChild n ch c i = ch i) ∧
    (getOrCreateChild n ch c (addr n.depth c)).isNull = false ∧
    ((ch (addr n.depth c)).isNull = false →
      getOrCreateChild n ch c (addr n.depth c) = ch (addr n.depth c)) ∧
    ((ch (addr n.depth c)).isNull = true →
      ∃ co lr lg lb ur ug ub, getOrCreateChild n ch c (addr n.depth c) =
        Octree.new ((n.depth + 1) % 256) co lr lg lb ur ug ub) := by
  unfold getOrCreateChild
  cases hc : ch (addr n.depth c) with
  | null =>
    refine ⟨fun i hi => setChild_other _ _ hi, ?_, ?_, ?_⟩
    · simp only [setChild_same]; rfl
    · intro h; simp [Octree.isNull] at h
    · intro _; simp only [setChild_same]; exact ⟨_, _, _, _, _, _, _, rfl⟩
  | node m mch =>
    refine ⟨fun i _ => rfl, ?_, ?_, ?_⟩
    · simp [hc, Octree.isNull]
    · intro _; exact hc
    · intro h; simp [Octree.isNull] at h

theorem bucketAt_of_isNull {t : Octree} (h : t.isNull = true) (k : Nat) : t.bucketAt k = [] := by
  cases t with
  | null => rfl
  | node _ _ => simp [Octree.isNull] at h

theorem wf_of_isNull (colors : Nat → ColorPoint) (d : Nat) {t : Octree} (h : t.isNull = true) :
    WF colors d t := by
  cases t with
  | null => simp [WF]
  | node _ _ => simp [Octree.isNull] at h

theorem getOrCreateChild_bucketAt (n : NodeData) (ch : Nat → Octree) (c : ColorPoint)
    (i k : Nat) : (getOrCreateChild n ch c i).bucketAt k = (ch i).bucketAt k := by
  obtain ⟨h1, _, h3, h4⟩ := getOrCreateChild_spec n ch c
  by_cases hi : i = addr n.depth c
  · subst hi
    cases hnull : (ch (addr n.depth c)).isNull with
    | false => rw [h3 hnull]
    | true =>
      obtain ⟨co, lr, lg, lb, ur, ug, ub, he⟩ := h4 hnull
      rw [he, bucketAt_new, bucketAt_of_isNull hnull]
  · rw [h1 i hi]

theorem getOrCreateChild_wf (colors : Nat → ColorPoint) (n : NodeData) (ch : Nat → Octree)
    (c : ColorPoint) (hd : n.depth < treeTune) (hch : ∀ i, WF colors (n.depth + 1) (ch i))
    (i : Nat) : WF colors (n.depth + 1) (getOrCreateChild n ch c i) := by
  obtain ⟨h1, _, h3, h4⟩ := getOrCreateChild_spec n ch c
  by_cases hi : i = addr n.depth c
  · subst hi
    cases hnull : (ch (addr n.depth c)).isNull with
    | false => rw [h3 hnull]; exact hch _
    | true =>
      obtain ⟨co, lr, lg, lb, ur, ug, ub, he⟩ := h4 hnull
      rw [he]
      have : (n.depth + 1) % 256 = n.depth + 1 := by
        unfold treeTune at hd; omega
      rw [this]
      exact wf_new colors _ _ _ _ _ _ _ _ (by unfold treeTune at hd ⊢; omega)
  · rw [h1 i hi]; exact hch i

theorem addFuel_succ_node (colors : Nat → ColorPoint) (fuel : Nat) (n : NodeData)
    (ch : Nat → Octree) (p : Point) :
    addFuel colors (fuel + 1) (.node n ch) p =
      .node (addLocal n p)
        (if n.depth < treeTune then
          setChild (getOrCreateChild n ch (colors p.color)) (addr n.depth (colors p.color))
            (addFuel colors fuel
              (getOrCreateChild n ch (colors p.color) (addr n.depth (colors p.color))) p)
         else ch) := rfl

/-- With enough levels of recursion `add` keeps a subtree well formed and appends the point to
the bucket of its position at the subtree's top node. -/
theorem addFuel_wf (colors : Nat → ColorPoint) (p : Point) :
    ∀ (fuel d : Nat) (t : Octree), WF colors d t → t.isNull = false → treeTune + 1 ≤ d + fuel →
      WF colors d (addFuel colors fuel t p) ∧ (addFuel colors fuel t p).isNull = false ∧
      ∀ k, (addFuel colors fuel t p).bucketAt k =
        if k = p.space.hash then t.bucketAt k ++ [p] else t.bucketAt k := by
  intro fuel
  induction fuel with
  | zero =>
    intro d t hwf hnull hfuel
    cases t with
    | null => simp [Octree.isNull] at hnull
    | node n ch =>
      simp only [WF] at hwf
      omega
  | succ fuel ih =>
    intro d t hwf hnull hfuel
    cases t with
    | null => simp [Octree.isNull] at hnull
    | node n ch =>
      rw [addFuel_succ_node]
      simp only [WF] at hwf
      obtain ⟨hdep, hd, hok, hleaf, hch, hfil⟩ := hwf
      have hbk : ∀ k, bucketOf (addLocal n p) k =
          if k = p.space.hash then bucketOf n k ++ [p] else bucketOf n k :=
        bucketOf_addLocal hok p
      refine ⟨?_, rfl, fun k => by simp only [Octree.bucketAt]; exact hbk k⟩
      simp only [WF]
      refine ⟨by rw [addLocal_depth]; exact hdep, hd, nodeOK_addLocal hok p, ?_, ?_, ?_⟩
      · intro h4 i
        rw [if_neg (by rw [hdep, h4]; exact Nat.lt_irrefl _)]
        exact hleaf h4 i
      · intro i
        split
        · rename_i hlt
          subst hdep
          obtain ⟨_, hnn, _, _⟩ := getOrCreateChild_spec n ch (colors p.color)
          by_cases hi : i = addr n.depth (colors p.color)
          · subst hi
            rw [setChild_same]
            refine (ih (n.depth + 1) _ (getOrCreateChild_wf colors n ch _ hlt hch _) hnn
              (by omega)).1
          · rw [setChild_other _ _ hi]
            exact getOrCreateChild_wf colors n ch _ hlt hch i
        · exact hch i
      · intro hlt i h
        subst hdep
        rw [if_pos hlt, hbk]
        obtain ⟨_, hnn, _, _⟩ := getOrCreateChild_spec n ch (colors p.color)
        by_cases hi : i = addr n.depth (colors p.color)
        · subst hi
          rw [setChild_same]
          rw [(ih (n.depth + 1) _ (getOrCreateChild_wf colors n ch _ hlt hch _) hnn
              (by omega)).2.2 h, getOrCreateChild_bucketAt, hfil hlt]
          split
          · simp [List.filter_append]
          · rfl
        · rw [setChild_other _ _ hi, getOrCreateChild_bucketAt, hfil hlt]
          split
          · have : ¬ addr n.depth (colors p.color) = i := fun e => hi e.symm
            simp [List.filter_append, this]
          · rfl

theorem add_wfRoot {colors : Nat → ColorPoint} {t : Octree} (hwf : WFRoot colors t) (p : Point) :
    WFRoot colors (t.add colors p) :=
  let r := addFuel_wf colors p (treeTune + 1) 0 t hwf.2 hwf.1 (by omega)
  ⟨r.2.1, r.1⟩

theorem add_bucketAt {colors : Nat → ColorPoint} {t : Octree} (hwf : WFRoot colors t) (p : Point)
    (k : Nat) : (t.add colors p).bucketAt k =
      if k = p.space.hash then t.bucketAt k ++ [p] else t.bucketAt k :=
  (addFuel_wf colors p (treeTune + 1) 0 t hwf.2 hwf.1 (by omega)).2.2 k

end RustColors


/-! ## `remove` on a well-formed tree -/

namespace RustColors

theorem and_two_pow_eq_zero (m a : Nat) : m &&& 2 ^ a = 0 ↔ m.testBit a = false := by
  constructor
  · intro h
    have := Nat.testBit_and m (2 ^ a) a
    rw [h, Nat.zero_testBit, Nat.testBit_two_pow_self, Bool.and_true] at this
    exact this.symm
  · intro h
    apply Nat.eq_of_testBit_eq
    intro i
    rw [Nat.testBit_and, Nat.zero_testBit, Nat.testBit_two_pow]
    by_cases hi : a = i
    · subst hi; simp [h]
    · simp [hi]

theorem testBit_or_two_pow (m a i : Nat) :
    (m ||| 2 ^ a).testBit i = (m.testBit i || decide (a = i)) := by
  rw [Nat.testBit_or, Nat.testBit_two_pow]

theorem RemovedLocal.removedNode {n n1 : NodeData} {h idx hl : Nat} {last : Bucket}
    (ok : NodeOK n) (hn : n.pointHash h = some idx)
    (hkl : n.pointHash hl = some (n.points.length - 1))
    (hlastD : last = n.points.getD (n.points.length - 1) [])
    (r : RemovedLocal n n1 h idx hl last) : RemovedNode h n n1 where
  depth := r.depth
  coord := r.coord
  bounds := r.bounds
  diameter := r.diameter
  radius := r.radius
  ok := ok
  ok1 := r.nodeOK ok hn hkl hlastD
  nokey := by rw [r.key, if_pos rfl]
  keys := by
    intro k hk
    rw [r.key, if_neg hk]
    split
    · rename_i hk2; rw [hk2, hkl]; rfl
    · rfl
  bucket := r.bucketOf_eq ok hn hkl hlastD

theorem removedNode_refl {n : NodeData} (ok : NodeOK n) {h : Nat} (hn : n.pointHash h = none) :
    RemovedNode h n n where
  depth := rfl
  coord := rfl
  bounds := rfl
  diameter := rfl
  radius := rfl
  ok := ok
  ok1 := ok
  nokey := hn
  keys := fun _ _ => rfl
  bucket := by
    intro k
    split
    · rename_i hk; rw [hk]; exact bucketOf_none hn
    · rfl

/-- A well-formed subtree whose top node has no bucket for `h` has none anywhere. -/
theorem rel_removed_refl (colors : Nat → ColorPoint) (h : Nat) :
    ∀ (t : Octree) (d : Nat), WF colors d t → t.bucketAt h = [] →
      Octree.Rel (RemovedNode h) t t := by
  intro t
  induction t with
  | null => intro d _ _; simp [Octree.Rel]
  | node n ch ih =>
    intro d hwf hb
    simp only [WF] at hwf
    obtain ⟨hdep, hd, hok, hleaf, hch, hfil⟩ := hwf
    simp only [Octree.Rel]
    refine ⟨removedNode_refl hok ((hok.bucketOf_eq_nil_iff h).1 hb), fun i => ?_⟩
    apply ih i (d + 1) (hch i)
    by_cases hlt : d < treeTune
    · rw [hfil hlt]
      simp only [Octree.bucketAt] at hb
      rw [hb]; rfl
    · rw [hleaf (by omega) i]; rfl

theorem rel_removed_bucketAt {h : Nat} {t t1 : Octree} (hr : Octree.Rel (RemovedNode h) t t1)
    (k : Nat) : t1.bucketAt k = if k = h then [] else t.bucketAt k := by
  cases t with
  | null =>
    simp only [Octree.Rel] at hr
    subst hr
    simp [Octree.bucketAt]
  | node n ch =>
    cases t1 with
    | null => simp [Octree.Rel] at hr
    | node n1 ch1 =>
      simp only [Octree.Rel] at hr
      exact hr.1.bucket k

theorem removeLoop_spec (colors : Nat → ColorPoint) (h d : Nat) (ch : Nat → Octree)
    (rm : Octree → Except Err Octree)
    (hrm : ∀ c, WF colors (d + 1) c → c.bucketAt h ≠ [] →
      ∃ c1, rm c = .ok c1 ∧ WF colors (d + 1) c1 ∧ Octree.Rel (RemovedNode h) c c1)
    (hch : ∀ i, WF colors (d + 1) (ch i)) :
    ∀ (l : List Point) (st : Nat × (Nat → Octree)),
      (∀ q ∈ l, (ch (addr d (colors q.color))).bucketAt h ≠ []) →
      LoopInv colors h d ch st →
      ∃ st1, removeLoop colors d rm l st = .ok st1 ∧ LoopInv colors h d ch st1 ∧
        (∀ i, st.1.testBit i = true → st1.1.testBit i = true) ∧
        (∀ q ∈ l, st1.1.testBit (addr d (colors q.color)) = true) := by
  intro l
  induction l with
  | nil =>
    intro st _ hinv
    exact ⟨st, rfl, hinv, fun _ hi => hi, fun _ hq => by cases hq⟩
  | cons q rest ih =>
    intro st hl hinv
    have hq := hl q (List.mem_cons_self _ _)
    have hrest : ∀ q ∈ rest, (ch (addr d (colors q.color))).bucketAt h ≠ [] :=
      fun q' hq' => hl q' (List.mem_cons_of_mem _ hq')
    simp only [removeLoop, removeStep, Nat.one_shiftLeft]
    by_cases hbit : st.1 &&& 2 ^ addr d (colors q.color) = 0
    · rw [if_pos hbit]
      have hb := (and_two_pow_eq_zero _ _).1 hbit
      have heq := (hinv (addr d (colors q.color))).2 hb
      obtain ⟨c1, hc1, hwf1, hrel1⟩ := hrm _ (hch _) hq
      rw [heq, hc1]
      have hinv1 : LoopInv colors h d ch
          (st.1 ||| 2 ^ addr d (colors q.color), setChild st.2 (addr d (colors q.color)) c1) := by
        intro i
        simp only [testBit_or_two_pow]
        by_cases hi : addr d (colors q.color) = i
        · subst hi
          simp only [setChild_same, decide_True, Bool.or_true, forall_const]
          exact ⟨⟨hwf1, hrel1⟩, fun hh => by cases hh⟩
        · have hi' : i ≠ addr d (colors q.color) := fun e => hi e.symm
          simp only [setChild_other _ _ hi', hi, decide_False, Bool.or_false]
          exact hinv i
      obtain ⟨st1, hst1, hinv2, hmono, hall⟩ := ih _ hrest hinv1
      refine ⟨st1, hst1, hinv2, ?_, ?_⟩
      · intro i hi
        apply hmono
        simp [testBit_or_two_pow, hi]
      · intro q' hq'
        rcases List.mem_cons.1 hq' with rfl | hq'
        · apply hmono
          simp [testBit_or_two_pow]
        · exact hall q' hq'
    · rw [if_neg hbit]
      have hb : st.1.testBit (addr d (colors q.color)) = true := by
        cases hbb : st.1.testBit (addr d (colors q.color)) with
        | true => rfl
        | false => exact absurd ((and_two_pow_eq_zero _ _).2 hbb) hbit
      have hinv1 : LoopInv colors h d ch (st.1 ||| 2 ^ addr d (colors q.color), st.2) := by
        intro i
        simp only [testBit_or_two_pow]
        by_cases hi : addr d (colors q.color) = i
        · subst hi
          simp only [decide_True, Bool.or_true, forall_const]
          exact ⟨(hinv _).1 hb, fun hh => by cases hh⟩
        · simp only [hi, decide_False, Bool.or_false]
          exact hinv i
      obtain ⟨st1, hst1, hinv2, hmono, hall⟩ := ih _ hrest hinv1
      refine ⟨st1, hst1, hinv2, ?_, ?_⟩
      · intro i hi
        apply hmono
        simp [testBit_or_two_pow, hi]
      · intro q' hq'
        rcases List.mem_cons.1 hq' with rfl | hq'
        · apply hmono
          simp [testBit_or_two_pow]
        · exact hall q' hq'

theorem bucketAt_ne_nil_isNull {t : Octree} {h : Nat} (hb : t.bucketAt h ≠ []) :
    t.isNull = false := by
  cases t with
  | null => exact absurd rfl hb
  | node _ _ => rfl

/-- With enough levels of recursion, `remove` of a position that has a bucket at the top node of
a well-formed subtree succeeds, leaves a well-formed subtree, and drops exactly the bucket of
that position at every node. -/
theorem removeFuel_wf (colors : Nat → ColorPoint) (p : Point) :
    ∀ (fuel d : Nat) (t : Octree), WF colors d t → treeTune + 1 ≤ d + fuel →
      t.bucketAt p.space.hash ≠ [] →
      ∃ t1, removeFuel colors fuel t p = .ok t1 ∧ WF colors d t1 ∧
        Octree.Rel (RemovedNode p.space.hash) t t1 := by
  intro fuel
  induction fuel with
  | zero =>
    intro d t hwf hfuel hb
    cases t with
    | null => exact absurd rfl hb
    | node n ch => simp only [WF] at hwf; omega
  | succ fuel ih =>
    intro d t hwf hfuel hb
    cases t with
    | null => exact absurd rfl hb
    | node n ch =>
      simp only [WF] at hwf
      obtain ⟨hdep, hd, hok, hleaf, hch, hfil⟩ := hwf
      simp only [Octree.bucketAt] at hb
      obtain ⟨idx, hidx⟩ : ∃ idx, n.pointHash p.space.hash = some idx := by
        cases hn : n.pointHash p.space.hash with
        | none => exact absurd (bucketOf_none hn) hb
        | some idx => exact ⟨idx, rfl⟩
      have hlt := hok.lt _ _ hidx
      obtain ⟨last, hlast⟩ : ∃ last, n.points.getLast? = some last := by
        cases hl : n.points.getLast? with
        | none => rw [List.getLast?_eq_none_iff] at hl; rw [hl] at hlt; cases hlt
        | some last => exact ⟨last, rfl⟩
      obtain ⟨this, hthis⟩ : ∃ this, n.points.get? idx = some this :=
        ⟨n.points[idx], by simp [List.getElem?_eq_getElem hlt]⟩
      have hthisB : this = bucketOf n p.space.hash := by
        rw [bucketOf_some hidx]
        simp only [List.get?_eq_getElem?] at hthis
        simp [List.getD_eq_getElem?_getD, hthis]
      obtain ⟨n1, hl, hloc, hkl, hlastD, hr⟩ := removeLocal_spec hok hidx hlast hthis
      have hrn := hr.removedNode hok hidx hkl hlastD
      unfold removeFuel
      simp only [hidx, hlast, hthis]
      by_cases hdlt : n.depth < treeTune
      · rw [if_pos hdlt]
        subst hdep
        have hinv0 : LoopInv colors p.space.hash n.depth ch (0, ch) := by
          intro i
          simp
        have hmem : ∀ q ∈ this, (ch (addr n.depth (colors q.color))).bucketAt p.space.hash ≠ [] := by
          intro q hq
          rw [hfil hdlt, ← hthisB]
          intro he
          have : q ∈ this.filter
              (fun q' => addr n.depth (colors q'.color) = addr n.depth (colors q.color)) := by
            simp [List.mem_filter, hq]
          rw [he] at this
          cases this
        obtain ⟨st1, hst1, hinv1, _, hall⟩ := removeLoop_spec colors p.space.hash n.depth ch
          (fun c => removeFuel colors fuel c p)
          (fun c hc hcb => ih (n.depth + 1) c hc (by omega) hcb) hch this (0, ch) hmem hinv0
        rw [hst1]
        simp only [hloc]
        have hfinal : ∀ i, WF colors (n.depth + 1) (st1.2 i) ∧
            Octree.Rel (RemovedNode p.space.hash) (ch i) (st1.2 i) := by
          intro i
          cases hb : st1.1.testBit i with
          | true => exact (hinv1 i).1 hb
          | false =>
            rw [(hinv1 i).2 hb]
            refine ⟨hch i, rel_removed_refl colors _ _ _ (hch i) ?_⟩
            rw [hfil hdlt, ← hthisB, List.filter_eq_nil_iff]
            intro q hq hqa
            have := hall q hq
            rw [of_decide_eq_true hqa, hb] at this
            cases this
        refine ⟨_, rfl, ?_, ?_⟩
        · simp only [WF]
          refine ⟨hr.depth, hd, hrn.ok1, ?_, fun i => (hfinal i).1, ?_⟩
          · intro h4; omega
          · intro _ i k
            rw [hrn.bucket, rel_removed_bucketAt (hfinal i).2, hfil hdlt]
            split <;> rfl
        · simp only [Octree.Rel]
          exact ⟨hrn, fun i => (hfinal i).2⟩
      · rw [if_neg hdlt]
        simp only [hloc]
        subst hdep
        have h4 : n.depth = treeTune := by omega
        refine ⟨_, rfl, ?_, ?_⟩
        · simp only [WF]
          exact ⟨hr.depth, hd, hrn.ok1, fun _ i => hleaf h4 i, hch, fun hh => absurd hh hdlt⟩
        · simp only [Octree.Rel]
          refine ⟨hrn, fun i => ?_⟩
          rw [hleaf h4 i]
          simp [Octree.Rel]

end RustColors


/-! ## Trees built by `add` and `remove` -/

namespace RustColors

theorem remove_ok_keyAt {colors : Nat → ColorPoint} {t t1 : Octree} {p : Point}
    (h : t.remove colors p = .ok t1) : t.keyAt p.space.hash ≠ none := by
  cases t with
  | null => simp [Octree.remove, removeFuel] at h
  | node n ch =>
    intro hk
    simp only [Octree.keyAt] at hk
    simp [Octree.remove, removeFuel, hk] at h

theorem bucketAt_ne_nil_of_keyAt {colors : Nat → ColorPoint} {t : Octree} {d h : Nat}
    (hwf : WF colors d t) (hk : t.keyAt h ≠ none) : t.bucketAt h ≠ [] := by
  cases t with
  | null => exact absurd rfl hk
  | node n ch =>
    simp only [WF] at hwf
    simp only [Octree.keyAt] at hk
    simp only [Octree.bucketAt]
    intro hb
    exact hk ((hwf.2.2.1.bucketOf_eq_nil_iff h).1 hb)

/-- On a well-formed tree `remove` of a position that is a key of the root succeeds. -/
theorem remove_wfRoot {colors : Nat → ColorPoint} {t : Octree} (hwf : WFRoot colors t)
    (p : Point) (hk : t.keyAt p.space.hash ≠ none) :
    ∃ t1, t.remove colors p = .ok t1 ∧ WFRoot colors t1 ∧
      Octree.Rel (RemovedNode p.space.hash) t t1 := by
  obtain ⟨t1, h1, h2, h3⟩ := removeFuel_wf colors p (treeTune + 1) 0 t hwf.2 (by omega)
    (bucketAt_ne_nil_of_keyAt hwf.2 hk)
  refine ⟨t1, h1, ⟨?_, h2⟩, h3⟩
  cases t with
  | null => exact absurd hwf.1 (by simp [Octree.isNull])
  | node n ch =>
    cases t1 with
    | null => simp [Octree.Rel] at h3
    | node _ _ => rfl

theorem reachable_wfRoot {colors : Nat → ColorPoint} {t : Octree} (h : Reachable colors t) :
    WFRoot colors t := by
  induction h with
  | root => exact wfRoot_root colors
  | add t p _ ih => exact add_wfRoot ih p
  | remove t t1 p _ hrm ih =>
    obtain ⟨t2, h2, hwf2, _⟩ := remove_wfRoot ih p (remove_ok_keyAt hrm)
    rw [hrm] at h2
    cases h2
    exact hwf2

theorem wf_all_nodeOK (colors : Nat → ColorPoint) :
    ∀ (t : Octree) (d : Nat), WF colors d t → t.All NodeOK := by
  intro t
  induction t with
  | null => intro _ _; simp [Octree.All]
  | node n ch ih =>
    intro d hwf
    simp only [WF] at hwf
    simp only [Octree.All]
    exact ⟨hwf.2.2.1, fun i => ih i (d + 1) (hwf.2.2.2.2.1 i)⟩

theorem all_imp {P Q : NodeData → Prop} (hPQ : ∀ n, P n → Q n) :
    ∀ t : Octree, t.All P → t.All Q := by
  intro t
  induction t with
  | null => intro _; simp [Octree.All]
  | node n ch ih =>
    intro h
    simp only [Octree.All] at h ⊢
    exact ⟨hPQ n h.1, fun i => ih i (h.2 i)⟩

theorem rel_imp {R S : NodeData → NodeData → Prop} (hRS : ∀ n n1, R n n1 → S n n1) :
    ∀ t t1 : Octree, Octree.Rel R t t1 → Octree.Rel S t t1 := by
  intro t
  induction t with
  | null => intro t1 h; simpa [Octree.Rel] using h
  | node n ch ih =>
    intro t1 h
    cases t1 with
    | null => simp [Octree.Rel] at h
    | node n1 ch1 =>
      simp only [Octree.Rel] at h ⊢
      exact ⟨hRS n n1 h.1, fun i => ih i _ (h.2 i)⟩

/-- In a consistent node the bucket at an index inside `points` is the bucket of its key. -/
theorem NodeOK.getD_eq_bucketOf {n : NodeData} (ok : NodeOK n) {i : Nat}
    (hi : i < n.points.length) :
    ∃ h, n.pointHash h = some i ∧ n.points.getD i [] = bucketOf n h := by
  obtain ⟨h, hh⟩ := ok.surj i hi
  exact ⟨h, hh, (bucketOf_some hh).symm⟩

/-- The statement of P2 and P3 at one node, in terms of indices. -/
theorem NodeOK.spec {n : NodeData} (ok : NodeOK n) :
    (∀ h i, n.pointHash h = some i →
      i < n.points.length ∧ n.points.getD i [] ≠ [] ∧
      ∀ q ∈ n.points.getD i [], q.space.hash = h) ∧
    (∀ i, i < n.points.length → ∃! h, n.pointHash h = some i) ∧
    (∀ i j, i < n.points.length → j < n.points.length → i ≠ j →
      ∀ q ∈ n.points.getD i [], ∀ q1 ∈ n.points.getD j [], q.space.hash ≠ q1.space.hash) := by
  refine ⟨?_, ?_, ?_⟩
  · intro h i hi
    refine ⟨ok.lt h i hi, ?_, ?_⟩
    · rw [← bucketOf_some hi]; exact ok.nonempty h i hi
    · rw [← bucketOf_some hi]; exact ok.hash h
  · intro i hi
    obtain ⟨h, hh⟩ := ok.surj i hi
    exact ⟨h, hh, fun k hk => ok.inj _ _ _ hk hh⟩
  · intro i j hi hj hij q hq q1 hq1 he
    obtain ⟨h, hh, hbi⟩ := ok.getD_eq_bucketOf hi
    obtain ⟨k, hk, hbj⟩ := ok.getD_eq_bucketOf hj
    rw [hbi] at hq
    rw [hbj] at hq1
    have e1 := ok.hash h q hq
    have e2 := ok.hash k q1 hq1
    have : h = k := by rw [← e1, ← e2, he]
    subst this
    rw [hh] at hk
    exact hij (Option.some.inj hk)

/-! ### Walking down the tree -/

theorem descend_null (path : List Nat) : Octree.null.descend path = .null := by
  cases path <;> rfl

theorem wf_descend (colors : Nat → ColorPoint) :
    ∀ (path : List Nat) (t : Octree) (d : Nat), WF colors d t →
      WF colors (d + path.length) (t.descend path) := by
  intro path
  induction path with
  | nil => intro t d h; simpa [Octree.descend] using h
  | cons i rest ih =>
    intro t d h
    cases t with
    | null => simp [Octree.descend, WF]
    | node n ch =>
      simp only [Octree.descend, List.length_cons]
      simp only [WF] at h
      have := ih (ch i) (d + 1) (h.2.2.2.2.1 i)
      rw [show d + (rest.length + 1) = d + 1 + rest.length by omega]
      exact this

/-- A point of the top bucket is found all the way down the path its colour selects. -/
theorem mem_descend_addrPath (colors : Nat → ColorPoint) (q : Point) :
    ∀ (k d : Nat) (t : Octree), WF colors d t → d + k ≤ treeTune →
      q ∈ t.bucketAt q.space.hash →
      q ∈ (t.descend (addrPath (colors q.color) d k)).bucketAt q.space.hash := by
  intro k
  induction k with
  | zero => intro d t _ _ hq; simpa [addrPath, Octree.descend] using hq
  | succ k ih =>
    intro d t hwf hd hq
    cases t with
    | null => simp [Octree.bucketAt] at hq
    | node n ch =>
      simp only [addrPath, Octree.descend]
      simp only [WF] at hwf
      apply ih (d + 1) _ (hwf.2.2.2.2.1 _) (by omega)
      rw [hwf.2.2.2.2.2 (by omega)]
      simp only [Octree.bucketAt] at hq
      simp [List.mem_filter, hq]

/-- A point held by a node below is in the top bucket of its position, and the node lies on the
path the colour of the point selects. -/
theorem holds_descend (colors : Nat → ColorPoint) (q : Point) :
    ∀ (path : List Nat) (d : Nat) (t : Octree) (n1 : NodeData) (ch1 : Nat → Octree),
      WF colors d t → t.descend path = .node n1 ch1 → n1.Holds q →
      q ∈ t.bucketAt q.space.hash ∧ path = addrPath (colors q.color) d path.length := by
  intro path
  induction path with
  | nil =>
    intro d t n1 ch1 hwf hdesc hq
    simp only [Octree.descend] at hdesc
    subst hdesc
    simp only [WF] at hwf
    exact ⟨(hwf.2.2.1.holds_iff q).1 hq, rfl⟩
  | cons i rest ih =>
    intro d t n1 ch1 hwf hdesc hq
    cases t with
    | null => simp [Octree.descend] at hdesc
    | node n ch =>
      simp only [Octree.descend] at hdesc
      simp only [WF] at hwf
      obtain ⟨_, hd, hok, hleaf, hch, hfil⟩ := hwf
      obtain ⟨h1, h2⟩ := ih (d + 1) (ch i) n1 ch1 (hch i) hdesc hq
      have hdlt : d < treeTune := by
        by_contra hge
        rw [hleaf (by omega) i, descend_null] at hdesc
        cases hdesc
      rw [hfil hdlt, List.mem_filter] at h1
      refine ⟨h1.1, ?_⟩
      simp only [List.length_cons, addrPath]
      rw [← h2, of_decide_eq_true h1.2]

end RustColors


/-! ## Paths of inserted points -/

namespace RustColors

theorem addrPath_length (c : ColorPoint) : ∀ (k d : Nat), (addrPath c d k).length = k := by
  intro k
  induction k with
  | zero => intro d; rfl
  | succ k ih => intro d; simp [addrPath, ih]

/-- In a well-formed tree a member of the root bucket of its position sits, at every depth up to
`treeTune`, in the node its colour selects. -/
theorem wf_path_node {colors : Nat → ColorPoint} {t : Octree} (hwf : WFRoot colors t)
    (p : Point) (hp : p ∈ t.bucketAt p.space.hash) (d : Nat) (hd : d ≤ treeTune) :
    ∃ n ch, t.descend (addrPath (colors p.color) 0 d) = .node n ch ∧
      WF colors d (.node n ch) ∧ p ∈ bucketOf n p.space.hash := by
  have h2 := wf_descend colors (addrPath (colors p.color) 0 d) t 0 hwf.2
  rw [addrPath_length, Nat.zero_add] at h2
  have h1 := mem_descend_addrPath colors p d 0 t hwf.2 (by omega) hp
  cases hdesc : t.descend (addrPath (colors p.color) 0 d) with
  | null => rw [hdesc] at h1; simp [Octree.bucketAt] at h1
  | node n ch =>
    rw [hdesc] at h1 h2
    exact ⟨n, ch, rfl, h2, h1⟩

theorem NodeOK.index_of_mem {n : NodeData} (ok : NodeOK n) {p : Point}
    (hp : p ∈ bucketOf n p.space.hash) :
    ∃ i, n.pointHash p.space.hash = some i ∧ i < n.points.length ∧ p ∈ n.points.getD i [] ∧
      ∀ j, j < n.points.length → p ∈ n.points.getD j [] → j = i := by
  cases hn : n.pointHash p.space.hash with
  | none => rw [bucketOf_none hn] at hp; cases hp
  | some i =>
    refine ⟨i, rfl, ok.lt _ _ hn, by rw [← bucketOf_some hn]; exact hp, ?_⟩
    intro j hj hpj
    obtain ⟨k, hk, hb⟩ := ok.getD_eq_bucketOf hj
    rw [hb] at hpj
    have := ok.hash k p hpj
    subst this
    rw [hn] at hk
    exact (Option.some.inj hk).symm

end RustColors


/-! ## `add` followed by `remove` -/

namespace RustColors

theorem rel_all_right {R : NodeData → NodeData → Prop} {P : NodeData → Prop}
    (hRP : ∀ n n1, R n n1 → P n1) :
    ∀ t t1 : Octree, Octree.Rel R t t1 → t1.All P := by
  intro t
  induction t with
  | null => intro t1 hr; simp only [Octree.Rel] at hr; subst hr; simp [Octree.All]
  | node n ch ih =>
    intro t1 hr
    cases t1 with
    | null => simp [Octree.Rel] at hr
    | node n1 ch1 =>
      simp only [Octree.Rel] at hr
      simp only [Octree.All]
      exact ⟨hRP _ _ hr.1, fun i => ih i _ (hr.2 i)⟩

theorem addLocal_pointHash_ne (n : NodeData) (p : Point) {k : Nat} (hk : k ≠ p.space.hash) :
    (addLocal n p).pointHash k = n.pointHash k := by
  cases hn : n.pointHash p.space.hash with
  | none => rw [addLocal_none hn]; simp [hashSet, hk]
  | some i => rw [addLocal_some hn]

theorem nodeOK_points_nil {n : NodeData} (ok : NodeOK n) (hk : ∀ k, n.pointHash k = none) :
    n.points = [] := by
  cases hp : n.points with
  | nil => rfl
  | cons b bs =>
    obtain ⟨h, hh⟩ := ok.surj 0 (by rw [hp]; simp)
    rw [hk h] at hh
    cases hh

end RustColors


/-! ## The linear scan `nearestInUs` and `findNearest` on a thin root -/

namespace RustColors

theorem distanceTo_nonneg (c q : ColorPoint) : 0 ≤ c.distanceTo q := by
  unfold ColorPoint.distanceTo
  simp only
  nlinarith [mul_self_nonneg (c.r - q.r), mul_self_nonneg (c.g - q.g),
    mul_self_nonneg (c.b - q.b)]

theorem sq_le_of_range {a b : Int} (ha0 : 0 ≤ a) (ha : a ≤ 255) (hb0 : 0 ≤ b) (hb : b ≤ 255) :
    (a - b) * (a - b) ≤ 65025 := by
  nlinarith [mul_nonneg (show (0:Int) ≤ a - b + 255 by omega) (show (0:Int) ≤ 255 - (a - b) by omega)]

/-- For colours of the palette the squared distance is below the sentinel of `nearestInUs`. -/
theorem distanceTo_lt_sentinel {c q : ColorPoint} (hc : InRange c) (hq : InRange q) :
    c.distanceTo q < 90000000 := by
  obtain ⟨c1, c2, c3, c4, c5, c6⟩ := hc
  obtain ⟨q1, q2, q3, q4, q5, q6⟩ := hq
  have h1 := sq_le_of_range c1 c2 q1 q2
  have h2 := sq_le_of_range c3 c4 q3 q4
  have h3 := sq_le_of_range c5 c6 q5 q6
  unfold ColorPoint.distanceTo
  simp only
  omega

/-- The loop of `nearestInUs` on buckets that are all non-empty: it ends with a distance that is
at most the initial one and at most the distance of every first member scanned; and either nothing
changed, or the final bucket is one of the scanned ones and its first member is at the final
distance. -/
theorem nearestLoop_spec (colors : Nat → ColorPoint) (c : ColorPoint) :
    ∀ (l : List Bucket) (st : Int × Bucket), (∀ b ∈ l, b ≠ []) →
      ∃ st1, nearestLoop colors c l st = .ok st1 ∧ st1.1 ≤ st.1 ∧
        (∀ b ∈ l, ∀ q, b.head? = some q → st1.1 ≤ c.distanceTo (colors q.color)) ∧
        (st1 = st ∨ (st1.2 ∈ l ∧ ∃ q, st1.2.head? = some q ∧
          c.distanceTo (colors q.color) = st1.1)) := by
  intro l
  induction l with
  | nil => intro st _; exact ⟨st, rfl, le_refl _, fun _ hb => absurd hb (List.not_mem_nil _),
      Or.inl rfl⟩
  | cons b rest ih =>
    intro st hne
    have hrest : ∀ b ∈ rest, b ≠ [] := fun b' hb' => hne b' (List.mem_cons_of_mem _ hb')
    cases b with
    | nil => exact absurd rfl (hne [] (List.mem_cons_self _ _))
    | cons p ps =>
      simp only [nearestLoop]
      by_cases hlt : c.distanceTo (colors p.color) < st.1
      · rw [if_pos hlt]
        obtain ⟨st1, h1, h2, h3, h4⟩ := ih (c.distanceTo (colors p.color), p :: ps) hrest
        refine ⟨st1, h1, by simp only at h2; omega, ?_, ?_⟩
        · intro b hb q hq
          rcases List.mem_cons.1 hb with rfl | hb
          · simp only [List.head?_cons, Option.some.injEq] at hq
            subst hq
            exact h2
          · exact h3 b hb q hq
        · right
          rcases h4 with h4 | h4
          · rw [h4]
            exact ⟨List.mem_cons_self _ _, p, rfl, rfl⟩
          · exact ⟨List.mem_cons_of_mem _ h4.1, h4.2⟩
      · rw [if_neg hlt]
        obtain ⟨st1, h1, h2, h3, h4⟩ := ih st hrest
        refine ⟨st1, h1, h2, ?_, ?_⟩
        · intro b hb q hq
          rcases List.mem_cons.1 hb with rfl | hb
          · simp only [List.head?_cons, Option.some.injEq] at hq
            subst hq
            omega
          · exact h3 b hb q hq
        · rcases h4 with h4 | h4
          · exact Or.inl h4
          · exact Or.inr ⟨List.mem_cons_of_mem _ h4.1, h4.2⟩

/-- `nearestInUs` on a non-empty list of non-empty buckets whose first members have palette
colours: it returns the first member of one of the buckets, at the least distance among the first
members. -/
theorem nearestInUs_spec (colors : Nat → ColorPoint) (c : ColorPoint) (hc : InRange c)
    (points : List Bucket) (hne : points ≠ []) (hb : ∀ b ∈ points, b ≠ [])
    (hcol : ∀ b ∈ points, ∀ q, b.head? = some q → InRange (colors q.color)) :
    ∃ p, nearestInUs colors points c = .ok p ∧
      (∃ b ∈ points, b.head? = some p) ∧
      ∀ b ∈ points, ∀ q, b.head? = some q →
        c.distanceTo (colors p.color) ≤ c.distanceTo (colors q.color) := by
  cases points with
  | nil => exact absurd rfl hne
  | cons b0 rest =>
    obtain ⟨st1, h1, _, h3, h4⟩ := nearestLoop_spec colors c (b0 :: rest) (90000000, b0) hb
    simp only [nearestInUs, h1]
    rcases h4 with h4 | ⟨hmem, q, hq, hd⟩
    · exfalso
      cases hb0 : b0 with
      | nil => exact hb b0 (List.mem_cons_self _ _) hb0
      | cons p ps =>
        have := h3 b0 (List.mem_cons_self _ _) p (by rw [hb0]; rfl)
        have hlt := distanceTo_lt_sentinel hc
          (hcol b0 (List.mem_cons_self _ _) p (by rw [hb0]; rfl))
        rw [h4] at this
        simp only at this
        omega
    · obtain ⟨d1, bb⟩ := st1
      cases bb with
      | nil => simp at hq
      | cons p ps =>
        simp only [List.head?_cons, Option.some.injEq] at hq
        subst hq
        refine ⟨p, rfl, ⟨p :: ps, hmem, rfl⟩, ?_⟩
        intro b hbm q hq
        simp only at hd
        rw [hd]
        exact h3 b hbm q hq

/-- On a root with at most `quadTune` buckets `findNearest` is the linear scan of the root. -/
theorem findNearest_thin_root (colors : Nat → ColorPoint) (n : NodeData) (ch : Nat → Octree)
    (c : ColorPoint) (hd : n.depth = 0) (h0 : n.points ≠ [])
    (hq : n.points.length ≤ quadTune) :
    (Octree.node n ch).findNearest colors c = nearestInUs colors n.points c := by
  have hlen : n.points.length ≠ 0 := fun e => h0 (List.length_eq_zero.1 e)
  simp only [Octree.findNearest, findNearestFrom, hlen, if_false, hq, decide_True, Bool.true_or,
    if_true, hd, gt_iff_lt, Nat.lt_irrefl, decide_False, Bool.false_and]
  cases nearestInUs colors n.points c <;> rfl

end RustColors

namespace RustColors

theorem add_buckets_fresh (colors : Nat → ColorPoint) {t : Octree} (hn : t.isNull = false)
    (p : Point) (hk : t.keyAt p.space.hash = none) :
    (t.add colors p).buckets = t.buckets ++ [[p]] := by
  cases t with
  | null => simp [Octree.isNull] at hn
  | node n ch =>
    simp only [Octree.keyAt] at hk
    simp only [Octree.add, addFuel_succ_node, Octree.buckets, addLocal_none hk]

theorem add_keyAt_ne (colors : Nat → ColorPoint) (t : Octree) (p : Point) {k : Nat}
    (hk : k ≠ p.space.hash) : (t.add colors p).keyAt k = t.keyAt k := by
  cases t with
  | null => rfl
  | node n ch =>
    simp only [Octree.add, addFuel_succ_node, Octree.keyAt]
    exact addLocal_pointHash_ne n p hk

/-- Adding points of pairwise distinct positions unknown to the tree appends one singleton
bucket per point to the root, in order. -/
theorem foldl_add_buckets (colors : Nat → ColorPoint) :
    ∀ (ps : List Point) (t : Octree), WFRoot colors t →
      (∀ p ∈ ps, t.keyAt p.space.hash = none) → (ps.map (fun p => p.space.hash)).Nodup →
      WFRoot colors (ps.foldl (Octree.add colors) t) ∧
      (ps.foldl (Octree.add colors) t).buckets = t.buckets ++ ps.map (fun p => [p]) := by
  intro ps
  induction ps with
  | nil => intro t hwf _ _; simpa using hwf
  | cons p rest ih =>
    intro t hwf hk hnd
    simp only [List.map_cons, List.nodup_cons] at hnd
    simp only [List.foldl_cons]
    have hfresh : ∀ q ∈ rest, (t.add colors p).keyAt q.space.hash = none := by
      intro q hq
      have hne : q.space.hash ≠ p.space.hash := by
        intro e
        exact hnd.1 (by rw [← e]; exact List.mem_map_of_mem _ hq)
      rw [add_keyAt_ne colors t p hne]
      exact hk q (List.mem_cons_of_mem _ hq)
    obtain ⟨h1, h2⟩ := ih (t.add colors p) (add_wfRoot hwf p) hfresh hnd.2
    refine ⟨h1, ?_⟩
    rw [h2, add_buckets_fresh colors hwf.1 p (hk p (List.mem_cons_self _ _))]
    simp

theorem findNearest_eq_of_buckets (colors : Nat → ColorPoint) {t : Octree}
    (hwf : WFRoot colors t) (c : ColorPoint) (h0 : t.buckets ≠ [])
    (hq : t.buckets.length ≤ quadTune) :
    t.findNearest colors c = nearestInUs colors t.buckets c := by
  cases t with
  | null => exact absurd rfl h0
  | node n ch =>
    have := hwf.2
    simp only [WF] at this
    exact findNearest_thin_root colors n ch c this.1 h0 hq

theorem wfRoot_buckets_ne_nil {colors : Nat → ColorPoint} {t : Octree} (hwf : WFRoot colors t) :
    ∀ b ∈ t.buckets, b ≠ [] := by
  cases t with
  | null => intro b hb; cases hb
  | node n ch =>
    have h := hwf.2
    simp only [WF] at h
    intro b hb
    simp only [Octree.buckets] at hb
    obtain ⟨i, hi, rfl⟩ := List.getElem_of_mem hb
    obtain ⟨k, hk, hbk⟩ := h.2.2.1.getD_eq_bucketOf hi
    rw [← List.getD_eq_getElem _ [] hi, hbk]
    exact h.2.2.1.nonempty k i hk

end RustColors


/-! ## Geometry: `addr`, sub-cubes and bounding boxes -/

namespace RustColors

set_option maxRecDepth 1000000 in
theorem chan_bit_nat : ∀ d, d < 5 → ∀ n, n < 256 →
    ((n &&& ((128 >>> d) % 256)) >>> ((7 + 256 - d % 256) % 256)) % 256 =
      n / (128 >>> d) % 2 := by
  decide

theorem chan_bit (d : Nat) (hd : d ≤ 4) (x : Int) (h0 : 0 ≤ x) (h1 : x ≤ 255) :
    (((Int.land x (((128 >>> d) % 256 : Nat) : Int)) >>> ((7 + 256 - d % 256) % 256)) %
      256).toNat = x.toNat / (128 >>> d) % 2 := by
  obtain ⟨n, rfl⟩ := Int.eq_ofNat_of_zero_le h0
  have e1 : Int.land (n : Int) (((128 >>> d) % 256 : Nat) : Int) =
      ((n &&& ((128 >>> d) % 256) : Nat) : Int) := rfl
  have e2 : ∀ (a k : Nat), ((a : Int) >>> k) = ((a >>> k : Nat) : Int) := fun a k => rfl
  have e3 : ∀ (a : Nat), (((a : Int) % 256).toNat) = a % 256 := by
    intro a
    omega
  rw [e1, e2, e3, Int.toNat_ofNat]
  exact chan_bit_nat d (by omega) n (by omega)

theorem pack_bits : ∀ a, a < 2 → ∀ b, b < 2 → ∀ c, c < 2 →
    ((a <<< 2) ||| (b <<< 1) ||| c) % 256 = 4 * a + 2 * b + c := by
  decide

/-- For a palette colour at depth `d ≤ 4`, `addr` packs the bit `7 - d` of the three channels. -/
theorem addr_eq_bits (d : Nat) (hd : d ≤ 4) (c : ColorPoint) (hc : InRange c) :
    addr d c = 4 * (c.r.toNat / (128 >>> d) % 2) + 2 * (c.g.toNat / (128 >>> d) % 2) +
      c.b.toNat / (128 >>> d) % 2 := by
  obtain ⟨r0, r1, g0, g1, b0, b1⟩ := hc
  unfold addr
  simp only
  rw [chan_bit d hd c.r r0 r1, chan_bit d hd c.g g0 g1, chan_bit d hd c.b b0 b1]
  exact pack_bits _ (Nat.mod_lt _ (by decide)) _ (Nat.mod_lt _ (by decide)) _
    (Nat.mod_lt _ (by decide))

theorem addr_lt_eight (d : Nat) (hd : d ≤ 4) (c : ColorPoint) (hc : InRange c) :
    addr d c < 8 := by
  rw [addr_eq_bits d hd c hc]
  omega

theorem Aligned.mem {l u t s x : Int} (h : Aligned l u t s) (hx : t ≤ x ∧ x < t + s) :
    l ≤ x ∧ x ≤ u := by
  obtain ⟨h1, h2, _⟩ := h
  omega

/-- One axis of `getOrCreateChild`: the bounds computed for the new child cover the half of the
sub-cube that the bit of the creating colour selects. -/
theorem aligned_child (d : Nat) (hd : d < 4) (l u t x0 : Int)
    (hal : Aligned l u t (cubeSide d)) (hx0 : t ≤ x0 ∧ x0 < t + cubeSide d) :
    Aligned (if x0 > l + ((128 >>> d : Nat) : Int) then l + ((128 >>> d : Nat) : Int) else l)
      (if x0 < u - ((128 >>> d : Nat) : Int) then u - ((128 >>> d : Nat) : Int) else u)
      (t + ((x0.toNat / (128 >>> d) % 2 : Nat) : Int) * cubeSide (d + 1)) (cubeSide (d + 1)) := by
  unfold Aligned cubeSide at *
  interval_cases d <;> simp only [Nat.reduceShiftRight, Nat.reduceAdd, Nat.cast_ofNat] at * <;>
    split_ifs <;> omega

/-- A colour of a sub-cube lies in the half its bit selects. -/
theorem inCube_child_axis (d : Nat) (hd : d < 4) (t x : Int)
    (ht : 0 ≤ t ∧ t % cubeSide d = 0) (hx : t ≤ x ∧ x < t + cubeSide d) :
    t + ((x.toNat / (128 >>> d) % 2 : Nat) : Int) * cubeSide (d + 1) ≤ x ∧
    x < t + ((x.toNat / (128 >>> d) % 2 : Nat) : Int) * cubeSide (d + 1) + cubeSide (d + 1) := by
  unfold cubeSide at *
  interval_cases d <;> simp only [Nat.reduceShiftRight, Nat.reduceAdd, Nat.cast_ofNat] at * <;>
    omega

end RustColors

namespace RustColors

theorem geo_root : Geo Octree.root 0 0 0 0 := by
  have ha : Aligned 0 256 0 (cubeSide 0) := by
    simp only [Aligned, cubeSide, Nat.shiftRight_zero, Nat.cast_ofNat]
    omega
  simp only [Octree.root, Octree.new, Geo]
  exact ⟨by decide, ha, ha, ha, fun i => trivial⟩

theorem addr_bits_split (d : Nat) (hd : d ≤ 4) (c : ColorPoint) (hc : InRange c) :
    addr d c / 4 % 2 = c.r.toNat / (128 >>> d) % 2 ∧
    addr d c / 2 % 2 = c.g.toNat / (128 >>> d) % 2 ∧
    addr d c % 2 = c.b.toNat / (128 >>> d) % 2 := by
  rw [addr_eq_bits d hd c hc]
  omega

/-- A colour of the sub-cube of a node lies in the sub-cube of the child `addr` selects. -/
theorem inCube_child (d : Nat) (hd : d < 4) (c : ColorPoint) (hc : InRange c) (tr tg tb : Int)
    (hr : 0 ≤ tr ∧ tr % cubeSide d = 0) (hg : 0 ≤ tg ∧ tg % cubeSide d = 0)
    (hb : 0 ≤ tb ∧ tb % cubeSide d = 0) (hin : InCube c (cubeSide d) tr tg tb) :
    InCube c (cubeSide (d + 1))
      (tr + ((addr d c / 4 % 2 : Nat) : Int) * cubeSide (d + 1))
      (tg + ((addr d c / 2 % 2 : Nat) : Int) * cubeSide (d + 1))
      (tb + ((addr d c % 2 : Nat) : Int) * cubeSide (d + 1)) := by
  obtain ⟨e1, e2, e3⟩ := addr_bits_split d (by omega) c hc
  rw [e1, e2, e3]
  exact ⟨inCube_child_axis d hd tr c.r hr hin.1, inCube_child_axis d hd tg c.g hg hin.2.1,
    inCube_child_axis d hd tb c.b hb hin.2.2⟩

theorem getOrCreateChild_geo (n : NodeData) (ch : Nat → Octree) (c : ColorPoint)
    (hc : InRange c) (hd : n.depth < 4) (tr tg tb : Int)
    (hgeo : Geo (.node n ch) n.depth tr tg tb) (hin : InCube c (cubeSide n.depth) tr tg tb)
    (i : Nat) :
    Geo (getOrCreateChild n ch c i) (n.depth + 1)
      (tr + ((i / 4 % 2 : Nat) : Int) * cubeSide (n.depth + 1))
      (tg + ((i / 2 % 2 : Nat) : Int) * cubeSide (n.depth + 1))
      (tb + ((i % 2 : Nat) : Int) * cubeSide (n.depth + 1)) := by
  simp only [Geo] at hgeo
  obtain ⟨hrad, har, hag, hab, hch⟩ := hgeo
  unfold getOrCreateChild
  cases hnull : ch (addr n.depth c) with
  | node m mch => exact hch i
  | null =>
    simp only
    by_cases hi : i = addr n.depth c
    · subst hi
      rw [setChild_same]
      obtain ⟨e1, e2, e3⟩ := addr_bits_split n.depth (by omega) c hc
      rw [e1, e2, e3]
      have hmod : (n.depth + 1) % 256 = n.depth + 1 := by omega
      simp only [Octree.new, Geo, hmod, hrad]
      exact ⟨trivial, aligned_child n.depth hd _ _ _ _ har hin.1,
        aligned_child n.depth hd _ _ _ _ hag hin.2.1,
        aligned_child n.depth hd _ _ _ _ hab hin.2.2, fun _ => trivial⟩
    · rw [setChild_other _ _ hi]
      exact hch i

/-- `add` of a palette colour that belongs to the sub-cube keeps the geometry. -/
theorem addFuel_geo (colors : Nat → ColorPoint) (p : Point) (hc : InRange (colors p.color)) :
    ∀ (fuel d : Nat) (t : Octree) (tr tg tb : Int), WF colors d t → Geo t d tr tg tb →
      InCube (colors p.color) (cubeSide d) tr tg tb →
      Geo (addFuel colors fuel t p) d tr tg tb := by
  intro fuel
  induction fuel with
  | zero => intro d t tr tg tb _ hgeo _; exact hgeo
  | succ fuel ih =>
    intro d t tr tg tb hwf hgeo hin
    cases t with
    | null => exact hgeo
    | node n ch =>
      rw [addFuel_succ_node]
      simp only [WF] at hwf
      obtain ⟨hdep, hd, _, _, hch, _⟩ := hwf
      subst hdep
      have hgeo' := hgeo
      simp only [Geo] at hgeo ⊢
      obtain ⟨hrad, har, hag, hab, hgch⟩ := hgeo
      refine ⟨by rw [addLocal_radius]; exact hrad, by rw [addLocal_bounds]; exact har,
        by rw [addLocal_bounds]; exact hag, by rw [addLocal_bounds]; exact hab, ?_⟩
      intro i
      split
      · rename_i hlt
        have hlt4 : n.depth < 4 := hlt
        by_cases hi : i = addr n.depth (colors p.color)
        · subst hi
          rw [setChild_same]
          apply ih (n.depth + 1) _ _ _ _ (getOrCreateChild_wf colors n ch _ hlt hch _)
            (getOrCreateChild_geo n ch _ hc hlt4 tr tg tb hgeo' hin _)
          exact inCube_child n.depth hlt4 _ hc tr tg tb ⟨har.2.2.2.2.1, har.2.2.2.2.2.1⟩
            ⟨hag.2.2.2.2.1, hag.2.2.2.2.2.1⟩ ⟨hab.2.2.2.2.1, hab.2.2.2.2.2.1⟩ hin
        · rw [setChild_other _ _ hi]
          exact getOrCreateChild_geo n ch _ hc hlt4 tr tg tb hgeo' hin i
      · exact hgch i

theorem inCube_root {c : ColorPoint} (hc : InRange c) : InCube c (cubeSide 0) 0 0 0 := by
  obtain ⟨r0, r1, g0, g1, b0, b1⟩ := hc
  simp only [InCube, cubeSide, Nat.shiftRight_zero, Nat.cast_ofNat]
  omega

theorem add_geo {colors : Nat → ColorPoint} {t : Octree} (hwf : WFRoot colors t)
    (hgeo : Geo t 0 0 0 0) (p : Point) (hc : InRange (colors p.color)) :
    Geo (t.add colors p) 0 0 0 0 :=
  addFuel_geo colors p hc (treeTune + 1) 0 t 0 0 0 hwf.2 hgeo (inCube_root hc)

/-- A tree with the same shape, bounds and radii has the same geometry. -/
theorem geo_rel {R : NodeData → NodeData → Prop}
    (hR : ∀ n n1, R n n1 → n1.bounds = n.bounds ∧ n1.radius = n.radius) :
    ∀ (t t1 : Octree) (d : Nat) (tr tg tb : Int), Octree.Rel R t t1 → Geo t d tr tg tb →
      Geo t1 d tr tg tb := by
  intro t
  induction t with
  | null => intro t1 d tr tg tb hr hg; simp only [Octree.Rel] at hr; subst hr; exact hg
  | node n ch ih =>
    intro t1 d tr tg tb hr hg
    cases t1 with
    | null => simp [Octree.Rel] at hr
    | node n1 ch1 =>
      simp only [Octree.Rel] at hr
      simp only [Geo] at hg ⊢
      obtain ⟨hb, hrad⟩ := hR _ _ hr.1
      rw [hb, hrad]
      exact ⟨hg.1, hg.2.1, hg.2.2.1, hg.2.2.2.1, fun i => ih i _ _ _ _ _ (hr.2 i) (hg.2.2.2.2 i)⟩

end RustColors


/-! ## `findNearest` succeeds on well-formed trees -/

namespace RustColors

theorem inside_child {colors : Nat → ColorPoint} {Q : Point → Prop} {d : Nat} {n : NodeData}
    {ch : Nat → Octree} (hwf : WF colors d (.node n ch)) (hin : Inside Q (.node n ch)) (i : Nat) :
    Inside Q (ch i) := by
  simp only [WF] at hwf
  obtain ⟨_, hd, _, hleaf, _, hfil⟩ := hwf
  intro h q hq
  by_cases hlt : d < treeTune
  · rw [hfil hlt, List.mem_filter] at hq
    exact hin h q hq.1
  · rw [hleaf (by omega) i] at hq
    cases hq

theorem sqrtInt_nonneg (z : Int) : 0 ≤ sqrtInt z := by
  unfold sqrtInt
  exact Int.natCast_nonneg _

theorem has_setAround (c : ColorPoint) {r : Int} (hr : 0 ≤ r) : (BB.setAround c r).Has c := by
  simp only [BB.setAround, BB.Has]
  omega

theorem intersects_of_has {a b : BB} {c : ColorPoint} (ha : a.Has c) (hb : b.Has c) :
    a.intersects b = true := by
  obtain ⟨⟨a1, a2⟩, ⟨a3, a4⟩, ⟨a5, a6⟩⟩ := ha
  obtain ⟨⟨b1, b2⟩, ⟨b3, b4⟩, ⟨b5, b6⟩⟩ := hb
  simp only [BB.intersects, Bool.and_eq_true, Bool.not_eq_true', Bool.or_eq_false_iff,
    decide_eq_false_iff_not, not_lt]
  omega

/-- The linear scan of a consistent node with palette colours returns a member of the node. -/
theorem nearestInUs_inside (colors : Nat → ColorPoint) (hpal : ∀ i, InRange (colors i))
    {Q : Point → Prop} (c : ColorPoint) (hc : InRange c) {n : NodeData} {ch : Nat → Octree}
    (hok : NodeOK n) (hne : n.points ≠ []) (hin : Inside Q (.node n ch)) :
    ∃ p, nearestInUs colors n.points c = .ok p ∧ Q p := by
  have hb : ∀ b ∈ n.points, b ≠ [] := by
    intro b hb
    obtain ⟨i, hi, rfl⟩ := List.getElem_of_mem hb
    obtain ⟨k, hk, hbk⟩ := hok.getD_eq_bucketOf hi
    rw [← List.getD_eq_getElem _ [] hi, hbk]
    exact hok.nonempty k i hk
  obtain ⟨p, h1, ⟨b, hbm, hbp⟩, _⟩ := nearestInUs_spec colors c hc n.points hne hb
    (fun _ _ q _ => hpal q.color)
  refine ⟨p, h1, ?_⟩
  have hpb : p ∈ b := by
    cases b with
    | nil => simp at hbp
    | cons x xs =>
      simp only [List.head?_cons, Option.some.injEq] at hbp
      rw [hbp]; exact List.mem_cons_self _ _
  exact hin p.space.hash p ((hok.holds_iff p).1 ⟨b, hbm, hpb⟩)

theorem searchLoop_inv (I : Search → Prop) (body : Nat → Search → Except Err Search) :
    ∀ (l : List Nat), (∀ i ∈ l, ∀ s, I s → ∃ s1, body i s = .ok s1 ∧ I s1) →
      ∀ s, I s → ∃ s1, searchLoop body l s = .ok s1 ∧ I s1 := by
  intro l
  induction l with
  | nil => intro _ s hs; exact ⟨s, rfl, hs⟩
  | cons i rest ih =>
    intro hbody s hs
    obtain ⟨s1, h1, hs1⟩ := hbody i (List.mem_cons_self _ _) s hs
    obtain ⟨s2, h2, hs2⟩ := ih (fun j hj => hbody j (List.mem_cons_of_mem _ hj)) s1 hs1
    exact ⟨s2, by simp only [searchLoop, h1, h2], hs2⟩

/-- `NNSearchDown` on a well-formed subtree never fails and keeps the search sound. -/
theorem NNSearchDown_ok (colors : Nat → ColorPoint) (hpal : ∀ i, InRange (colors i))
    (Q : Point → Prop) (c : ColorPoint) (hc : InRange c) :
    ∀ (t : Octree) (d : Nat), WF colors d t → t.isNull = false → Inside Q t →
      ∀ s, SearchInv Q c s → ∃ s1, NNSearchDown colors t s = .ok s1 ∧ SearchInv Q c s1 := by
  intro t
  induction t with
  | null => intro d _ hn; simp [Octree.isNull] at hn
  | node n ch ih =>
    intro d hwf _ hin s hs
    have hwf' := hwf
    simp only [WF] at hwf
    obtain ⟨_, _, hok, _, hch, _⟩ := hwf
    unfold NNSearchDown
    split
    · exact ⟨s, rfl, hs⟩
    · split
      · exact ⟨s, rfl, hs⟩
      · rename_i hlen
        split
        · have hne : n.points ≠ [] := fun e => hlen (by rw [e]; rfl)
          obtain ⟨p, hp, hq⟩ := nearestInUs_inside colors hpal (Q := Q) s.source
            (by rw [hs.2.1]; exact hc) hok hne hin
          rw [hp]
          simp only
          split
          · refine ⟨_, rfl, hq, hs.2.1, ?_⟩
            simp only
            rw [hs.2.1]
            exact has_setAround c (sqrtInt_nonneg _)
          · exact ⟨s, rfl, hs⟩
        · split
          · apply searchLoop_inv (SearchInv Q c)
            · intro i _ s2 hs2
              cases hci : ch i with
              | null => exact ⟨s2, rfl, hs2⟩
              | node m mch =>
                simp only
                have := ih i (d + 1) (hch i) (by rw [hci]; rfl) (inside_child hwf' hin i) s2 hs2
                rw [hci] at this
                exact this
            · exact hs
          · exact ⟨s, rfl, hs⟩

/-- `NNSearchUp` along a sound stack of ancestors never fails and keeps the search sound. -/
theorem NNSearchUp_ok (colors : Nat → ColorPoint) (hpal : ∀ i, InRange (colors i))
    (Q : Point → Prop) (c : ColorPoint) (hc : InRange c) :
    ∀ (anc : List (Octree × Nat)), anc ≠ [] → StackOK colors Q c anc →
      ∀ s, SearchInv Q c s → ∃ s1, NNSearchUp colors anc s = .ok s1 ∧ SearchInv Q c s1 := by
  intro anc
  induction anc with
  | nil => intro h; exact absurd rfl h
  | cons top rest ih =>
    intro _ hst s hs
    obtain ⟨t, fromIdx⟩ := top
    simp only [StackOK] at hst
    obtain ⟨⟨n, ch, rfl, hdep, hbox⟩, hwf, hin, hrest⟩ := hst
    have hwf' := hwf
    simp only [WF] at hwf
    obtain ⟨_, _, hok, _, hch, _⟩ := hwf
    simp only [NNSearchUp]
    rw [intersects_of_has hs.2.2 hbox]
    simp only [Bool.not_true, Bool.false_eq_true, if_false]
    obtain ⟨s1, h1, hs1⟩ := searchLoop_inv (SearchInv Q c)
      (fun i s => if !(ch i).isNull && i ≠ fromIdx then NNSearchDown colors (ch i) s else .ok s)
      (List.range 8)
      (by
        intro i _ s2 hs2
        show ∃ s1, (if (!(ch i).isNull && decide (i ≠ fromIdx)) = true
          then NNSearchDown colors (ch i) s2 else Except.ok s2) = Except.ok s1 ∧ SearchInv Q c s1
        split
        · rename_i hcond
          simp only [Bool.and_eq_true, Bool.not_eq_true', decide_eq_true_eq] at hcond
          exact NNSearchDown_ok colors hpal Q c hc (ch i) (rest.length + 1) (hch i) hcond.1
            (inside_child hwf' hin i) s2 hs2
        · exact ⟨s2, rfl, hs2⟩) s hs
    rw [h1]
    simp only
    split
    · rename_i hcond
      simp only [Bool.and_eq_true, decide_eq_true_eq] at hcond
      have hne : rest ≠ [] := by
        intro e
        rw [e] at hdep
        simp only [List.length_nil] at hdep
        omega
      exact ih hne hrest s1 hs1
    · exact ⟨s1, rfl, hs1⟩

/-- `findNearest` from a well-formed node with at least one bucket, reached along a sound stack,
never fails and returns a point satisfying `Q`. -/
theorem findNearestFrom_ok (colors : Nat → ColorPoint) (hpal : ∀ i, InRange (colors i))
    (Q : Point → Prop) (c : ColorPoint) (hc : InRange c) :
    ∀ (t : Octree) (anc : List (Octree × Nat)) (tr tg tb : Int),
      WF colors anc.length t → Geo t anc.length tr tg tb →
      InCube c (cubeSide anc.length) tr tg tb → StackOK colors Q c anc → Inside Q t →
      t.pointsSize ≠ 0 →
      ∃ p, findNearestFrom colors t anc c = .ok p ∧ Q p := by
  intro t
  induction t with
  | null => intro anc tr tg tb _ _ _ _ _ hp; exact absurd rfl hp
  | node n ch ih =>
    intro anc tr tg tb hwf hgeo hcube hst hin hp
    have hwf' := hwf
    simp only [WF] at hwf
    obtain ⟨hdep, hd, hok, hleaf, hch, _⟩ := hwf
    simp only [Octree.pointsSize] at hp
    have hne : n.points ≠ [] := fun e => hp (by rw [e]; rfl)
    have hgeo' := hgeo
    simp only [Geo] at hgeo
    obtain ⟨_, har, hag, hab, hgch⟩ := hgeo
    unfold findNearestFrom
    simp only [hp, if_false]
    split
    · obtain ⟨p, hpn, hq⟩ := nearestInUs_inside colors hpal (Q := Q) c hc hok hne hin
      rw [hpn]
      simp only
      split
      · rename_i hcond
        simp only [Bool.and_eq_true, decide_eq_true_eq] at hcond
        have hanc : anc ≠ [] := by
          intro e
          rw [e] at hdep
          simp only [List.length_nil] at hdep
          omega
        obtain ⟨s1, h1, hs1⟩ := NNSearchUp_ok colors hpal Q c hc anc hanc hst
          { candidate := p, source := c,
            bestDistanceSq := c.distanceTo (colors p.color),
            bounds := BB.setAround c (sqrtInt (c.distanceTo (colors p.color))) }
          ⟨hq, rfl, has_setAround c (sqrtInt_nonneg _)⟩
        rw [h1]
        exact ⟨_, rfl, hs1.1⟩
      · exact ⟨p, rfl, hq⟩
    · rename_i hcond
      simp only [Bool.or_eq_true, decide_eq_true_eq, not_or, Bool.not_eq_true] at hcond
      obtain ⟨⟨_, hnn⟩, hps⟩ := hcond
      have hif : ((ch (addr n.depth c)).isNull || decide ((ch (addr n.depth c)).pointsSize = 0))
          = false := by
        simp [hnn, hps]
      rw [hif]
      simp only [Bool.false_eq_true, if_false]
      have hlt : anc.length < treeTune := by
        by_contra hge
        rw [hleaf (by omega) _] at hnn
        simp [Octree.isNull] at hnn
      have hlt4 : n.depth < 4 := by rw [hdep]; exact hlt
      rw [hdep]
      have hcube' := inCube_child anc.length (by unfold treeTune at hlt; omega) c hc tr tg tb
        ⟨har.2.2.2.2.1, har.2.2.2.2.2.1⟩ ⟨hag.2.2.2.2.1, hag.2.2.2.2.2.1⟩
        ⟨hab.2.2.2.2.1, hab.2.2.2.2.2.1⟩ hcube
      have hbox : n.bounds.Has c :=
        ⟨har.mem hcube.1, hag.mem hcube.2.1, hab.mem hcube.2.2⟩
      exact ih (addr anc.length c) ((.node n ch, addr anc.length c) :: anc) _ _ _
        (hch _) (hgch _) hcube'
        ⟨⟨n, ch, rfl, hdep, hbox⟩, hwf', hin, hst⟩
        (inside_child hwf' hin _) (by rw [← hdep]; exact hps)

/-- On a well-formed tree with the geometry of the root and at least one bucket, `findNearest` of
a palette colour succeeds and returns a member of the root bucket of its position. -/
theorem findNearest_ok {colors : Nat → ColorPoint} (hpal : ∀ i, InRange (colors i))
    {t : Octree} (hwf : WFRoot colors t) (hgeo : Geo t 0 0 0 0) {c : ColorPoint}
    (hc : InRange c) (hne : t.buckets ≠ []) :
    ∃ p, t.findNearest colors c = .ok p ∧ p ∈ t.bucketAt p.space.hash := by
  have hin : Inside (fun p => p ∈ t.bucketAt p.space.hash) t := by
    intro h q hq
    cases t with
    | null => cases hq
    | node n ch =>
      have := hwf.2
      simp only [WF] at this
      simp only [Octree.bucketAt] at hq ⊢
      rw [this.2.2.1.hash h q hq]
      exact hq
  have hps : t.pointsSize ≠ 0 := by
    cases t with
    | null => exact absurd rfl hne
    | node n ch =>
      simp only [Octree.buckets] at hne
      simp only [Octree.pointsSize]
      exact fun e => hne (List.length_eq_zero.1 e)
  exact findNearestFrom_ok colors hpal _ c hc t [] 0 0 0 hwf.2 hgeo (inCube_root hc) trivial hin
    hps

end RustColors


/-! ## The grid: offsets, neighbours, frontier -/

namespace RustColors

theorem spaceOffset_eq {x y : Nat} (hx : x < 4096) (hy : y < 4096) :
    spaceOffset x y = y * 4096 + x := by
  unfold spaceOffset
  rw [Nat.shiftLeft_eq]
  have h1 : y * 2 ^ 12 % 2 ^ 32 = 2 ^ 12 * y := by omega
  rw [h1, ← Nat.mul_add_lt_is_or (by omega) y]
  omega

theorem gridSpace_lt {o : Nat} (ho : o < gridSize) :
    gridSpace o = ⟨o % 4096, o / 4096, o⟩ := by
  unfold gridSize at ho
  simp [gridSpace, ho]

theorem gridSpace_hash {o : Nat} (ho : o < gridSize) : (gridSpace o).hash = o := by
  rw [gridSpace_lt ho]

/-- The neighbours `getNeighbors` pushes for a grid cell are the grid cells of the hashes
`nbrs`. -/
theorem getNeighbors_grid {g : Nat} (hg : g < gridSize) :
    getNeighbors gridSpace (gridSpace g) = (nbrs g).map gridSpace := by
  rw [gridSpace_lt hg]
  unfold gridSize at hg
  have hx : g % 4096 < 4096 := Nat.mod_lt _ (by decide)
  have hy : g / 4096 < 4096 := by omega
  unfold getNeighbors nbrs
  simp only
  have e1 : g % 4096 > 0 → spaceOffset (g % 4096 - 1) (g / 4096) = g - 1 := by
    intro h; rw [spaceOffset_eq (by omega) hy]; omega
  have e2 : g % 4096 < 4095 → spaceOffset (g % 4096 + 1) (g / 4096) = g + 1 := by
    intro h; rw [spaceOffset_eq (by omega) hy]; omega
  have e3 : g / 4096 > 0 → spaceOffset (g % 4096) (g / 4096 - 1) = g - 4096 := by
    intro h; rw [spaceOffset_eq hx (by omega)]; omega
  have e4 : g / 4096 < 4095 → spaceOffset (g % 4096) (g / 4096 + 1) = g + 4096 := by
    intro h; rw [spaceOffset_eq hx (by omega)]; omega
  simp only [List.map_append]
  congr 1
  · congr 1
    · congr 1
      · split
        · rename_i h; rw [e1 h]; rfl
        · rfl
      · split
        · rename_i h; rw [e2 h]; rfl
        · rfl
    · split
      · rename_i h; rw [e3 h]; rfl
      · rfl
  · split
    · rename_i h; rw [e4 h]; rfl
    · rfl

theorem mem_nbrs {g h : Nat} :
    h ∈ nbrs g ↔ (g % 4096 > 0 ∧ h = g - 1) ∨ (g % 4096 < 4095 ∧ h = g + 1) ∨
      (g / 4096 > 0 ∧ h = g - 4096) ∨ (g / 4096 < 4095 ∧ h = g + 4096) := by
  unfold nbrs
  simp only [List.mem_append]
  constructor
  · rintro (((h1 | h1) | h1) | h1)
    · split at h1
      · left; simp at h1; exact ⟨by assumption, h1⟩
      · cases h1
    · split at h1
      · right; left; simp at h1; exact ⟨by assumption, h1⟩
      · cases h1
    · split at h1
      · right; right; left; simp at h1; exact ⟨by assumption, h1⟩
      · cases h1
    · split at h1
      · right; right; right; simp at h1; exact ⟨by assumption, h1⟩
      · cases h1
  · rintro (⟨h1, h2⟩ | ⟨h1, h2⟩ | ⟨h1, h2⟩ | ⟨h1, h2⟩)
    · left; left; left; simp [h1, h2]
    · left; left; right; simp [h1, h2]
    · left; right; simp [h1, h2]
    · right; simp [h1, h2]

theorem nbrs_lt {g h : Nat} (hg : g < gridSize) (hh : h ∈ nbrs g) : h < gridSize := by
  unfold gridSize at *
  rw [mem_nbrs] at hh
  omega

theorem nbrs_ne {g h : Nat} (hh : h ∈ nbrs g) : h ≠ g := by
  rw [mem_nbrs] at hh
  omega

/-- Walking up from a true value to a false one crosses a step from true to false. -/
theorem step_up (f : Nat → Bool) : ∀ (k a : Nat), f a = true → f (a + k) = false →
    ∃ i, a ≤ i ∧ i < a + k ∧ f i = true ∧ f (i + 1) = false := by
  intro k
  induction k with
  | zero => intro a h1 h2; rw [Nat.add_zero, h1] at h2; cases h2
  | succ k ih =>
    intro a h1 h2
    cases hk : f (a + k) with
    | true => exact ⟨a + k, by omega, by omega, hk, h2⟩
    | false =>
      obtain ⟨i, hi1, hi2, hi3, hi4⟩ := ih a h1 hk
      exact ⟨i, hi1, by omega, hi3, hi4⟩

/-- Walking up from a false value to a true one crosses a step from false to true. -/
theorem step_down (f : Nat → Bool) : ∀ (k a : Nat), f a = false → f (a + k) = true →
    ∃ i, a ≤ i ∧ i < a + k ∧ f i = false ∧ f (i + 1) = true := by
  intro k
  induction k with
  | zero => intro a h1 h2; rw [Nat.add_zero, h1] at h2; cases h2
  | succ k ih =>
    intro a h1 h2
    cases hk : f (a + k) with
    | false => exact ⟨a + k, by omega, by omega, hk, h2⟩
    | true =>
      obtain ⟨i, hi1, hi2, hi3, hi4⟩ := ih a h1 hk
      exact ⟨i, hi1, by omega, hi3, hi4⟩

/-- Between a true and a false value there are two consecutive arguments, between them, one
true and one false. -/
theorem step_between (f : Nat → Bool) (a b : Nat) (ha : f a = true) (hb : f b = false) :
    ∃ i j, f i = true ∧ f j = false ∧ (j = i + 1 ∨ i = j + 1) ∧
      min a b ≤ i ∧ i ≤ max a b ∧ min a b ≤ j ∧ j ≤ max a b := by
  rcases Nat.lt_or_ge a b with hab | hab
  · obtain ⟨i, h1, h2, h3, h4⟩ := step_up f (b - a) a ha (by rw [Nat.add_sub_cancel' hab.le]; exact hb)
    refine ⟨i, i + 1, h3, h4, Or.inl rfl, ?_⟩
    omega
  · obtain ⟨i, h1, h2, h3, h4⟩ := step_down f (a - b) b hb (by rw [Nat.add_sub_cancel' hab]; exact ha)
    refine ⟨i + 1, i, h4, h3, Or.inr rfl, ?_⟩
    omega

/-- The grid is connected: when some cell is written and some cell is not, the frontier is not
empty. -/
theorem frontier_nonempty (w : Nat → Bool) (g u : Nat) (hg : g < gridSize) (hwg : w g = true)
    (hu : u < gridSize) (hwu : w u = false) : ∃ h, Frontier w h := by
  unfold gridSize at hg hu
  cases hm : w (g / 4096 * 4096 + u % 4096) with
  | true =>
    obtain ⟨i, j, hi, hj, hij, hb⟩ := step_between (fun r => w (r * 4096 + u % 4096))
      (g / 4096) (u / 4096) hm (by simp only; rw [Nat.div_add_mod']; exact hwu)
    refine ⟨j * 4096 + u % 4096, by unfold gridSize; omega, hj, i * 4096 + u % 4096,
      by unfold gridSize; omega, hi, ?_⟩
    rw [mem_nbrs]
    omega
  | false =>
    obtain ⟨i, j, hi, hj, hij, hb⟩ := step_between (fun x => w (g / 4096 * 4096 + x))
      (g % 4096) (u % 4096) (by simp only; rw [Nat.div_add_mod']; exact hwg) hm
    refine ⟨g / 4096 * 4096 + j, by unfold gridSize; omega, hj, g / 4096 * 4096 + i,
      by unfold gridSize; omega, hi, ?_⟩
    rw [mem_nbrs]
    omega

end RustColors


/-! ## The index of the driver -/

namespace RustColors

theorem keyAt_iff_bucketAt {colors : Nat → ColorPoint} {t : Octree} (hwf : WFRoot colors t)
    (h : Nat) : t.keyAt h ≠ none ↔ t.bucketAt h ≠ [] := by
  cases t with
  | null => simp [Octree.keyAt, Octree.bucketAt]
  | node n ch =>
    have := hwf.2
    simp only [WF] at this
    simp only [Octree.keyAt, Octree.bucketAt]
    rw [Ne, Ne, this.2.2.1.bucketOf_eq_nil_iff]

theorem buckets_ne_nil_of_key {colors : Nat → ColorPoint} {t : Octree} (hwf : WFRoot colors t)
    {h : Nat} (hk : t.keyAt h ≠ none) : t.buckets ≠ [] := by
  cases t with
  | null => exact absurd rfl hk
  | node n ch =>
    have := hwf.2
    simp only [WF] at this
    simp only [Octree.keyAt] at hk
    simp only [Octree.buckets]
    cases hn : n.pointHash h with
    | none => exact absurd hn hk
    | some i =>
      have := this.2.2.1.lt h i hn
      intro e
      rw [e] at this
      cases this

/-- The loop over the neighbours: the tree stays well formed with its geometry, and the bucket of
every position gets one new point per unwritten neighbour of that position, at its end. -/
theorem addNeighbors_spec (colors : Nat → ColorPoint) (w : Nat → Bool) (ci : Nat)
    (hci : InRange (colors ci)) :
    ∀ (nbs : List SpacePoint) (root : Octree), WFRoot colors root → Geo root 0 0 0 0 →
      WFRoot colors (addNeighbors colors w ci root nbs) ∧
      Geo (addNeighbors colors w ci root nbs) 0 0 0 0 ∧
      ∀ h, (addNeighbors colors w ci root nbs).bucketAt h = root.bucketAt h ++
        (nbs.filter (fun nb => !w nb.hash && decide (nb.hash = h))).map
          (fun nb => (⟨nb, ci⟩ : Point)) := by
  intro nbs
  induction nbs with
  | nil => intro root hwf hgeo; exact ⟨hwf, hgeo, fun h => by simp [addNeighbors]⟩
  | cons nb rest ih =>
    intro root hwf hgeo
    simp only [addNeighbors]
    cases hw : w nb.hash with
    | true =>
      simp only [Bool.not_true, Bool.false_eq_true, if_false]
      obtain ⟨h1, h2, h3⟩ := ih root hwf hgeo
      refine ⟨h1, h2, fun h => ?_⟩
      rw [h3 h]
      simp [List.filter_cons, hw]
    | false =>
      simp only [Bool.not_false, if_true]
      obtain ⟨h1, h2, h3⟩ := ih (root.add colors ⟨nb, ci⟩) (add_wfRoot hwf _)
        (add_geo hwf hgeo ⟨nb, ci⟩ hci)
      refine ⟨h1, h2, fun h => ?_⟩
      rw [h3 h, add_bucketAt hwf]
      by_cases hh : h = nb.hash
      · subst hh
        simp [List.filter_cons, hw]
      · have : ¬ nb.hash = h := fun e => hh e.symm
        simp [List.filter_cons, hw, hh, this]

theorem remove_bucketAt {colors : Nat → ColorPoint} {t : Octree} (hwf : WFRoot colors t)
    (p : Point) (hk : t.keyAt p.space.hash ≠ none) :
    ∃ t1, t.remove colors p = .ok t1 ∧ WFRoot colors t1 ∧
      (Geo t 0 0 0 0 → Geo t1 0 0 0 0) ∧
      ∀ h, t1.bucketAt h = if h = p.space.hash then [] else t.bucketAt h := by
  obtain ⟨t1, h1, h2, h3⟩ := remove_wfRoot hwf p hk
  exact ⟨t1, h1, h2, fun hg => geo_rel (fun n n1 r => ⟨r.bounds, r.radius⟩) t t1 0 0 0 0 h3 hg,
    rel_removed_bucketAt h3⟩

theorem isCell_gridSpace {h : Nat} (hh : h < gridSize) : IsCell (gridSpace h) := by
  unfold IsCell
  rw [gridSpace_hash hh]
  exact ⟨hh, rfl⟩

/-- Some position below `n` is missing from a duplicate-free list of fewer than `n` positions. -/
theorem exists_not_mem_of_length_lt (l : List Nat) (n : Nat) (hlen : l.length < n) :
    ∃ u, u < n ∧ u ∉ l := by
  by_contra hcon
  push_neg at hcon
  have hsub : Finset.range n ⊆ l.toFinset := by
    intro u hu
    rw [List.mem_toFinset]
    exact hcon u (Finset.mem_range.1 hu)
  have h1 := Finset.card_le_card hsub
  rw [Finset.card_range] at h1
  have h2 := List.toFinset_card_le l
  omega

end RustColors


/-! ## One placement step keeps the driver sound -/

namespace RustColors

theorem new_points_ne_nil (w1 : Nat → Bool) {g : Nat} (hg : g < gridSize) (h c : Nat) :
    ((((nbrs g).map gridSpace).filter (fun nb => !w1 nb.hash && decide (nb.hash = h))).map
      (fun nb => (⟨nb, c⟩ : Point))) ≠ [] ↔ (h ∈ nbrs g ∧ w1 h = false) := by
  rw [Ne, List.map_eq_nil_iff, List.filter_eq_nil_iff]
  constructor
  · intro hne
    push_neg at hne
    obtain ⟨nb, hnb, hcond⟩ := hne
    obtain ⟨h1, hh1, rfl⟩ := List.mem_map.1 hnb
    rw [gridSpace_hash (nbrs_lt hg hh1)] at hcond
    simp only [Bool.and_eq_true, Bool.not_eq_true', decide_eq_true_eq] at hcond
    obtain ⟨hw, rfl⟩ := hcond
    exact ⟨hh1, hw⟩
  · rintro ⟨hh, hw⟩ hall
    have := hall (gridSpace h) (List.mem_map_of_mem _ hh)
    rw [gridSpace_hash (nbrs_lt hg hh)] at this
    simp [hw] at this

theorem mem_new_points_cell (w1 : Nat → Bool) {g : Nat} (hg : g < gridSize) (h c : Nat)
    {q : Point}
    (hq : q ∈ (((nbrs g).map gridSpace).filter
      (fun nb => !w1 nb.hash && decide (nb.hash = h))).map (fun nb => (⟨nb, c⟩ : Point))) :
    IsCell q.space := by
  obtain ⟨nb, hnb, rfl⟩ := List.mem_map.1 hq
  obtain ⟨h1, hh1, rfl⟩ := List.mem_map.1 (List.mem_filter.1 hnb).1
  exact isCell_gridSpace (nbrs_lt hg hh1)

theorem markWritten_apply (w : Nat → Bool) (sp : SpacePoint) (h : Nat) :
    markWritten w sp h = if h = sp.hash then true else w h := rfl

/-- The frontier after the cell `g` of the frontier was written: `g` leaves, its unwritten
neighbours enter. -/
theorem frontier_mark (w : Nat → Bool) (sp : SpacePoint) (hg : sp.hash < gridSize) (h : Nat) :
    Frontier (markWritten w sp) h ↔
      h ≠ sp.hash ∧ (Frontier w h ∨ (h ∈ nbrs sp.hash ∧ markWritten w sp h = false)) := by
  unfold Frontier
  simp only [markWritten_apply]
  constructor
  · rintro ⟨h1, h2, g1, hg1, hw1, hn1⟩
    have hne : h ≠ sp.hash := by
      intro e; rw [if_pos e] at h2; cases h2
    rw [if_neg hne] at h2
    refine ⟨hne, ?_⟩
    by_cases hg2 : g1 = sp.hash
    · right
      rw [if_neg hne]
      exact ⟨hg2 ▸ hn1, h2⟩
    · left
      rw [if_neg hg2] at hw1
      exact ⟨h1, h2, g1, hg1, hw1, hn1⟩
  · rintro ⟨hne, hor⟩
    rw [if_neg hne]
    rcases hor with ⟨h1, h2, g1, hg1, hw1, hn1⟩ | ⟨hn, hw⟩
    · refine ⟨h1, h2, g1, hg1, ?_, hn1⟩
      split
      · rfl
      · exact hw1
    · rw [if_neg hne] at hw
      exact ⟨nbrs_lt hg hn, hw, sp.hash, hg, by rw [if_pos rfl], hn⟩

/-- One placement: after the chosen point's cell is marked, the neighbours are added and the
point is removed, the index is sound again. -/
theorem treeInv_step {colors : Nat → ColorPoint} {w : Nat → Bool} {root : Octree}
    (inv : TreeInv colors w root) (hpal : ∀ i, InRange (colors i)) (next : Point)
    (hnext : next ∈ root.bucketAt next.space.hash) (c : Nat) :
    ∃ root2,
      (addNeighbors colors (markWritten w next.space) c root
        (getNeighbors gridSpace next.space)).remove colors next = .ok root2 ∧
      TreeInv colors (markWritten w next.space) root2 ∧
      w next.space.hash = false ∧ IsCell next.space := by
  have hcell := inv.cells _ _ hnext
  have hg := hcell.1
  have hne : root.bucketAt next.space.hash ≠ [] := List.ne_nil_of_mem hnext
  have hfr := (inv.keys _).1 ((keyAt_iff_bucketAt inv.wf _).2 hne)
  have hnbs : getNeighbors gridSpace next.space = (nbrs next.space.hash).map gridSpace := by
    conv_lhs => rw [hcell.2]
    exact getNeighbors_grid hg
  rw [hnbs]
  obtain ⟨hwf1, hgeo1, hb1⟩ := addNeighbors_spec colors (markWritten w next.space) c (hpal c)
    ((nbrs next.space.hash).map gridSpace) root inv.wf inv.geo
  have hkey1 : (addNeighbors colors (markWritten w next.space) c root
      ((nbrs next.space.hash).map gridSpace)).keyAt next.space.hash ≠ none := by
    rw [keyAt_iff_bucketAt hwf1, hb1]
    simp [hne]
  obtain ⟨root2, hrm, hwf2, hgeo2, hb2⟩ := remove_bucketAt hwf1 next hkey1
  refine ⟨root2, hrm, ⟨hwf2, hgeo2 hgeo1, ?_, ?_⟩, hfr.2.1, hcell⟩
  · intro h q hq
    rw [hb2] at hq
    split at hq
    · cases hq
    · rw [hb1, List.mem_append] at hq
      rcases hq with hq | hq
      · exact inv.cells h q hq
      · exact mem_new_points_cell _ hg h c hq
  · intro h
    rw [keyAt_iff_bucketAt hwf2, hb2, frontier_mark w next.space hg, ← inv.keys,
      keyAt_iff_bucketAt inv.wf, ← new_points_ne_nil (markWritten w next.space) hg h c]
    by_cases hh : h = next.space.hash
    · simp [hh]
    · rw [if_neg hh, hb1]
      simp only [ne_eq, List.append_eq_nil, not_and_or, hh, not_false_eq_true, true_and]

end RustColors


/-! ## Seeding and the placement loop -/

namespace RustColors

theorem range_succ_map (f : Nat → ColorPoint) (c : Nat) :
    (List.range (c + 1)).map f = (List.range c).map f ++ [f c] := by
  rw [List.range_succ, List.map_append]
  rfl

/-- One iteration of the loop of `simulateTo` on a sound driver that has placed `c` pixels,
`1 ≤ c < 4096 * 4096`: it succeeds and leaves a sound driver that has placed `c + 1`. -/
theorem simulateStep_ok {st : Colorful} {c : Nat} (inv : DrvInv st c) (hc1 : 1 ≤ c)
    (hc2 : c < gridSize) :
    ∃ st1, st.simulateStep c = .ok st1 ∧ DrvInv st1 (c + 1) ∧ st1.colors = st.colors ∧
      st1.currentPixel = st.currentPixel := by
  -- the frontier is not empty
  obtain ⟨e, erest, hputs⟩ : ∃ e erest, st.puts = e :: erest := by
    cases hp : st.puts with
    | nil => have := inv.len; rw [hp] at this; simp at this; omega
    | cons e erest => exact ⟨e, erest, rfl⟩
  have he : e ∈ st.puts := by rw [hputs]; exact List.mem_cons_self _ _
  have hwe : st.written e.1.hash = true :=
    (inv.written _).2 (List.mem_map_of_mem (fun e => e.1.hash) he)
  obtain ⟨u, hu, hun⟩ := exists_not_mem_of_length_lt (st.puts.map (fun e => e.1.hash)) gridSize
    (by rw [List.length_map, inv.len]; exact hc2)
  have hwu : st.written u = false := by
    cases hw : st.written u with
    | false => rfl
    | true => exact absurd ((inv.written u).1 hw) hun
  obtain ⟨h, hfr⟩ := frontier_nonempty st.written e.1.hash u (inv.cellsPut e he).1 hwe hu hwu
  have hne := buckets_ne_nil_of_key inv.tree.wf ((inv.tree.keys h).2 hfr)
  obtain ⟨next, hfind, hnext⟩ := findNearest_ok inv.pal inv.tree.wf inv.tree.geo (inv.pal c) hne
  obtain ⟨root2, hrm, hinv2, hwn, hcell⟩ := treeInv_step inv.tree inv.pal next hnext c
  unfold Colorful.simulateStep
  simp only [hfind, inv.space, hrm]
  refine ⟨_, rfl, ⟨hinv2, rfl, inv.pal, ?_, ?_, ?_, ?_, ?_⟩, rfl, rfl⟩
  · simp [inv.len]
  · intro e1 he1
    rcases List.mem_cons.1 he1 with rfl | he1
    · exact hcell
    · exact inv.cellsPut e1 he1
  · simp only [List.map_cons, List.nodup_cons]
    refine ⟨?_, inv.nodup⟩
    intro hmem
    have := (inv.written _).2 hmem
    rw [hwn] at this
    cases this
  · intro h1
    simp only [markWritten_apply, List.map_cons, List.mem_cons]
    by_cases hh : h1 = next.space.hash
    · simp [hh]
    · simp only [hh, if_false, false_or]
      exact inv.written h1
  · simp only [List.reverse_cons, List.map_append, List.map_cons, List.map_nil]
    rw [inv.colorsPut, range_succ_map]

/-- The loop of `simulateTo` on a sound driver: `k` more placements succeed as long as the grid
has room for them. -/
theorem simulateLoop_ok : ∀ (k c : Nat) (st : Colorful), DrvInv st c → 1 ≤ c →
    c + k ≤ gridSize →
    ∃ st1, Colorful.simulateLoop k c st = .ok st1 ∧ DrvInv st1 (c + k) ∧
      st1.colors = st.colors ∧ st1.currentPixel = st.currentPixel := by
  intro k
  induction k with
  | zero => intro c st inv _ _; exact ⟨st, rfl, inv, rfl, rfl⟩
  | succ k ih =>
    intro c st inv hc1 hc2
    obtain ⟨st1, h1, inv1, hcol1, hcp1⟩ := simulateStep_ok inv hc1 (by omega)
    obtain ⟨st2, h2, inv2, hcol2, hcp2⟩ := ih (c + 1) st1 inv1 (by omega) (by omega)
    refine ⟨st2, ?_, ?_, by rw [hcol2, hcol1], by rw [hcp2, hcp1]⟩
    · simp only [Colorful.simulateLoop, h1, h2]
    · rw [show c + (k + 1) = c + 1 + k by omega]
      exact inv2

theorem inRange_swapColors {colors : Nat → ColorPoint} (hpal : ∀ i, InRange (colors i))
    (i j k : Nat) : InRange (swapColors colors i j k) := by
  unfold swapColors
  split
  · exact hpal _
  · split
    · exact hpal _
    · exact hpal _

theorem wrapInt32_small {z : Int} (h0 : 0 ≤ z) (h1 : z < 2 ^ 31) : wrapInt32 z = z := by
  unfold wrapInt32
  omega

/-- What a successful `seedIdx` did, field by field. -/
theorem seedIdx_ok_iff (st : Colorful) (x y cp : Int) (st1 : Colorful) :
    st.seedIdx x y cp = .ok st1 ↔
      (0 ≤ x ∧ x < 4096 ∧ 0 ≤ y ∧ y < 4096) ∧
      (0 ≤ wrapInt32 (cp * 4096) ∧ wrapInt32 (cp * 4096) < 4096 * 4096) ∧
      st.written (st.space (spaceOffset x.toNat y.toNat)).hash = false ∧
      st1 = { st with
        root := addNeighbors (swapColors st.colors st.currentPixel (wrapInt32 (cp * 4096)).toNat)
          st.written st.currentPixel st.root
          (getNeighbors st.space (st.space (spaceOffset x.toNat y.toNat))),
        colors := swapColors st.colors st.currentPixel (wrapInt32 (cp * 4096)).toNat,
        image := put st.image (st.space (spaceOffset x.toNat y.toNat))
          (swapColors st.colors st.currentPixel (wrapInt32 (cp * 4096)).toNat st.currentPixel),
        puts := (st.space (spaceOffset x.toNat y.toNat),
          swapColors st.colors st.currentPixel (wrapInt32 (cp * 4096)).toNat st.currentPixel) ::
            st.puts,
        written := markWritten st.written (st.space (spaceOffset x.toNat y.toNat)),
        currentPixel := st.currentPixel + 1 } := by
  unfold Colorful.seedIdx
  simp only
  by_cases hb : x < 0 ∨ y < 0 ∨ x ≥ 4096 ∨ y ≥ 4096
  · have : (decide (x < 0) || decide (y < 0) || decide (x ≥ 4096) || decide (y ≥ 4096)) = true := by
      simp only [Bool.or_eq_true, decide_eq_true_eq]
      tauto
    rw [if_pos this]
    constructor
    · intro h; cases h
    · rintro ⟨h, _⟩; omega
  · have : ¬ (decide (x < 0) || decide (y < 0) || decide (x ≥ 4096) || decide (y ≥ 4096)) = true := by
      simp only [Bool.or_eq_true, decide_eq_true_eq]
      tauto
    rw [if_neg this]
    by_cases hcp : wrapInt32 (cp * 4096) < 0 ∨ wrapInt32 (cp * 4096) ≥ 4096 * 4096
    · have : (decide (wrapInt32 (cp * 4096) < 0) ||
          decide (wrapInt32 (cp * 4096) ≥ 4096 * 4096)) = true := by
        simp only [Bool.or_eq_true, decide_eq_true_eq]
        exact hcp
      rw [if_pos this]
      constructor
      · intro h; cases h
      · rintro ⟨_, h, _⟩; omega
    · have : ¬ (decide (wrapInt32 (cp * 4096) < 0) ||
          decide (wrapInt32 (cp * 4096) ≥ 4096 * 4096)) = true := by
        simp only [Bool.or_eq_true, decide_eq_true_eq]
        exact hcp
      rw [if_neg this]
      cases hw : st.written (st.space (spaceOffset x.toNat y.toNat)).hash with
      | true =>
        simp only [if_true]
        constructor
        · intro h; cases h
        · rintro ⟨_, _, h, _⟩; cases h
      | false =>
        simp only [Bool.false_eq_true, if_false]
        constructor
        · intro h
          refine ⟨by omega, by omega, trivial, ?_⟩
          cases h
          rfl
        · rintro ⟨_, _, _, h⟩
          rw [h]

end RustColors


/-! ## From a fresh driver: the seed, then the loop -/

namespace RustColors

theorem frontier_none {w : Nat → Bool} (hw : ∀ h, w h = false) (h : Nat) : ¬ Frontier w h := by
  rintro ⟨_, _, g, _, hg, _⟩
  rw [hw g] at hg
  cases hg

/-- A successful `seedIdx` on a fresh driver leaves a sound driver that has placed one pixel. -/
theorem seedIdx_fresh {st st1 : Colorful} {x y cp : Int} (hf : Fresh st)
    (hseed : st.seedIdx x y cp = .ok st1) : DrvInv st1 1 ∧ st1.currentPixel = 1 := by
  obtain ⟨⟨hx0, hx1, hy0, hy1⟩, _, _, hst1⟩ := (seedIdx_ok_iff st x y cp st1).1 hseed
  have hoff : spaceOffset x.toNat y.toNat = y.toNat * 4096 + x.toNat :=
    spaceOffset_eq (by omega) (by omega)
  have hg : spaceOffset x.toNat y.toNat < gridSize := by
    rw [hoff]; unfold gridSize; omega
  generalize spaceOffset x.toNat y.toNat = g at hst1 hg
  generalize (wrapInt32 (cp * 4096)).toNat = k at hst1
  rw [hf.space, hf.currentPixel, hf.root, hf.puts, getNeighbors_grid hg] at hst1
  have hpal1 : ∀ i, InRange (swapColors st.colors 0 k i) := inRange_swapColors hf.pal 0 k
  obtain ⟨hwf1, hgeo1, hb1⟩ := addNeighbors_spec (swapColors st.colors 0 k) st.written 0
    (hpal1 0) ((nbrs g).map gridSpace) Octree.root (wfRoot_root _) geo_root
  have hgh : (gridSpace g).hash = g := gridSpace_hash hg
  subst hst1
  refine ⟨⟨⟨hwf1, hgeo1, ?_, ?_⟩, rfl, hpal1, rfl, ?_, ?_, ?_, rfl⟩, rfl⟩
  · intro h q hq
    simp only at hq
    rw [hb1] at hq
    simp only [Octree.root, Octree.new, Octree.bucketAt, bucketOf, List.nil_append] at hq
    exact mem_new_points_cell _ hg h 0 hq
  · intro h
    simp only
    rw [keyAt_iff_bucketAt hwf1, hb1]
    simp only [Octree.root, Octree.new, Octree.bucketAt, bucketOf, List.nil_append]
    rw [new_points_ne_nil st.written hg h 0, frontier_mark st.written (gridSpace g)
      (by rw [hgh]; exact hg) h, hgh, markWritten_apply, hgh]
    constructor
    · rintro ⟨hn, _⟩
      have hne := nbrs_ne hn
      exact ⟨hne, Or.inr ⟨hn, by rw [if_neg hne]; exact hf.written h⟩⟩
    · rintro ⟨_, hfr | ⟨hn, _⟩⟩
      · exact absurd hfr (frontier_none hf.written h)
      · exact ⟨hn, hf.written h⟩
  · intro e he
    simp only [List.mem_singleton] at he
    rw [he]
    exact isCell_gridSpace hg
  · simp
  · intro h
    simp only [markWritten_apply, hgh, List.map_cons, List.map_nil, List.mem_singleton]
    constructor
    · intro hh
      by_contra hne
      rw [if_neg hne, hf.written h] at hh
      cases hh
    · intro hh
      rw [if_pos hh]

/-- The number of written cells of a sound driver is the number of pixels placed. -/
theorem DrvInv.card_written {st : Colorful} {c : Nat} (inv : DrvInv st c) :
    ((Finset.range gridSize).filter (fun h => st.written h = true)).card = c := by
  have : (Finset.range gridSize).filter (fun h => st.written h = true) =
      (st.puts.map (fun e => e.1.hash)).toFinset := by
    ext h
    simp only [Finset.mem_filter, Finset.mem_range, List.mem_toFinset]
    rw [inv.written]
    constructor
    · exact fun hh => hh.2
    · intro hh
      refine ⟨?_, hh⟩
      obtain ⟨e, he, rfl⟩ := List.mem_map.1 hh
      exact (inv.cellsPut e he).1
  rw [this, List.toFinset_card_of_nodup inv.nodup, List.length_map, inv.len]

/-- After one seed on a fresh driver, `simulateTo(N)` with `1 ≤ N ≤ 4096 * 4096` succeeds and
leaves a sound driver that has placed `N` pixels with the palette of the seeded driver. -/
theorem simulateTo_fresh {st st1 : Colorful} {x y cp : Int} (hf : Fresh st)
    (hseed : st.seedIdx x y cp = .ok st1) (N : Nat) (hN1 : 1 ≤ N) (hN2 : N ≤ gridSize) :
    ∃ st2, st1.simulateTo (N : Int) = .ok st2 ∧ DrvInv st2 N ∧ st2.colors = st1.colors := by
  obtain ⟨inv1, hcp⟩ := seedIdx_fresh hf hseed
  obtain ⟨st2, h2, inv2, hcol, _⟩ := simulateLoop_ok (N - 1) 1 st1 inv1 (le_refl 1) (by omega)
  refine ⟨st2, ?_, by rw [show N = 1 + (N - 1) by omega]; exact inv2, hcol⟩
  unfold Colorful.simulateTo
  rw [hcp]
  simp only [Nat.succ_ne_zero, if_false, Nat.cast_one]
  rw [show ((N : Int) - 1).toNat = N - 1 by omega]
  exact h2

end RustColors


/-! ## Reachable trees and the fresh driver -/

namespace RustColors

theorem reachable_geo {colors : Nat → ColorPoint} (hpal : ∀ i, InRange (colors i)) {t : Octree}
    (h : Reachable colors t) : Geo t 0 0 0 0 := by
  induction h with
  | root => exact geo_root
  | add t p hr ih => exact add_geo (reachable_wfRoot hr) ih p (hpal _)
  | remove t t1 p hr hrm ih =>
    obtain ⟨t2, h2, _, hg, _⟩ := remove_bucketAt (reachable_wfRoot hr) p (remove_ok_keyAt hrm)
    rw [hrm] at h2
    cases h2
    exact hg ih

theorem reachable_foldl (colors : Nat → ColorPoint) :
    ∀ (ps : List Point) (t : Octree), Reachable colors t →
      Reachable colors (ps.foldl (Octree.add colors) t) := by
  intro ps
  induction ps with
  | nil => intro t h; exact h
  | cons p rest ih => intro t h; exact ih _ (Reachable.add t p h)

theorem mem_allPoints_of_bucketAt {colors : Nat → ColorPoint} {t : Octree}
    (hwf : WFRoot colors t) {p : Point} (hp : p ∈ t.bucketAt p.space.hash) :
    p ∈ t.allPoints := by
  cases t with
  | null => cases hp
  | node n ch =>
    have := hwf.2
    simp only [WF] at this
    obtain ⟨b, hb, hpb⟩ := (this.2.2.1.holds_iff p).2 hp
    simp only [Octree.allPoints, List.mem_flatten]
    exact ⟨b, hb, hpb⟩

theorem buckets_ne_nil_of_allPoints {t : Octree} (h : t.allPoints ≠ []) : t.buckets ≠ [] := by
  cases t with
  | null => exact absurd rfl h
  | node n ch =>
    simp only [Octree.allPoints, Octree.buckets] at h ⊢
    intro e
    rw [e] at h
    exact h rfl

theorem inRange_gridColors (i : Nat) : InRange (gridColors i) := by
  unfold gridColors InRange
  split
  · simp only
    omega
  · simp

theorem fresh_new : Fresh Colorful.new where
  root := rfl
  written := fun _ => rfl
  currentPixel := rfl
  puts := rfl
  space := rfl
  pal := inRange_gridColors

end RustColors


/-! ## The arrays built by the constructor -/

namespace RustColors

/-- A loop over `0..n-1` whose iteration `a` overwrites exactly the cells `o` with `Q a o`, each
cell being claimed by at most one iteration `inv o`: the final array. -/
theorem foldl_range_cells {V : Type} (step : Nat → (Nat → V) → (Nat → V))
    (Q : Nat → Nat → Prop) [∀ a o, Decidable (Q a o)] (val : Nat → V) (inv : Nat → Nat)
    (bound : Nat)
    (hstep : ∀ a, a < bound → ∀ f o, step a f o = if Q a o then val o else f o)
    (hQ : ∀ a, a < bound → ∀ o, Q a o → a = inv o) :
    ∀ n, n ≤ bound → ∀ (init : Nat → V) (o : Nat),
      ((List.range n).foldl (fun f a => step a f) init) o =
        if inv o < n ∧ Q (inv o) o then val o else init o := by
  intro n
  induction n with
  | zero => intro _ init o; simp
  | succ n ih =>
    intro hn init o
    rw [List.range_succ, List.foldl_append]
    simp only [List.foldl_cons, List.foldl_nil]
    rw [hstep n (by omega), ih (by omega)]
    by_cases hq : Q n o
    · have := hQ n (by omega) o hq
      rw [if_pos hq, if_pos ⟨by omega, this ▸ hq⟩]
    · rw [if_neg hq]
      by_cases h2 : inv o < n ∧ Q (inv o) o
      · rw [if_pos h2, if_pos ⟨by omega, h2.2⟩]
      · rw [if_neg h2, if_neg]
        rintro ⟨h3, h4⟩
        by_cases h5 : inv o = n
        · exact hq (h5 ▸ h4)
        · exact h2 ⟨by omega, h4⟩

theorem fillSpaceSpace_eq : fillSpaceSpace = gridSpace := by
  funext o
  have inner : ∀ x, x < 4096 → ∀ (f : Nat → SpacePoint) (o : Nat),
      ((List.range 4096).foldl (fun space y =>
        fun o => if o = spaceOffset x y then ⟨x, y, spaceOffset x y⟩ else space o) f) o =
      if o / 4096 < 4096 ∧ o = spaceOffset x (o / 4096) then ⟨o % 4096, o / 4096, o⟩
        else f o := by
    intro x hx f o
    rw [foldl_range_cells
      (fun y (space : Nat → SpacePoint) =>
        fun o => if o = spaceOffset x y then ⟨x, y, spaceOffset x y⟩ else space o)
      (fun y o => o = spaceOffset x y) (fun o => ⟨o % 4096, o / 4096, o⟩) (fun o => o / 4096)
      4096 ?_ ?_ 4096 (le_refl _) f o]
    · intro y hy f o
      simp only
      split
      · rename_i h
        rw [h, spaceOffset_eq hx hy]
        congr 1 <;> omega
      · rfl
    · intro y hy o h
      dsimp only
      rw [h, spaceOffset_eq hx hy]
      omega
  unfold fillSpaceSpace
  rw [foldl_range_cells
    (fun x (space : Nat → SpacePoint) => (List.range 4096).foldl (fun space y =>
        fun o => if o = spaceOffset x y then ⟨x, y, spaceOffset x y⟩ else space o) space)
    (fun x o => o / 4096 < 4096 ∧ o = spaceOffset x (o / 4096))
    (fun o => ⟨o % 4096, o / 4096, o⟩) (fun o => o % 4096) 4096 ?_ ?_ 4096 (le_refl _)]
  · unfold gridSpace
    have hm : o % 4096 < 4096 := Nat.mod_lt _ (by decide)
    by_cases ho : o < 4096 * 4096
    · have hd : o / 4096 < 4096 := by omega
      rw [if_pos ho, if_pos]
      exact ⟨hm, hd, by rw [spaceOffset_eq hm hd]; omega⟩
    · rw [if_neg ho, if_neg]
      rintro ⟨_, hd, _⟩
      omega
  · intro x hx f o
    exact inner x hx f o
  · rintro x hx o ⟨hd, h⟩
    dsimp only
    rw [spaceOffset_eq hx hd] at h
    omega

theorem colorIndex_eq {r g b : Nat} (_hr : r < 256) (hg : g < 256) (hb : b < 256) :
    ((r <<< 16) ||| (g <<< 8) ||| b) = r * 65536 + g * 256 + b := by
  rw [Nat.shiftLeft_eq, Nat.shiftLeft_eq]
  have h1 : r * 2 ^ 16 ||| g * 2 ^ 8 = 2 ^ 8 * (r * 256 + g) := by
    have : r * 2 ^ 16 = 2 ^ 8 * (r * 256) := by omega
    rw [this, show g * 2 ^ 8 = 2 ^ 8 * g by omega]
    have h := Nat.mul_add_lt_is_or (show 2 ^ 8 * g < 2 ^ 16 by omega) (r)
    rw [show 2 ^ 8 * (r * 256) = 2 ^ 16 * r by omega, ← h]
    omega
  rw [h1, ← Nat.mul_add_lt_is_or (by omega) (r * 256 + g)]
  omega

theorem fillColorSpace_eq : fillColorSpace = gridColors := by
  funext i
  have inner : ∀ r, r < 256 → ∀ g, g < 256 → ∀ (f : Nat → ColorPoint) (i : Nat),
      ((List.range 256).foldl (fun colors b =>
        fun i => if i = ((r <<< 16) ||| (g <<< 8) ||| b)
          then (⟨(r : Int), (g : Int), (b : Int)⟩ : ColorPoint) else colors i) f) i =
      if i % 256 < 256 ∧ i = ((r <<< 16) ||| (g <<< 8) ||| (i % 256))
        then ⟨((i / 65536 : Nat) : Int), ((i / 256 % 256 : Nat) : Int), ((i % 256 : Nat) : Int)⟩
        else f i := by
    intro r hr g hg f i
    rw [foldl_range_cells
      (fun b (colors : Nat → ColorPoint) =>
        fun i => if i = ((r <<< 16) ||| (g <<< 8) ||| b)
          then (⟨(r : Int), (g : Int), (b : Int)⟩ : ColorPoint) else colors i)
      (fun b i => i = ((r <<< 16) ||| (g <<< 8) ||| b))
      (fun i => ⟨((i / 65536 : Nat) : Int), ((i / 256 % 256 : Nat) : Int),
        ((i % 256 : Nat) : Int)⟩) (fun i => i % 256) 256 ?_ ?_ 256 (le_refl _) f i]
    · intro b hb f i
      simp only
      split
      · rename_i h
        rw [h, colorIndex_eq hr hg hb]
        congr 1 <;> congr 1 <;> omega
      · rfl
    · intro b hb i h
      dsimp only
      rw [h, colorIndex_eq hr hg hb]
      omega
  have middle : ∀ r, r < 256 → ∀ (f : Nat → ColorPoint) (i : Nat),
      ((List.range 256).foldl (fun colors g =>
        (List.range 256).foldl (fun colors b =>
          fun i => if i = ((r <<< 16) ||| (g <<< 8) ||| b)
            then (⟨(r : Int), (g : Int), (b : Int)⟩ : ColorPoint) else colors i) colors) f) i =
      if i / 256 % 256 < 256 ∧ (i % 256 < 256 ∧
          i = ((r <<< 16) ||| ((i / 256 % 256) <<< 8) ||| (i % 256)))
        then ⟨((i / 65536 : Nat) : Int), ((i / 256 % 256 : Nat) : Int), ((i % 256 : Nat) : Int)⟩
        else f i := by
    intro r hr f i
    rw [foldl_range_cells
      (fun g (colors : Nat → ColorPoint) =>
        (List.range 256).foldl (fun colors b =>
          fun i => if i = ((r <<< 16) ||| (g <<< 8) ||| b)
            then (⟨(r : Int), (g : Int), (b : Int)⟩ : ColorPoint) else colors i) colors)
      (fun g i => i % 256 < 256 ∧ i = ((r <<< 16) ||| (g <<< 8) ||| (i % 256)))
      (fun i => ⟨((i / 65536 : Nat) : Int), ((i / 256 % 256 : Nat) : Int),
        ((i % 256 : Nat) : Int)⟩) (fun i => i / 256 % 256) 256 ?_ ?_ 256 (le_refl _) f i]
    · intro g hg f i
      exact inner r hr g hg f i
    · rintro g hg i ⟨hb, h⟩
      dsimp only
      rw [colorIndex_eq hr hg hb] at h
      omega
  unfold fillColorSpace
  rw [foldl_range_cells
    (fun r (colors : Nat → ColorPoint) =>
      (List.range 256).foldl (fun colors g =>
        (List.range 256).foldl (fun colors b =>
          fun i => if i = ((r <<< 16) ||| (g <<< 8) ||| b)
            then (⟨(r : Int), (g : Int), (b : Int)⟩ : ColorPoint) else colors i) colors) colors)
    (fun r i => i / 256 % 256 < 256 ∧ (i % 256 < 256 ∧
          i = ((r <<< 16) ||| ((i / 256 % 256) <<< 8) ||| (i % 256))))
    (fun i => ⟨((i / 65536 : Nat) : Int), ((i / 256 % 256 : Nat) : Int),
        ((i % 256 : Nat) : Int)⟩) (fun i => i / 65536) 256 ?_ ?_ 256 (le_refl _)]
  · unfold gridColors
    have hb : i % 256 < 256 := Nat.mod_lt _ (by decide)
    have hg : i / 256 % 256 < 256 := Nat.mod_lt _ (by decide)
    by_cases hi : i < 4096 * 4096
    · have hr : i / 65536 < 256 := by omega
      rw [if_pos hi, if_pos]
      exact ⟨hr, hg, hb, by rw [colorIndex_eq hr hg hb]; omega⟩
    · rw [if_neg hi, if_neg]
      rintro ⟨hr, _⟩
      omega
  · intro r hr f i
    exact middle r hr f i
  · rintro r hr i ⟨hg, hb, h⟩
    dsimp only
    rw [colorIndex_eq hr hg hb] at h
    omega

/-- The constructor builds the state `Colorful.new`. -/
theorem construct_eq_new : Colorful.construct = Colorful.new := by
  unfold Colorful.construct Colorful.new
  rw [fillSpaceSpace_eq, fillColorSpace_eq]

end RustColors


/-! ## The scan of `nearestInUs`, index by index -/

namespace RustColors

/-- The loop of `nearestInUs` on non-empty buckets: either no first member is strictly below the
initial distance and nothing changes, or the loop ends on the first bucket that attains the least
distance among the first members. -/
theorem nearestLoop_first (colors : Nat → ColorPoint) (c : ColorPoint) :
    ∀ (l : List Bucket) (st : Int × Bucket), (∀ b ∈ l, b ≠ []) →
      ∃ st1, nearestLoop colors c l st = .ok st1 ∧
        (((∀ b ∈ l, ∀ q, b.head? = some q → st.1 ≤ c.distanceTo (colors q.color)) ∧ st1 = st) ∨
         (∃ i p, i < l.length ∧ st1.2 = l.getD i [] ∧ st1.2.head? = some p ∧
            st1.1 = c.distanceTo (colors p.color) ∧ st1.1 < st.1 ∧
            (∀ j, j < l.length → ∀ q, (l.getD j []).head? = some q →
              st1.1 ≤ c.distanceTo (colors q.color)) ∧
            (∀ j, j < i → ∀ q, (l.getD j []).head? = some q →
              st1.1 < c.distanceTo (colors q.color)))) := by
  intro l
  induction l with
  | nil =>
    intro st _
    exact ⟨st, rfl, Or.inl ⟨fun _ hb => absurd hb (List.not_mem_nil _), rfl⟩⟩
  | cons b rest ih =>
    intro st hne
    have hrest : ∀ b ∈ rest, b ≠ [] := fun b1 hb1 => hne b1 (List.mem_cons_of_mem _ hb1)
    cases b with
    | nil => exact absurd rfl (hne [] (List.mem_cons_self _ _))
    | cons p ps =>
      simp only [nearestLoop]
      by_cases hlt : c.distanceTo (colors p.color) < st.1
      · rw [if_pos hlt]
        obtain ⟨st1, h1, h2⟩ := ih (c.distanceTo (colors p.color), p :: ps) hrest
        refine ⟨st1, h1, Or.inr ?_⟩
        rcases h2 with ⟨hall, heq⟩ | ⟨i, p1, hi, hb, hp1, hd, hlt1, hmin, hfirst⟩
        · subst heq
          refine ⟨0, p, by simp, rfl, rfl, rfl, hlt, ?_, fun j hj => absurd hj (Nat.not_lt_zero _)⟩
          intro j hj q hq
          cases j with
          | zero =>
            simp only [List.getD_cons_zero, List.head?_cons, Option.some.injEq] at hq
            subst hq
            exact le_refl _
          | succ j =>
            simp only [List.getD_cons_succ] at hq
            simp only [List.length_cons] at hj
            exact hall _ (getD_mem_of_lt (by omega)) q hq
        · simp only at hlt1
          refine ⟨i + 1, p1, by simp; omega, by simpa using hb, hp1, hd, by omega, ?_, ?_⟩
          · intro j hj q hq
            cases j with
            | zero =>
              simp only [List.getD_cons_zero, List.head?_cons, Option.some.injEq] at hq
              subst hq
              omega
            | succ j =>
              simp only [List.getD_cons_succ] at hq
              simp only [List.length_cons] at hj
              exact hmin j (by omega) q hq
          · intro j hj q hq
            cases j with
            | zero =>
              simp only [List.getD_cons_zero, List.head?_cons, Option.some.injEq] at hq
              subst hq
              exact hlt1
            | succ j =>
              simp only [List.getD_cons_succ] at hq
              exact hfirst j (by omega) q hq
      · rw [if_neg hlt]
        obtain ⟨st1, h1, h2⟩ := ih st hrest
        refine ⟨st1, h1, ?_⟩
        rcases h2 with ⟨hall, heq⟩ | ⟨i, p1, hi, hb, hp1, hd, hlt1, hmin, hfirst⟩
        · left
          refine ⟨?_, heq⟩
          intro b hb q hq
          rcases List.mem_cons.1 hb with rfl | hb
          · simp only [List.head?_cons, Option.some.injEq] at hq
            subst hq
            omega
          · exact hall b hb q hq
        · right
          refine ⟨i + 1, p1, by simp; omega, by simpa using hb, hp1, hd, hlt1, ?_, ?_⟩
          · intro j hj q hq
            cases j with
            | zero =>
              simp only [List.getD_cons_zero, List.head?_cons, Option.some.injEq] at hq
              subst hq
              omega
            | succ j =>
              simp only [List.getD_cons_succ] at hq
              simp only [List.length_cons] at hj
              exact hmin j (by omega) q hq
          · intro j hj q hq
            cases j with
            | zero =>
              simp only [List.getD_cons_zero, List.head?_cons, Option.some.injEq] at hq
              subst hq
              omega
            | succ j =>
              simp only [List.getD_cons_succ] at hq
              exact hfirst j (by omega) q hq

/-- The bucket `nearestInUs` picks is the first one whose first member is at the least distance
among the first members. -/
theorem nearestInUs_first (colors : Nat → ColorPoint) (c : ColorPoint) (hc : InRange c)
    (points : List Bucket) (hne : points ≠ []) (hb : ∀ b ∈ points, b ≠ [])
    (hcol : ∀ b ∈ points, ∀ q, b.head? = some q → InRange (colors q.color)) :
    ∃ i p, i < points.length ∧ nearestInUs colors points c = .ok p ∧
      (points.getD i []).head? = some p ∧
      (∀ j, j < points.length → ∀ q, (points.getD j []).head? = some q →
        c.distanceTo (colors p.color) ≤ c.distanceTo (colors q.color)) ∧
      (∀ j, j < i → ∀ q, (points.getD j []).head? = some q →
        c.distanceTo (colors p.color) < c.distanceTo (colors q.color)) := by
  cases hpts : points with
  | nil => exact absurd hpts hne
  | cons b0 rest =>
    rw [hpts] at hb hcol
    obtain ⟨st1, h1, h2⟩ := nearestLoop_first colors c (b0 :: rest) (90000000, b0) hb
    simp only [nearestInUs, h1]
    rcases h2 with ⟨hall, _⟩ | ⟨i, p, hi, hbi, hp, hd, _, hmin, hfirst⟩
    · exfalso
      cases hb0 : b0 with
      | nil => exact hb b0 (List.mem_cons_self _ _) hb0
      | cons p ps =>
        have := hall b0 (List.mem_cons_self _ _) p (by rw [hb0]; rfl)
        have hlt := distanceTo_lt_sentinel hc
          (hcol b0 (List.mem_cons_self _ _) p (by rw [hb0]; rfl))
        simp only at this
        omega
    · obtain ⟨d1, bb⟩ := st1
      simp only at hbi hp hd hmin hfirst
      cases bb with
      | nil => simp at hp
      | cons p1 ps =>
        simp only [List.head?_cons, Option.some.injEq] at hp
        subst hp
        refine ⟨i, p1, hi, rfl, by rw [← hbi]; rfl, ?_, ?_⟩
        · intro j hj q hq; rw [← hd]; exact hmin j hj q hq
        · intro j hj q hq; rw [← hd]; exact hfirst j hj q hq

end RustColors


/-! ## Grid cells and their neighbours, coordinate by coordinate -/

namespace RustColors

theorem gridSpace_cell {x y : Nat} (hx : x < 4096) (hy : y < 4096) :
    gridSpace (spaceOffset x y) = ⟨x, y, y * 4096 + x⟩ := by
  rw [spaceOffset_eq hx hy, gridSpace_lt (by unfold gridSize; omega)]
  congr 1 <;> omega

/-- The cells `getNeighbors` pushes for the cell `(x,y)` of the grid: left, right, up, down, each
only when it is inside the grid. -/
theorem getNeighbors_cells {x y : Nat} (hx : x < 4096) (hy : y < 4096) :
    getNeighbors gridSpace (gridSpace (spaceOffset x y)) =
      (if 0 < x then [(⟨x - 1, y, y * 4096 + (x - 1)⟩ : SpacePoint)] else []) ++
      (if x + 1 < 4096 then [⟨x + 1, y, y * 4096 + (x + 1)⟩] else []) ++
      (if 0 < y then [⟨x, y - 1, (y - 1) * 4096 + x⟩] else []) ++
      (if y + 1 < 4096 then [⟨x, y + 1, (y + 1) * 4096 + x⟩] else []) := by
  rw [gridSpace_cell hx hy]
  unfold getNeighbors
  simp only
  congr 1
  · congr 1
    · congr 1
      · by_cases h : 0 < x
        · rw [if_pos h, if_pos h, gridSpace_cell (by omega) hy]
        · rw [if_neg h, if_neg h]
      · by_cases h : x < 4095
        · rw [if_pos h, if_pos (by omega), gridSpace_cell (by omega) hy]
        · rw [if_neg h, if_neg (by omega)]
    · by_cases h : 0 < y
      · rw [if_pos h, if_pos h, gridSpace_cell hx (by omega)]
      · rw [if_neg h, if_neg h]
  · by_cases h : y < 4095
    · rw [if_pos h, if_pos (by omega), gridSpace_cell hx (by omega)]
    · rw [if_neg h, if_neg (by omega)]

/-- The list of `getNeighbors_cells` has no duplicates, does not hold the cell itself, holds grid
cells only, and has two entries at a corner, three on an edge, four elsewhere. -/
theorem cells_facts {x y : Nat} (hx : x < 4096) (hy : y < 4096) (ns : List SpacePoint)
    (hns : ns =
      (if 0 < x then [(⟨x - 1, y, y * 4096 + (x - 1)⟩ : SpacePoint)] else []) ++
      (if x + 1 < 4096 then [⟨x + 1, y, y * 4096 + (x + 1)⟩] else []) ++
      (if 0 < y then [⟨x, y - 1, (y - 1) * 4096 + x⟩] else []) ++
      (if y + 1 < 4096 then [⟨x, y + 1, (y + 1) * 4096 + x⟩] else [])) :
    ns.Nodup ∧ (ns.map (fun sp => sp.hash)).Nodup ∧ (⟨x, y, y * 4096 + x⟩ : SpacePoint) ∉ ns ∧
    (∀ q ∈ ns, q.x < 4096 ∧ q.y < 4096 ∧ q.hash = q.y * 4096 + q.x) ∧
    ns.length = (if x = 0 ∨ x = 4095 then 1 else 2) + (if y = 0 ∨ y = 4095 then 1 else 2) := by
  subst hns
  refine ⟨?_, ?_, ?_, ?_, ?_⟩ <;>
    by_cases h1 : 0 < x <;> by_cases h2 : x + 1 < 4096 <;> by_cases h3 : 0 < y <;>
    by_cases h4 : y + 1 < 4096 <;>
    simp only [h1, h2, h3, h4, if_true, if_false, List.nil_append, List.append_nil,
      List.cons_append, List.nodup_cons, List.mem_cons, List.mem_singleton, List.not_mem_nil,
      List.nodup_nil, List.map_cons, List.map_nil, SpacePoint.mk.injEq, List.length_cons,
      List.length_nil, or_false, and_true, not_or, forall_eq_or_imp, forall_eq,
      not_false_eq_true, not_and, true_and, IsEmpty.forall_iff, implies_true] <;>
    first
      | omega
      | (split_ifs <;> omega)

theorem spaceOffset_inj {x y x1 y1 : Nat} (hx : x < 4096) (hy : y < 4096) (hx1 : x1 < 4096)
    (hy1 : y1 < 4096) (h : spaceOffset x y = spaceOffset x1 y1) : x = x1 ∧ y = y1 := by
  rw [spaceOffset_eq hx hy, spaceOffset_eq hx1 hy1] at h
  omega

/-! ## Bounding boxes: `intersects` compares closed intervals -/

/-- The test `intersects` in terms of the ends of the intervals: on every axis each lower end
is not above the upper end of the other box. -/
theorem intersects_iff (a b : BB) :
    a.intersects b = true ↔
      (b.lr ≤ a.ur ∧ a.lr ≤ b.ur) ∧ (b.lg ≤ a.ug ∧ a.lg ≤ b.ug) ∧ (b.lb ≤ a.ub ∧ a.lb ≤ b.ub) := by
  unfold BB.intersects
  simp only [Bool.and_eq_true, Bool.not_eq_true', Bool.or_eq_false_iff, decide_eq_false_iff_not,
    not_lt, and_assoc]

/-- For boxes with lower below upper, `intersects` says that on every axis the closed intervals
share a point. -/
theorem intersects_iff_closed (a b : BB) (ha : a.Proper) (hb : b.Proper) :
    a.intersects b = true ↔
      max a.lr b.lr ≤ min a.ur b.ur ∧ max a.lg b.lg ≤ min a.ug b.ug ∧
      max a.lb b.lb ≤ min a.ub b.ub := by
  rw [intersects_iff]
  obtain ⟨h1, h2, h3⟩ := ha
  obtain ⟨h4, h5, h6⟩ := hb
  simp only [max_le_iff, le_min_iff]
  omega

/-! ## `shuffleColors` applies a permutation of the indices -/

theorem swapColors_eq (colors : Nat → ColorPoint) (i j k : Nat) :
    swapColors colors i j k = colors (Equiv.swap i j k) := by
  unfold swapColors
  rw [Equiv.swap_apply_def]
  by_cases h1 : k = i
  · simp [h1]
  · by_cases h2 : k = j
    · subst h2
      simp [h1]
    · simp [h1, h2]

/-- A sequence of swaps of entries below `n` reads the old array through one permutation of the
indices, which moves no index from `n` on. -/
theorem foldl_swap_perm (n : Nat) (j : Nat → Nat) :
    ∀ (l : List Nat), (∀ i ∈ l, i < n ∧ j i < n) →
      ∃ σ : Equiv.Perm Nat, (∀ k, n ≤ k → σ k = k) ∧
        ∀ (colors : Nat → ColorPoint) (k : Nat),
          l.foldl (fun cs i => swapColors cs i (j i)) colors k = colors (σ k) := by
  intro l
  induction l with
  | nil => intro _; exact ⟨Equiv.refl _, fun _ _ => rfl, fun _ _ => rfl⟩
  | cons i rest ih =>
    intro h
    obtain ⟨σ, hfix, hσ⟩ := ih (fun i1 hi1 => h i1 (List.mem_cons_of_mem _ hi1))
    obtain ⟨hi, hj⟩ := h i (List.mem_cons_self _ _)
    refine ⟨σ.trans (Equiv.swap i (j i)), ?_, ?_⟩
    · intro k hk
      rw [Equiv.trans_apply, hfix k hk]
      exact Equiv.swap_apply_of_ne_of_ne (by omega) (by omega)
    · intro colors k
      rw [List.foldl_cons, hσ, swapColors_eq, Equiv.trans_apply]

theorem shufflePartner_bounds (rand : Nat → Nat) {i : Nat} (hi : i < 4096 * 4096 - 1) :
    i ≤ shufflePartner rand i ∧ shufflePartner rand i < 4096 * 4096 := by
  unfold shufflePartner
  have := Nat.mod_lt (rand i) (show 0 < 4096 * 4096 - i by omega)
  omega

/-- The permutation of the indices behind `shuffleColors`. -/
theorem shuffleColors_perm (rand : Nat → Nat) :
    ∃ σ : Equiv.Perm Nat, (∀ k, 4096 * 4096 ≤ k → σ k = k) ∧
      ∀ (colors : Nat → ColorPoint) (k : Nat), shuffleColors colors rand k = colors (σ k) := by
  obtain ⟨σ, h1, h2⟩ := foldl_swap_perm (4096 * 4096) (shufflePartner rand)
    (List.range (4096 * 4096 - 1)) (by
      intro i hi
      rw [List.mem_range] at hi
      exact ⟨by omega, (shufflePartner_bounds rand hi).2⟩)
  exact ⟨σ, h1, fun colors k => h2 colors k⟩

/-- A permutation of the indices that moves no index from `n` on rearranges the first `n`
entries of an array. -/
theorem map_range_perm {α : Type} (n : Nat) (σ : Equiv.Perm Nat) (hfix : ∀ k, n ≤ k → σ k = k)
    (f : Nat → α) :
    List.Perm ((List.range n).map (fun k => f (σ k))) ((List.range n).map f) := by
  have hlt : ∀ k, k < n → σ k < n := by
    intro k hk
    by_contra hge
    have := hfix (σ k) (by omega)
    have := σ.injective this
    omega
  have hp : List.Perm ((List.range n).map σ) (List.range n) := by
    rw [List.perm_ext_iff_of_nodup ((List.nodup_range n).map σ.injective) (List.nodup_range n)]
    intro a
    simp only [List.mem_map, List.mem_range]
    constructor
    · rintro ⟨k, hk, rfl⟩; exact hlt k hk
    · intro ha
      refine ⟨σ.symm a, ?_, by simp⟩
      by_contra hge
      have h1 := hfix (σ.symm a) (by omega)
      simp at h1
      omega
  have := hp.map f
  simpa [List.map_map, Function.comp] using this

end RustColors


/-! ## `remove` and `simulateTo` with the state a `throw` leaves behind -/

namespace RustColors

theorem removeLoopS_link (colors : Nat → ColorPoint) (depth : Nat)
    (rm : Octree → Except Err Octree) (rmS : Octree → Octree × Option Err)
    (hrm : ∀ c, rm c = toExcept (rmS c)) :
    ∀ (l : List Point) (st : Nat × (Nat → Octree)),
      removeLoop colors depth rm l st = toExcept (removeLoopS colors depth rmS l st) := by
  intro l
  induction l with
  | nil => intro st; rfl
  | cons p rest ih =>
    intro st
    simp only [removeLoop, removeStep, removeLoopS]
    by_cases hm : st.1 &&& 1 <<< addr depth (colors p.color) = 0
    · simp only [hm, if_true, hrm]
      rcases hr : rmS (st.2 (addr depth (colors p.color))) with ⟨c, _ | e⟩
      · simp only [toExcept]
        exact ih _
      · simp only [toExcept]
    · simp only [hm, if_false]
      exact ih _

/-- The value `removeFuel` returns is the one `removeFuelS` returns, without the tree when an
exception was thrown. -/
theorem removeFuelS_link (colors : Nat → ColorPoint) (p : Point) :
    ∀ (fuel : Nat) (t : Octree), removeFuel colors fuel t p = toExcept (removeFuelS colors fuel t p) := by
  intro fuel
  induction fuel with
  | zero => intro t; rfl
  | succ fuel ih =>
    intro t
    cases t with
    | null => rfl
    | node n ch =>
      simp only [removeFuel, removeFuelS]
      cases hk : n.pointHash p.space.hash with
      | none => rfl
      | some idx =>
        simp only
        cases hl : n.points.getLast? with
        | none => rfl
        | some lastBucket =>
          simp only
          cases hg : n.points.get? idx with
          | none => rfl
          | some thisBucket =>
            simp only
            by_cases hd : n.depth < treeTune
            · simp only [hd, if_true]
              rw [removeLoopS_link colors n.depth _ (fun c => removeFuelS colors fuel c p)
                (fun c => ih c)]
              rcases hloop : removeLoopS colors n.depth (fun c => removeFuelS colors fuel c p)
                thisBucket (0, ch) with ⟨st, _ | e⟩
              · simp only [toExcept]
                cases removeLocal n p.space.hash idx lastBucket thisBucket <;> rfl
              · simp only [toExcept]
            · simp only [hd, if_false]
              cases removeLocal n p.space.hash idx lastBucket thisBucket <;> rfl

theorem removeS_link (colors : Nat → ColorPoint) (t : Octree) (p : Point) :
    t.remove colors p = toExcept (t.removeS colors p) :=
  removeFuelS_link colors p _ t

/-- A `remove` of a position that is no key of the node throws and leaves the tree as it was. -/
theorem removeS_absent (colors : Nat → ColorPoint) {t : Octree} (hn : t.isNull = false)
    (p : Point) (hk : t.keyAt p.space.hash = none) :
    t.removeS colors p = (t, some .removeNonExisting) := by
  cases t with
  | null => simp [Octree.isNull] at hn
  | node n ch =>
    simp only [Octree.keyAt] at hk
    simp only [Octree.removeS, removeFuelS, hk]

theorem toExcept_ok {α : Type} {r : α × Option Err} {a : α} (h : toExcept r = .ok a) :
    r = (a, none) := by
  rcases r with ⟨b, _ | e⟩
  · simp only [toExcept, Except.ok.injEq] at h
    rw [h]
  · simp [toExcept] at h

theorem simulateStepS_link (st : Colorful) (c : Nat) :
    st.simulateStep c = toExcept (st.simulateStepS c) := by
  unfold Colorful.simulateStep Colorful.simulateStepS
  simp only
  cases hf : st.root.findNearest st.colors (st.colors c) with
  | error e => rfl
  | ok next =>
    simp only [removeS_link]
    rcases hr : (addNeighbors st.colors (markWritten st.written next.space) c st.root
      (getNeighbors st.space next.space)).removeS st.colors next with ⟨r, _ | e⟩ <;> rfl

theorem simulateLoopS_link : ∀ (count c : Nat) (st : Colorful),
    Colorful.simulateLoop count c st = toExcept (Colorful.simulateLoopS count c st) := by
  intro count
  induction count with
  | zero => intro c st; rfl
  | succ count ih =>
    intro c st
    simp only [Colorful.simulateLoop, Colorful.simulateLoopS, simulateStepS_link]
    rcases st.simulateStepS c with ⟨st1, _ | e⟩
    · simp only [toExcept]; exact ih _ _
    · rfl

/-- The value `simulateTo` returns is the one `simulateToS` returns, without the driver when an
exception was thrown. -/
theorem simulateToS_link (st : Colorful) (idxTo : Int) :
    st.simulateTo idxTo = toExcept (st.simulateToS idxTo) := by
  unfold Colorful.simulateTo Colorful.simulateToS
  by_cases h : st.currentPixel = 0
  · simp only [h, if_true]; rfl
  · simp only [h, if_false]; exact simulateLoopS_link _ _ _

end RustColors


/-! ## The index after the first seed -/

namespace RustColors

/-- When no neighbour is written, the loop over the neighbours adds a point for each of them, in
order. -/
theorem addNeighbors_unwritten (colors : Nat → ColorPoint) (w : Nat → Bool) (ci : Nat) :
    ∀ (nbs : List SpacePoint) (root : Octree), (∀ sp ∈ nbs, w sp.hash = false) →
      addNeighbors colors w ci root nbs =
        (nbs.map (fun sp => (⟨sp, ci⟩ : Point))).foldl (Octree.add colors) root := by
  intro nbs
  induction nbs with
  | nil => intro root _; rfl
  | cons sp rest ih =>
    intro root h
    simp only [addNeighbors, h sp (List.mem_cons_self _ _), Bool.not_false, if_true,
      List.map_cons, List.foldl_cons]
    exact ih _ (fun sp1 h1 => h sp1 (List.mem_cons_of_mem _ h1))

theorem allPoints_eq_flatten (t : Octree) : t.allPoints = t.buckets.flatten := by
  cases t <;> rfl

/-- On an empty index with no cell written, the loop over the neighbours of the cell `(x,y)`
leaves a well-formed tree whose root holds one bucket of one point for each neighbour, in the
order of `getNeighbors`. -/
theorem addNeighbors_root (colors : Nat → ColorPoint) (w : Nat → Bool) (hw : ∀ h, w h = false)
    (ci : Nat) {x y : Nat} (hx : x < 4096) (hy : y < 4096) :
    WFRoot colors (addNeighbors colors w ci Octree.root
      (getNeighbors gridSpace (gridSpace (spaceOffset x y)))) ∧
    (addNeighbors colors w ci Octree.root
      (getNeighbors gridSpace (gridSpace (spaceOffset x y)))).allPoints =
      (getNeighbors gridSpace (gridSpace (spaceOffset x y))).map (fun sp => (⟨sp, ci⟩ : Point)) := by
  rw [addNeighbors_unwritten colors w ci _ _ (fun sp _ => hw sp.hash)]
  have hnd := (cells_facts hx hy _ (getNeighbors_cells hx hy)).2.1
  obtain ⟨hwf, hb⟩ := foldl_add_buckets colors
    ((getNeighbors gridSpace (gridSpace (spaceOffset x y))).map (fun sp => (⟨sp, ci⟩ : Point)))
    Octree.root (wfRoot_root colors) (fun _ _ => rfl)
    (by simpa [List.map_map, Function.comp] using hnd)
  refine ⟨hwf, ?_⟩
  rw [allPoints_eq_flatten, hb]
  show ([] ++ _).flatten = _
  rw [List.nil_append]
  generalize (getNeighbors gridSpace (gridSpace (spaceOffset x y))).map
    (fun sp => (⟨sp, ci⟩ : Point)) = ps
  induction ps with
  | nil => rfl
  | cons p rest ih => simp only [List.map_cons, List.flatten_cons, ih, List.singleton_append]

/-- In a well-formed tree every point held by a node, at any depth, is among the points of the
root. -/
theorem holds_descend_allPoints {colors : Nat → ColorPoint} {t : Octree} (hwf : WFRoot colors t)
    (path : List Nat) (n : NodeData) (ch : Nat → Octree) (q : Point)
    (hd : t.descend path = .node n ch) (hq : n.Holds q) : q ∈ t.allPoints :=
  mem_allPoints_of_bucketAt hwf (holds_descend colors q path 0 t n ch hwf.2 hd hq).1

/-! ## A node at depth `treeTune` with more than `quadTune` buckets, and a channel on the
midpoint -/

/-- In `NNSearchDown` a node at depth `treeTune` holding more than `quadTune` buckets takes
neither branch: the search comes back as it was. -/
theorem NNSearchDown_thick (colors : Nat → ColorPoint) (t : Octree) (s : Search)
    (hwf : WF colors treeTune t) (hq : quadTune < t.pointsSize) :
    NNSearchDown colors t s = .ok s := by
  cases t with
  | null => simp [Octree.pointsSize] at hq
  | node n ch =>
    simp only [WF] at hwf
    simp only [Octree.pointsSize] at hq
    unfold NNSearchDown
    have h1 : ¬ n.points.length = 0 := by omega
    have h2 : ¬ n.points.length ≤ quadTune := by omega
    have h3 : ¬ n.depth < treeTune := by omega
    by_cases hi : (!s.bounds.intersects n.bounds) = true
    · rw [if_pos hi]
    · rw [if_neg hi, if_neg h1, if_neg h2, if_neg h3]

/-- A colour whose red channel is exactly on the midpoint of the node gets a new child with the
whole red interval of the node. -/
theorem getOrCreateChild_mid (n : NodeData) (ch : Nat → Octree) (c : ColorPoint)
    (hnull : ch (addr n.depth c) = .null) (hmid : c.r = n.bounds.lr + n.radius)
    (hu : n.bounds.ur = n.bounds.lr + 2 * n.radius) :
    ∃ cn cch, getOrCreateChild n ch c (addr n.depth c) = .node cn cch ∧
      cn.bounds.lr = n.bounds.lr ∧ cn.bounds.ur = n.bounds.ur := by
  unfold getOrCreateChild
  simp only [hnull, setChild_same]
  refine ⟨_, _, rfl, ?_, ?_⟩
  · show (if c.r > n.bounds.lr + n.radius then n.bounds.lr + n.radius else n.bounds.lr) = _
    rw [if_neg (by omega)]
  · show (if c.r < n.bounds.ur - n.radius then n.bounds.ur - n.radius else n.bounds.ur) = _
    rw [if_neg (by omega)]

end RustColors


/-! ## The search box covers every closer colour -/

namespace RustColors

/-- A difference whose square is below `best` is at most `floor(sqrt(best))` in absolute
value. -/
theorem abs_le_sqrtInt (x best : Int) (h : x * x < best) :
    -sqrtInt best ≤ x ∧ x ≤ sqrtInt best := by
  have h1 : x.natAbs * x.natAbs ≤ best.toNat := by
    have e : ((x.natAbs * x.natAbs : Nat) : Int) = x * x := by
      rw [Nat.cast_mul, Int.natAbs_mul_self']
    omega
  have h2 : x.natAbs ≤ Nat.sqrt best.toNat := Nat.le_sqrt.2 h1
  unfold sqrtInt
  omega

theorem setAround_has_closer {s q : ColorPoint} {best : Int} (h : s.distanceTo q < best) :
    (BB.setAround s (sqrtInt best)).Has q := by
  unfold ColorPoint.distanceTo at h
  simp only at h
  have hr := mul_self_nonneg (s.r - q.r)
  have hg := mul_self_nonneg (s.g - q.g)
  have hb := mul_self_nonneg (s.b - q.b)
  obtain ⟨r1, r2⟩ := abs_le_sqrtInt (s.r - q.r) best (by omega)
  obtain ⟨g1, g2⟩ := abs_le_sqrtInt (s.g - q.g) best (by omega)
  obtain ⟨b1, b2⟩ := abs_le_sqrtInt (s.b - q.b) best (by omega)
  simp only [BB.setAround, BB.Has]
  omega

/-- A node whose box does not intersect the search box is left out by `NNSearchDown`. -/
theorem NNSearchDown_pruned (colors : Nat → ColorPoint) {t : Octree} (ht : t.isNull = false)
    (s : Search) (hi : s.bounds.intersects t.box = false) : NNSearchDown colors t s = .ok s := by
  cases t with
  | null => simp [Octree.isNull] at ht
  | node n ch =>
    simp only [Octree.box] at hi
    unfold NNSearchDown
    simp only [hi, Bool.not_false, if_true]

/-! ## `addr` bit by bit -/

set_option maxRecDepth 1000000 in
theorem chan_bit_shift : ∀ d, d < 5 → ∀ n, n < 256 →
    n / (128 >>> d) % 2 = (n >>> (7 - d)) &&& 1 ∧
    (n &&& (128 >>> d)) >>> (7 - d) = n / (128 >>> d) % 2 := by
  decide

theorem pack_bits_exact : ∀ a, a < 2 → ∀ b, b < 2 → ∀ c, c < 2 →
    ((a <<< 2) ||| (b <<< 1) ||| c) = 4 * a + 2 * b + c := by
  decide

theorem chan_spec (d : Nat) (hd : d ≤ 4) (x : Int) (h0 : 0 ≤ x) (h1 : x ≤ 255) :
    ((Int.land x ((128 >>> d : Nat) : Int)) >>> (7 - d)).toNat = x.toNat / (128 >>> d) % 2 := by
  obtain ⟨n, rfl⟩ := Int.eq_ofNat_of_zero_le h0
  have e1 : Int.land (n : Int) ((128 >>> d : Nat) : Int) = ((n &&& (128 >>> d) : Nat) : Int) :=
    rfl
  have e2 : ∀ (a k : Nat), ((a : Int) >>> k) = ((a >>> k : Nat) : Int) := fun a k => rfl
  rw [e1, e2, Int.toNat_ofNat, Int.toNat_ofNat]
  exact (chan_bit_shift d (by omega) n (by omega)).2

theorem addrSpec_eq_bits (d : Nat) (hd : d ≤ 4) (c : ColorPoint) (hc : InRange c) :
    addrSpec d c = 4 * (c.r.toNat / (128 >>> d) % 2) + 2 * (c.g.toNat / (128 >>> d) % 2) +
      c.b.toNat / (128 >>> d) % 2 := by
  obtain ⟨r0, r1, g0, g1, b0, b1⟩ := hc
  unfold addrSpec
  simp only
  rw [chan_spec d hd c.r r0 r1, chan_spec d hd c.g g0 g1, chan_spec d hd c.b b0 b1]
  exact pack_bits_exact _ (Nat.mod_lt _ (by decide)) _ (Nat.mod_lt _ (by decide)) _
    (Nat.mod_lt _ (by decide))

theorem chan_shift_and (d : Nat) (hd : d ≤ 4) (x : Int) (h0 : 0 ≤ x) (h1 : x ≤ 255) :
    x.toNat / (128 >>> d) % 2 = (x.toNat >>> (7 - d)) &&& 1 :=
  (chan_bit_shift d (by omega) x.toNat (by omega)).1

end RustColors


/-! ## Every candidate of a search is the first member of a bucket -/

namespace RustColors

theorem nearestLoop_from (colors : Nat → ColorPoint) (c : ColorPoint) :
    ∀ (l : List Bucket) (st st1 : Int × Bucket), nearestLoop colors c l st = .ok st1 →
      st1.2 = st.2 ∨ st1.2 ∈ l := by
  intro l
  induction l with
  | nil =>
    intro st st1 h
    simp only [nearestLoop, Except.ok.injEq] at h
    left; rw [h]
  | cons b rest ih =>
    intro st st1 h
    cases b with
    | nil => simp [nearestLoop] at h
    | cons p ps =>
      simp only [nearestLoop] at h
      split at h
      · rcases ih _ _ h with h1 | h1
        · right; rw [h1]; exact List.mem_cons_self _ _
        · right; exact List.mem_cons_of_mem _ h1
      · rcases ih _ _ h with h1 | h1
        · left; exact h1
        · right; exact List.mem_cons_of_mem _ h1

/-- The point `nearestInUs` returns is the first member of one of the buckets. -/
theorem nearestInUs_head {colors : Nat → ColorPoint} {points : List Bucket} {c : ColorPoint}
    {p : Point} (h : nearestInUs colors points c = .ok p) : ∃ b ∈ points, b.head? = some p := by
  cases points with
  | nil => simp [nearestInUs] at h
  | cons b0 rest =>
    simp only [nearestInUs] at h
    cases hl : nearestLoop colors c (b0 :: rest) (90000000, b0) with
    | error e => rw [hl] at h; cases h
    | ok st1 =>
      rw [hl] at h
      obtain ⟨d, bb⟩ := st1
      cases bb with
      | nil => cases h
      | cons q qs =>
        simp only [Except.ok.injEq] at h
        subst h
        have hm : (q :: qs) ∈ b0 :: rest := by
          rcases nearestLoop_from colors c _ _ _ hl with h1 | h1
          · simp only at h1; rw [h1]; exact List.mem_cons_self _ _
          · exact h1
        exact ⟨q :: qs, hm, rfl⟩

/-- On a non-empty list of non-empty buckets `nearestInUs` returns a point. -/
theorem nearestInUs_total (colors : Nat → ColorPoint) (c : ColorPoint) (points : List Bucket)
    (hne : points ≠ []) (hb : ∀ b ∈ points, b ≠ []) : ∃ p, nearestInUs colors points c = .ok p := by
  cases hpts : points with
  | nil => exact absurd hpts hne
  | cons b0 rest =>
    rw [hpts] at hb
    obtain ⟨st1, h1, _, _, h4⟩ := nearestLoop_spec colors c (b0 :: rest) (90000000, b0) hb
    simp only [nearestInUs, h1]
    obtain ⟨d, bb⟩ := st1
    have hbb : bb ≠ [] := by
      rcases h4 with h4 | ⟨hmem, _⟩
      · simp only [Prod.mk.injEq] at h4
        rw [h4.2]; exact hb b0 (List.mem_cons_self _ _)
      · exact hb bb hmem
    cases bb with
    | nil => exact absurd rfl hbb
    | cons q qs => exact ⟨q, rfl⟩

theorem headOf_self {n : NodeData} {ch : Nat → Octree} {p : Point}
    (h : ∃ b ∈ n.points, b.head? = some p) : (Octree.node n ch).HeadOf p :=
  ⟨[], n, ch, rfl, h⟩

theorem headOf_child {n : NodeData} {ch : Nat → Octree} {i : Nat} {p : Point}
    (h : (ch i).HeadOf p) : (Octree.node n ch).HeadOf p := by
  obtain ⟨path, n1, ch1, hd, hb⟩ := h
  exact ⟨i :: path, n1, ch1, hd, hb⟩

/-- A loop of searches keeps a relation between the states that is reflexive and transitive. -/
theorem searchLoop_rel (R : Search → Search → Prop) (hrefl : ∀ s, R s s)
    (htrans : ∀ s s1 s2, R s s1 → R s1 s2 → R s s2)
    (body : Nat → Search → Except Err Search)
    (hbody : ∀ i s s1, body i s = .ok s1 → R s s1) :
    ∀ (l : List Nat) (s s1 : Search), searchLoop body l s = .ok s1 → R s s1 := by
  intro l
  induction l with
  | nil =>
    intro s s1 h
    simp only [searchLoop, Except.ok.injEq] at h
    rw [← h]; exact hrefl s
  | cons i rest ih =>
    intro s s1 h
    simp only [searchLoop] at h
    cases hb : body i s with
    | error e => rw [hb] at h; cases h
    | ok s2 =>
      rw [hb] at h
      exact htrans s s2 s1 (hbody i s s2 hb) (ih s2 s1 h)

/-- The candidate after `NNSearchDown` is the one before or the first member of a bucket of the
subtree. -/
theorem NNSearchDown_head (colors : Nat → ColorPoint) :
    ∀ (t : Octree) (s s1 : Search), NNSearchDown colors t s = .ok s1 →
      s1.candidate = s.candidate ∨ t.HeadOf s1.candidate := by
  intro t
  induction t with
  | null => intro s s1 h; simp [NNSearchDown] at h
  | node n ch ih =>
    intro s s1 h
    unfold NNSearchDown at h
    split at h
    · simp only [Except.ok.injEq] at h; left; rw [h]
    · split at h
      · simp only [Except.ok.injEq] at h; left; rw [h]
      · split at h
        · cases hn : nearestInUs colors n.points s.source with
          | error e => rw [hn] at h; cases h
          | ok p =>
            rw [hn] at h
            simp only at h
            split at h
            · simp only [Except.ok.injEq] at h
              right; rw [← h]
              exact headOf_self (nearestInUs_head hn)
            · simp only [Except.ok.injEq] at h; left; rw [h]
        · split at h
          · refine searchLoop_rel
              (fun a b => b.candidate = a.candidate ∨ (Octree.node n ch).HeadOf b.candidate)
              (fun _ => Or.inl rfl) ?_ _ ?_ (List.range 8) s s1 h
            · intro a b c hab hbc
              rcases hbc with hbc | hbc
              · rcases hab with hab | hab
                · left; rw [hbc, hab]
                · right; rw [hbc]; exact hab
              · right; exact hbc
            · intro i a b hb
              cases hc : ch i with
              | null =>
                simp only [hc, Except.ok.injEq] at hb
                left; rw [hb]
              | node cn cch =>
                simp only [hc] at hb
                rw [← hc] at hb
                rcases ih i a b hb with h1 | h1
                · left; exact h1
                · right; exact headOf_child h1
          · simp only [Except.ok.injEq] at h; left; rw [h]

/-- The candidate after `NNSearchUp` is the one before or the first member of a bucket of one of
the ancestors. -/
theorem NNSearchUp_head (colors : Nat → ColorPoint) :
    ∀ (anc : List (Octree × Nat)) (s s1 : Search), NNSearchUp colors anc s = .ok s1 →
      s1.candidate = s.candidate ∨ ∃ a ∈ anc, a.1.HeadOf s1.candidate := by
  intro anc
  induction anc with
  | nil => intro s s1 h; simp [NNSearchUp] at h
  | cons top rest ih =>
    intro s s1 h
    obtain ⟨t, fromIdx⟩ := top
    cases t with
    | null => simp [NNSearchUp] at h
    | node n ch =>
      simp only [NNSearchUp] at h
      split at h
      · cases h
      · cases hl : searchLoop (fun i s =>
            if !(ch i).isNull && i ≠ fromIdx then NNSearchDown colors (ch i) s else .ok s)
            (List.range 8) s with
        | error e => rw [hl] at h; cases h
        | ok s2 =>
          rw [hl] at h
          simp only at h
          have h2 : s2.candidate = s.candidate ∨ (Octree.node n ch).HeadOf s2.candidate := by
            refine searchLoop_rel
              (fun a b => b.candidate = a.candidate ∨ (Octree.node n ch).HeadOf b.candidate)
              (fun _ => Or.inl rfl) ?_ _ ?_ (List.range 8) s s2 hl
            · intro a b c hab hbc
              rcases hbc with hbc | hbc
              · rcases hab with hab | hab
                · left; rw [hbc, hab]
                · right; rw [hbc]; exact hab
              · right; exact hbc
            · intro i a b hb
              simp only at hb
              split at hb
              · rcases NNSearchDown_head colors (ch i) a b hb with h1 | h1
                · left; exact h1
                · right; exact headOf_child h1
              · simp only [Except.ok.injEq] at hb; left; rw [hb]
          split at h
          · rcases ih s2 s1 h with h3 | ⟨a, ha, h3⟩
            · rcases h2 with h2 | h2
              · left; rw [h3, h2]
              · right; exact ⟨_, List.mem_cons_self _ _, by rw [h3]; exact h2⟩
            · right; exact ⟨a, List.mem_cons_of_mem _ ha, h3⟩
          · simp only [Except.ok.injEq] at h
            rw [← h]
            rcases h2 with h2 | h2
            · left; exact h2
            · right; exact ⟨_, List.mem_cons_self _ _, h2⟩

end RustColors


/-! ## What `findNearest` returns, and `findNearest` at depth `treeTune` -/

namespace RustColors

/-- The point `findNearest` returns is the first member of a bucket of the subtree it was called
on or of one of the ancestors. -/
theorem findNearestFrom_head (colors : Nat → ColorPoint) (c : ColorPoint) :
    ∀ (t : Octree) (anc : List (Octree × Nat)) (p : Point),
      findNearestFrom colors t anc c = .ok p →
      t.HeadOf p ∨ ∃ a ∈ anc, a.1.HeadOf p := by
  intro t
  induction t with
  | null => intro anc p h; simp [findNearestFrom] at h
  | node n ch ih =>
    intro anc p h
    unfold findNearestFrom at h
    simp only at h
    split at h
    · cases h
    · split at h
      · cases hn : nearestInUs colors n.points c with
        | error e => rw [hn] at h; cases h
        | ok ret =>
          rw [hn] at h
          simp only at h
          have hret : (Octree.node n ch).HeadOf ret := headOf_self (nearestInUs_head hn)
          split at h
          · cases hu : NNSearchUp colors anc
                { candidate := ret, source := c,
                  bestDistanceSq := c.distanceTo (colors ret.color),
                  bounds := BB.setAround c (sqrtInt (c.distanceTo (colors ret.color))) } with
            | error e => rw [hu] at h; cases h
            | ok s1 =>
              rw [hu] at h
              simp only [Except.ok.injEq] at h
              rw [← h]
              rcases NNSearchUp_head colors anc _ s1 hu with h1 | h1
              · left; rw [h1]; exact hret
              · right; exact h1
          · simp only [Except.ok.injEq] at h
            left; rw [← h]; exact hret
      · rename_i hthin
        split at h
        · rename_i hdead
          exact absurd (by
            simp only [Bool.or_eq_true, decide_eq_true_eq] at hthin hdead ⊢
            tauto) hthin
        · rcases ih _ _ p h with h1 | ⟨a, ha, h1⟩
          · left; exact headOf_child h1
          · rcases List.mem_cons.1 ha with rfl | ha
            · left; exact h1
            · right; exact ⟨a, ha, h1⟩

/-- The point `findNearest` returns on the root is the first member of a bucket of a node of the
tree. -/
theorem findNearest_head {colors : Nat → ColorPoint} {t : Octree} {c : ColorPoint} {p : Point}
    (h : t.findNearest colors c = .ok p) : t.HeadOf p := by
  rcases findNearestFrom_head colors c t [] p h with h1 | ⟨a, ha, _⟩
  · exact h1
  · cases ha

/-- At a node at depth `treeTune` of a well-formed tree, with at least one bucket, `findNearest`
runs `nearestInUs` on the node and returns its result, or the candidate of the search up that
starts from it. -/
theorem findNearestFrom_leaf (colors : Nat → ColorPoint) {t : Octree}
    (hwf : WF colors treeTune t) (hne : t.buckets ≠ []) (anc : List (Octree × Nat))
    (c : ColorPoint) :
    ∃ ret, nearestInUs colors t.buckets c = .ok ret ∧
      (findNearestFrom colors t anc c = .ok ret ∨
       findNearestFrom colors t anc c =
         (NNSearchUp colors anc
           { candidate := ret, source := c, bestDistanceSq := c.distanceTo (colors ret.color),
             bounds := BB.setAround c (sqrtInt (c.distanceTo (colors ret.color))) }).map
           (fun s => s.candidate)) := by
  cases t with
  | null => exact absurd rfl hne
  | node n ch =>
    simp only [Octree.buckets] at hne ⊢
    simp only [WF] at hwf
    obtain ⟨_, _, hok, hleaf, _, _⟩ := hwf
    have hb : ∀ b ∈ n.points, b ≠ [] := by
      intro b hb
      obtain ⟨i, hi, rfl⟩ := List.getElem_of_mem hb
      obtain ⟨k, hk, hbk⟩ := hok.getD_eq_bucketOf hi
      rw [← List.getD_eq_getElem _ [] hi, hbk]
      exact hok.nonempty k i hk
    obtain ⟨ret, hret⟩ := nearestInUs_total colors c n.points hne hb
    refine ⟨ret, hret, ?_⟩
    have hlen : ¬ n.points.length = 0 := fun e => hne (List.length_eq_zero.1 e)
    have hchild : ch (addr n.depth c) = .null := hleaf trivial _
    unfold findNearestFrom
    simp only [hlen, if_false, hchild, Octree.isNull, Bool.or_true, Bool.true_or, if_true, hret]
    by_cases hgate : (decide (n.depth > 0) &&
        decide (c.distanceTo (colors ret.color) > n.radius * n.radius)) = true
    · right
      rw [if_pos hgate]
      cases NNSearchUp colors anc
          { candidate := ret, source := c, bestDistanceSq := c.distanceTo (colors ret.color),
            bounds := BB.setAround c (sqrtInt (c.distanceTo (colors ret.color))) } <;> rfl
    · left
      rw [if_neg hgate]

end RustColors


/-! ## Keys survive later `add` calls -/

namespace RustColors

/-- More `add` calls keep the tree well-formed and keep every key. -/
theorem foldl_add_keeps_key (colors : Nat → ColorPoint) (h : Nat) :
    ∀ (ps : List Point) (t : Octree), WFRoot colors t → t.keyAt h ≠ none →
      WFRoot colors (ps.foldl (Octree.add colors) t) ∧
      (ps.foldl (Octree.add colors) t).keyAt h ≠ none := by
  intro ps
  induction ps with
  | nil => intro t hwf hk; exact ⟨hwf, hk⟩
  | cons p rest ih =>
    intro t hwf hk
    have hwf1 := add_wfRoot hwf p
    refine ih _ hwf1 ?_
    rw [keyAt_iff_bucketAt hwf1, add_bucketAt hwf p h]
    have hb := (keyAt_iff_bucketAt hwf h).1 hk
    split
    · intro e
      exact hb (List.append_eq_nil.1 e).1
    · exact hb

end RustColors


/-! ## The image is the replay of the trace of `put` calls -/

namespace RustColors

/-- One iteration of the loop of `simulateTo` calls `put` once, on the image it found. -/
theorem simulateStep_image {st st1 : Colorful} {c : Nat} (h : st.simulateStep c = .ok st1) :
    ∃ e, st1.puts = e :: st.puts ∧ st1.image = put st.image e.1 e.2 := by
  unfold Colorful.simulateStep at h
  simp only at h
  cases hf : st.root.findNearest st.colors (st.colors c) with
  | error e => rw [hf] at h; cases h
  | ok next =>
    rw [hf] at h
    simp only at h
    cases hr : (addNeighbors st.colors (markWritten st.written next.space) c st.root
        (getNeighbors st.space next.space)).remove st.colors next with
    | error e => rw [hr] at h; cases h
    | ok root2 =>
      rw [hr] at h
      simp only [Except.ok.injEq] at h
      rw [← h]
      exact ⟨(next.space, st.colors c), rfl, rfl⟩

theorem simulateLoop_image (img0 : Nat → Nat → RgbPixel) :
    ∀ (k c : Nat) (st st1 : Colorful), Colorful.simulateLoop k c st = .ok st1 →
      st.image = replayPuts st.puts img0 → st1.image = replayPuts st1.puts img0 := by
  intro k
  induction k with
  | zero =>
    intro c st st1 h hi
    simp only [Colorful.simulateLoop, Except.ok.injEq] at h
    rw [← h]; exact hi
  | succ k ih =>
    intro c st st1 h hi
    simp only [Colorful.simulateLoop] at h
    cases hs : st.simulateStep c with
    | error e => rw [hs] at h; cases h
    | ok st2 =>
      rw [hs] at h
      obtain ⟨e, hp, him⟩ := simulateStep_image hs
      refine ih (c + 1) st2 st1 h ?_
      rw [him, hp, hi]
      rfl

/-- The image `simulateTo` leaves is the replay of its trace when the image it started from
was. -/
theorem simulateTo_image (img0 : Nat → Nat → RgbPixel) {st st1 : Colorful} {idxTo : Int}
    (h : st.simulateTo idxTo = .ok st1) (hi : st.image = replayPuts st.puts img0) :
    st1.image = replayPuts st1.puts img0 := by
  unfold Colorful.simulateTo at h
  split at h
  · cases h
  · exact simulateLoop_image img0 _ _ st st1 h hi

/-- The image a seed leaves on a driver without `put` calls is the replay of its trace. -/
theorem seedIdx_image {st st1 : Colorful} {x y cp : Int} (hputs : st.puts = [])
    (h : st.seedIdx x y cp = .ok st1) : st1.image = replayPuts st1.puts st.image := by
  obtain ⟨_, _, _, hst1⟩ := (seedIdx_ok_iff st x y cp st1).1 h
  rw [hst1, hputs]
  rfl

theorem isCell_xy {a b : SpacePoint} (ha : IsCell a) (hb : IsCell b) (hy : a.y = b.y)
    (hx : a.x = b.x) : a.hash = b.hash := by
  obtain ⟨ha1, ha2⟩ := ha
  obtain ⟨hb1, hb2⟩ := hb
  rw [gridSpace_lt ha1] at ha2
  rw [gridSpace_lt hb1] at hb2
  have hax : a.x = a.hash % 4096 := by rw [ha2]
  have hay : a.y = a.hash / 4096 := by rw [ha2]
  have hbx : b.x = b.hash % 4096 := by rw [hb2]
  have hby : b.y = b.hash / 4096 := by rw [hb2]
  omega

/-- After a trace of `put` calls to pairwise distinct grid cells, the pixel of every cell of the
trace has the colour of its call, and every other pixel is as before. -/
theorem replayPuts_spec (img : Nat → Nat → RgbPixel) :
    ∀ (puts : List (SpacePoint × ColorPoint)), (∀ e ∈ puts, IsCell e.1) →
      (puts.map (fun e => e.1.hash)).Nodup →
      (∀ e ∈ puts, replayPuts puts img e.1.y e.1.x = e.2.toColor) ∧
      (∀ y x, (∀ e ∈ puts, ¬ (e.1.y = y ∧ e.1.x = x)) → replayPuts puts img y x = img y x) := by
  intro puts
  induction puts with
  | nil =>
    intro _ _
    exact ⟨fun e he => absurd he (List.not_mem_nil _), fun _ _ _ => rfl⟩
  | cons e0 rest ih =>
    intro hcell hnd
    simp only [List.map_cons, List.nodup_cons] at hnd
    obtain ⟨ih1, ih2⟩ := ih (fun e he => hcell e (List.mem_cons_of_mem _ he)) hnd.2
    constructor
    · intro e he
      simp only [replayPuts, put]
      rcases List.mem_cons.1 he with rfl | he
      · simp
      · have hne : ¬ (e.1.y = e0.1.y ∧ e.1.x = e0.1.x) := by
          rintro ⟨hy, hx⟩
          have := isCell_xy (hcell e (List.mem_cons_of_mem _ he))
            (hcell e0 (List.mem_cons_self _ _)) hy hx
          exact hnd.1 (by rw [← this]; exact List.mem_map_of_mem (fun e => e.1.hash) he)
        rw [if_neg hne]
        exact ih1 e he
    · intro y x hno
      simp only [replayPuts, put]
      have hne : ¬ (y = e0.1.y ∧ x = e0.1.x) := by
        rintro ⟨hy, hx⟩
        exact hno e0 (List.mem_cons_self _ _) ⟨hy.symm, hx.symm⟩
      rw [if_neg hne]
      exact ih2 y x (fun e he => hno e (List.mem_cons_of_mem _ he))

/-- The entry `k` of a trace read in the order of the calls, when the colours of the calls are
the palette entries `0, 1, ..`. -/
theorem puts_get (puts : List (SpacePoint × ColorPoint)) (colors : Nat → ColorPoint) (N : Nat)
    (hcol : puts.reverse.map Prod.snd = (List.range N).map colors) (k : Nat) (hk : k < N) :
    ∃ cell, puts.reverse[k]? = some (cell, colors k) ∧ (cell, colors k) ∈ puts := by
  have hlen : puts.reverse.length = N := by
    have := congrArg List.length hcol
    simpa using this
  have hk1 : k < puts.reverse.length := by omega
  have hget : puts.reverse[k]? = some puts.reverse[k] := List.getElem?_eq_getElem hk1
  have hsnd : puts.reverse[k].2 = colors k := by
    have h1 : (puts.reverse.map Prod.snd)[k]? = some puts.reverse[k].2 := by
      rw [List.getElem?_map, hget]; rfl
    rw [hcol, List.getElem?_map, List.getElem?_range hk] at h1
    simp only [Option.map_some', Option.some.injEq] at h1
    exact h1.symm
  refine ⟨puts.reverse[k].1, ?_, ?_⟩
  · rw [hget, ← hsnd]
  · rw [← hsnd]
    exact List.mem_reverse.1 (List.getElem_mem _)

end RustColors


/-! ## Claims about `add` and `remove` -/

namespace RustColors

/-- C3: on a well-formed tree, removing a point whose position hash `h` is a key of the root
succeeds and, at every node, leaves exactly the frontier points held before whose position hash is
not `h`: the key `h` is gone, no point of that position is kept (whichever point of the position
was passed), and every other position keeps its key and its bucket. -/
theorem remove_drops_whole_position (colors : Nat → ColorPoint) (t : Octree) (p : Point)
    (hwf : WFRoot colors t) (hkey : t.keyAt p.space.hash ≠ none) :
    ∃ t1, t.remove colors p = .ok t1 ∧
      Octree.Rel (fun n n1 =>
        (∀ q, n1.Holds q ↔ (n.Holds q ∧ q.space.hash ≠ p.space.hash)) ∧
        n1.pointHash p.space.hash = none ∧
        (∀ k, k ≠ p.space.hash →
          (n1.pointHash k).isSome = (n.pointHash k).isSome ∧ bucketOf n1 k = bucketOf n k))
        t t1 := by
  obtain ⟨t1, h1, _, hrel⟩ := remove_wfRoot hwf p hkey
  refine ⟨t1, h1, rel_imp ?_ t t1 hrel⟩
  intro n n1 r
  refine ⟨?_, r.nokey, ?_⟩
  · intro q
    rw [r.ok1.holds_iff, r.ok.holds_iff, r.bucket]
    by_cases hq : q.space.hash = p.space.hash
    · simp [hq]
    · simp [hq]
  · intro k hk
    refine ⟨r.keys k hk, ?_⟩
    rw [r.bucket, if_neg hk]

/-- Witness of C3: the tree holding two points of cell (5,7) and one of cell (6,7). -/
theorem remove_drops_whole_position_witness :
    ∃ t1, treeA3.remove palA ⟨cellA, 0⟩ = .ok t1 ∧
      Octree.Rel (fun n n1 =>
        (∀ q, n1.Holds q ↔ (n.Holds q ∧ q.space.hash ≠ cellA.hash)) ∧
        n1.pointHash cellA.hash = none ∧
        (∀ k, k ≠ cellA.hash →
          (n1.pointHash k).isSome = (n.pointHash k).isSome ∧ bucketOf n1 k = bucketOf n k))
        treeA3 t1 :=
  remove_drops_whole_position palA treeA3 ⟨cellA, 0⟩
    (add_wfRoot (add_wfRoot (add_wfRoot (wfRoot_root palA) ⟨cellA, 0⟩) ⟨cellB, 1⟩) ⟨cellA, 2⟩)
    (by decide)

/-- C5: after `add(p)` on a well-formed tree, at every depth `d = 0..4` the node reached from the
root along `addr(p.color)` exists, has depth `d`, holds `p` in exactly one bucket, whose index is
`pointHash[h]`; the node at depth 4 has no children; and no node off that path holds `p`. -/
theorem add_stores_on_path (colors : Nat → ColorPoint) (t : Octree) (p : Point)
    (hwf : WFRoot colors t) :
    (∀ d, d ≤ treeTune → ∃ n ch,
      (t.add colors p).descend (addrPath (colors p.color) 0 d) = .node n ch ∧ n.depth = d ∧
      (∃ i, n.pointHash p.space.hash = some i ∧ i < n.points.length ∧
        p ∈ n.points.getD i [] ∧ ∀ j, j < n.points.length → p ∈ n.points.getD j [] → j = i) ∧
      (d = treeTune → ∀ i, ch i = .null)) ∧
    (∀ path n ch, (t.add colors p).descend path = .node n ch → n.Holds p →
      path = addrPath (colors p.color) 0 path.length) := by
  have hwf1 := add_wfRoot hwf p
  have hp : p ∈ (t.add colors p).bucketAt p.space.hash := by
    rw [add_bucketAt hwf, if_pos rfl]
    simp
  constructor
  · intro d hd
    obtain ⟨n, ch, hdesc, hwfn, hpn⟩ := wf_path_node hwf1 p hp d hd
    simp only [WF] at hwfn
    exact ⟨n, ch, hdesc, hwfn.1, hwfn.2.2.1.index_of_mem hpn, hwfn.2.2.2.1⟩
  · intro path n ch hdesc hq
    exact (holds_descend colors p path 0 _ n ch hwf1.2 hdesc hq).2

/-- Witness of C5: adding a second point to a tree that holds one. -/
theorem add_stores_on_path_witness :
    WFRoot palA (Octree.root.add palA ⟨cellA, 0⟩) ∧
    ((∀ d, d ≤ treeTune → ∃ n ch,
      ((Octree.root.add palA ⟨cellA, 0⟩).add palA ⟨cellB, 1⟩).descend
        (addrPath (palA 1) 0 d) = .node n ch ∧ n.depth = d ∧
      (∃ i, n.pointHash cellB.hash = some i ∧ i < n.points.length ∧
        (⟨cellB, 1⟩ : Point) ∈ n.points.getD i [] ∧
        ∀ j, j < n.points.length → (⟨cellB, 1⟩ : Point) ∈ n.points.getD j [] → j = i) ∧
      (d = treeTune → ∀ i, ch i = .null)) ∧
    (∀ path n ch, ((Octree.root.add palA ⟨cellA, 0⟩).add palA ⟨cellB, 1⟩).descend path =
        .node n ch → n.Holds ⟨cellB, 1⟩ → path = addrPath (palA 1) 0 path.length)) :=
  ⟨add_wfRoot (wfRoot_root palA) _,
    add_stores_on_path palA _ ⟨cellB, 1⟩ (add_wfRoot (wfRoot_root palA) _)⟩

/-- C6: in every tree obtained from the empty root by `add` calls and `remove` calls that do not
fail, every node satisfies: each key maps to an index inside `points` whose bucket is non-empty
and holds only points of that position hash; each bucket is indexed by exactly one key; and two
different buckets never share a position hash. -/
theorem reachable_nodes_consistent (colors : Nat → ColorPoint) (t : Octree)
    (hreach : Reachable colors t) :
    t.All (fun n =>
      (∀ h i, n.pointHash h = some i →
        i < n.points.length ∧ n.points.getD i [] ≠ [] ∧
        ∀ q ∈ n.points.getD i [], q.space.hash = h) ∧
      (∀ i, i < n.points.length → ∃! h, n.pointHash h = some i) ∧
      (∀ i j, i < n.points.length → j < n.points.length → i ≠ j →
        ∀ q ∈ n.points.getD i [], ∀ q1 ∈ n.points.getD j [],
          q.space.hash ≠ q1.space.hash)) :=
  all_imp (fun _ ok => ok.spec) t (wf_all_nodeOK colors t 0 (reachable_wfRoot hreach).2)

/-- Witness of C6: three `add` calls and a `remove` that swaps the last bucket into the hole. -/
theorem reachable_nodes_consistent_witness :
    Reachable palA treeA ∧
    treeA.All (fun n =>
      (∀ h i, n.pointHash h = some i →
        i < n.points.length ∧ n.points.getD i [] ≠ [] ∧
        ∀ q ∈ n.points.getD i [], q.space.hash = h) ∧
      (∀ i, i < n.points.length → ∃! h, n.pointHash h = some i) ∧
      (∀ i j, i < n.points.length → j < n.points.length → i ≠ j →
        ∀ q ∈ n.points.getD i [], ∀ q1 ∈ n.points.getD j [],
          q.space.hash ≠ q1.space.hash)) :=
  have hr : Reachable palA treeA :=
    Reachable.remove treeA3 treeA ⟨cellA, 0⟩
      (Reachable.add _ ⟨cellA, 2⟩ (Reachable.add _ ⟨cellB, 1⟩
        (Reachable.add _ ⟨cellA, 0⟩ Reachable.root))) rfl
  ⟨hr, reachable_nodes_consistent palA treeA hr⟩

end RustColors


/-! ## Claims about `findNearest` on thin roots and about `add` followed by `remove` -/

namespace RustColors

/-- C2, counterexample: 65 points at pairwise distinct positions, 64 of colour (100,0,0) in the
octant of the query (127,0,0) and one of colour (128,0,0) in another octant.  The root holds more
than 64 buckets, the search descends into the octant of the query, finds (100,0,0) at squared
distance 729, which is not more than the squared radius 4096, and returns it; the point of colour
(128,0,0) is at squared distance 1. -/
theorem findNearest_not_optimal_counterexample :
    (pointsQ.map (fun p => p.space.hash)).Nodup ∧
    (∀ p ∈ pointsQ, InRange (palQ p.color)) ∧
    treeQ.findNearest palQ ⟨127, 0, 0⟩ = .ok ⟨⟨0, 0, 0⟩, 0⟩ ∧
    (⟨⟨64, 0, 64⟩, 64⟩ : Point) ∈ pointsQ ∧
    (⟨127, 0, 0⟩ : ColorPoint).distanceTo (palQ 64) <
      (⟨127, 0, 0⟩ : ColorPoint).distanceTo (palQ 0) := by
  refine ⟨by decide, by decide, ?_, by decide, by decide⟩
  set_option maxRecDepth 100000 in decide

/-- C2, amended: for at most `quadTune = 64` points at pairwise distinct positions with palette
colours, added to the empty root, `findNearest` returns one of the points, at the least squared
distance to the query among all of them. -/
theorem findNearest_optimal_thin (colors : Nat → ColorPoint) (ps : List Point) (c : ColorPoint)
    (hpal : ∀ p ∈ ps, InRange (colors p.color)) (hc : InRange c)
    (hnd : (ps.map (fun p => p.space.hash)).Nodup) (h0 : ps ≠ [])
    (hlen : ps.length ≤ quadTune) :
    ∃ p, (ps.foldl (Octree.add colors) Octree.root).findNearest colors c = .ok p ∧ p ∈ ps ∧
      ∀ q ∈ ps, c.distanceTo (colors p.color) ≤ c.distanceTo (colors q.color) := by
  obtain ⟨hwf, hb⟩ := foldl_add_buckets colors ps Octree.root (wfRoot_root colors)
    (fun _ _ => rfl) hnd
  have hb2 : (ps.foldl (Octree.add colors) Octree.root).buckets = ps.map (fun p => [p]) := by
    rw [hb]; rfl
  have hne : (ps.foldl (Octree.add colors) Octree.root).buckets ≠ [] := by
    rw [hb2]; simpa using h0
  rw [findNearest_eq_of_buckets colors hwf c hne (by rw [hb2]; simpa using hlen), hb2]
  obtain ⟨p, h1, ⟨b, hbm, hbp⟩, h3⟩ := nearestInUs_spec colors c hc (ps.map (fun p => [p]))
    (by simpa using h0) (by simp)
    (by
      intro b hb q hq
      obtain ⟨p, hp, rfl⟩ := List.mem_map.1 hb
      simp only [List.head?_cons, Option.some.injEq] at hq
      subst hq
      exact hpal p hp)
  refine ⟨p, h1, ?_, ?_⟩
  · obtain ⟨p1, hp1, rfl⟩ := List.mem_map.1 hbm
    simp only [List.head?_cons, Option.some.injEq] at hbp
    subst hbp
    exact hp1
  · intro q hq
    exact h3 [q] (List.mem_map_of_mem _ hq) q rfl

/-- Witness of C2 amended: three points. -/
theorem findNearest_optimal_thin_witness :
    ∃ p, ([⟨cellA, 0⟩, ⟨cellB, 1⟩, ⟨cellC, 2⟩].foldl (Octree.add palA) Octree.root).findNearest
        palA ⟨10, 20, 30⟩ = .ok p ∧ p ∈ [(⟨cellA, 0⟩ : Point), ⟨cellB, 1⟩, ⟨cellC, 2⟩] ∧
      ∀ q ∈ [(⟨cellA, 0⟩ : Point), ⟨cellB, 1⟩, ⟨cellC, 2⟩],
        (⟨10, 20, 30⟩ : ColorPoint).distanceTo (palA p.color) ≤
          (⟨10, 20, 30⟩ : ColorPoint).distanceTo (palA q.color) :=
  findNearest_optimal_thin palA [⟨cellA, 0⟩, ⟨cellB, 1⟩, ⟨cellC, 2⟩] ⟨10, 20, 30⟩
    (by decide) (by decide) (by decide) (by decide) (by decide)

/-- C4, counterexample: two points of the same cell whose colours route to the children 7 and 0
of the root; after `remove` of the first the tree holds nothing and `findNearest` with the colour
of the second fails instead of returning the second. -/
theorem remove_keeps_other_counterexample :
    (⟨cellA, 0⟩ : Point).space = (⟨cellA, 1⟩ : Point).space ∧
    addr 0 (palA 0) ≠ addr 0 (palA 1) ∧
    treeTwo.remove palA ⟨cellA, 0⟩ = .ok treeTwoRemoved ∧
    treeTwoRemoved.allPoints = [] ∧
    treeTwoRemoved.findNearest palA (palA 1) = .error .findNearestNoPoints ∧
    treeTwoRemoved.findNearest palA (palA 1) ≠ .ok ⟨cellA, 1⟩ :=
  ⟨rfl, by decide, rfl, by decide, by decide, by decide⟩

/-- C4, amended: when two points of the same position are added to the empty tree, `remove` of
the first succeeds and takes the whole bucket of the position: afterwards no node holds either
point and `findNearest` fails with the empty-node error for every query. -/
theorem remove_same_position_empties (colors : Nat → ColorPoint) (p1 p2 : Point)
    (hpos : p1.space = p2.space)
    (_hroute : addr 0 (colors p1.color) ≠ addr 0 (colors p2.color)) :
    ∃ t1, ((Octree.root.add colors p1).add colors p2).remove colors p1 = .ok t1 ∧
      t1.All (fun n => ¬ n.Holds p1 ∧ ¬ n.Holds p2) ∧
      ∀ c, t1.findNearest colors c = .error .findNearestNoPoints := by
  have hwf1 := add_wfRoot (wfRoot_root colors) p1
  have hwf2 := add_wfRoot hwf1 p2
  have hh : p2.space.hash = p1.space.hash := by rw [hpos]
  have hb : ∀ k, k ≠ p1.space.hash →
      ((Octree.root.add colors p1).add colors p2).bucketAt k = [] := by
    intro k hk
    rw [add_bucketAt hwf1, if_neg (by rw [hh]; exact hk), add_bucketAt (wfRoot_root colors),
      if_neg hk]
    rfl
  have hkey : ((Octree.root.add colors p1).add colors p2).keyAt p1.space.hash ≠ none := by
    have h2 := add_bucketAt hwf1 p2 p1.space.hash
    rw [if_pos hh.symm] at h2
    intro hnone
    cases hadd : (Octree.root.add colors p1).add colors p2 with
    | null => rw [hadd] at h2; simp [Octree.bucketAt] at h2
    | node n ch =>
      rw [hadd] at h2 hnone
      simp only [Octree.keyAt] at hnone
      simp [Octree.bucketAt, bucketOf_none hnone] at h2
  obtain ⟨t1, h1, hwft1, hrel⟩ := remove_wfRoot hwf2 p1 hkey
  refine ⟨t1, h1, ?_, ?_⟩
  · refine rel_all_right ?_ _ t1 hrel
    intro n n1 r
    constructor
    · rw [r.ok1.holds_iff, r.bucket, if_pos rfl]; simp
    · rw [r.ok1.holds_iff, r.bucket, if_pos hh]; simp
  · intro c
    cases hadd : (Octree.root.add colors p1).add colors p2 with
    | null => rw [hadd] at hwf2; exact absurd hwf2.1 (by simp [Octree.isNull])
    | node n ch =>
      rw [hadd] at hrel hb
      cases t1 with
      | null => simp [Octree.Rel] at hrel
      | node n1 ch1 =>
        simp only [Octree.Rel] at hrel
        have r := hrel.1
        have hkeys : ∀ k, n1.pointHash k = none := by
          intro k
          rw [← r.ok1.bucketOf_eq_nil_iff, r.bucket]
          split
          · rfl
          · rename_i hk; exact hb k hk
        have hp := nodeOK_points_nil r.ok1 hkeys
        simp [Octree.findNearest, findNearestFrom, hp]

/-- Witness of C4 amended: the two points of `treeTwo`. -/
theorem remove_same_position_empties_witness :
    ∃ t1, ((Octree.root.add palA ⟨cellA, 0⟩).add palA ⟨cellA, 1⟩).remove palA ⟨cellA, 0⟩ =
        .ok t1 ∧
      t1.All (fun n => ¬ n.Holds ⟨cellA, 0⟩ ∧ ¬ n.Holds ⟨cellA, 1⟩) ∧
      ∀ c, t1.findNearest palA c = .error .findNearestNoPoints :=
  remove_same_position_empties palA ⟨cellA, 0⟩ ⟨cellA, 1⟩ rfl (by decide)

end RustColors


/-! ## Claims about `findNearest` in general and about the driver -/

namespace RustColors

/-- C1, counterexample: (a) two points of one cell, the first of colour (200,200,200), the second
black: for the query black `findNearest` returns the first, at squared distance 120000, although
the second is indexed at distance 0; (b) in the tree of 65 singleton buckets `treeQ`, for the query
(126,0,0) it returns a point of colour (100,0,0) at squared distance 676 although the first
member of another bucket has colour (128,0,0), at squared distance 4. -/
theorem findNearest_all_members_counterexample :
    (Reachable palA treeTwo ∧
      treeTwo.findNearest palA ⟨0, 0, 0⟩ = .ok ⟨cellA, 0⟩ ∧
      (⟨cellA, 1⟩ : Point) ∈ treeTwo.allPoints ∧
      (⟨0, 0, 0⟩ : ColorPoint).distanceTo (palA 1) <
        (⟨0, 0, 0⟩ : ColorPoint).distanceTo (palA 0)) ∧
    (Reachable palQ treeQ ∧
      treeQ.findNearest palQ ⟨126, 0, 0⟩ = .ok ⟨⟨0, 0, 0⟩, 0⟩ ∧
      [(⟨⟨64, 0, 64⟩, 64⟩ : Point)] ∈ treeQ.buckets ∧
      (⟨126, 0, 0⟩ : ColorPoint).distanceTo (palQ 64) <
        (⟨126, 0, 0⟩ : ColorPoint).distanceTo (palQ 0)) := by
  refine ⟨⟨Reachable.add _ ⟨cellA, 1⟩ (Reachable.add _ ⟨cellA, 0⟩ Reachable.root), by decide,
    by decide, by decide⟩, ⟨reachable_foldl palQ pointsQ _ Reachable.root, ?_, ?_, by decide⟩⟩
  · set_option maxRecDepth 100000 in decide
  · set_option maxRecDepth 100000 in decide

/-- C1, amended: on every tree obtained from the empty root by `add` and `remove` calls, with
palette colours in `0..255`, that indexes at least one frontier point, `findNearest` of a colour
in `0..255` succeeds and returns an indexed frontier point; when the root holds at most
`quadTune = 64` buckets, the point is the first member of a root bucket and its squared distance
to the query is the least among the first members of all root buckets. -/
theorem findNearest_first_members (colors : Nat → ColorPoint) (t : Octree) (c : ColorPoint)
    (hreach : Reachable colors t) (hpal : ∀ i, InRange (colors i)) (hc : InRange c)
    (hne : t.allPoints ≠ []) :
    ∃ p, t.findNearest colors c = .ok p ∧ p ∈ t.allPoints ∧
      (t.buckets.length ≤ quadTune →
        (∃ b ∈ t.buckets, b.head? = some p) ∧
        ∀ b ∈ t.buckets, ∀ q, b.head? = some q →
          c.distanceTo (colors p.color) ≤ c.distanceTo (colors q.color)) := by
  have hwf := reachable_wfRoot hreach
  have hb := buckets_ne_nil_of_allPoints hne
  obtain ⟨p, hp, hmem⟩ := findNearest_ok hpal hwf (reachable_geo hpal hreach) hc hb
  refine ⟨p, hp, mem_allPoints_of_bucketAt hwf hmem, ?_⟩
  intro hq
  obtain ⟨p1, h1, h2, h3⟩ := nearestInUs_spec colors c hc t.buckets hb
    (wfRoot_buckets_ne_nil hwf) (fun _ _ q _ => hpal q.color)
  rw [findNearest_eq_of_buckets colors hwf c hb hq, h1] at hp
  cases hp
  exact ⟨h2, h3⟩

/-- Witness of C1 amended: the tree `treeA`, left by three `add` calls and one `remove`. -/
theorem findNearest_first_members_witness :
    ∃ p, treeA.findNearest palA ⟨10, 20, 30⟩ = .ok p ∧ p ∈ treeA.allPoints ∧
      (treeA.buckets.length ≤ quadTune →
        (∃ b ∈ treeA.buckets, b.head? = some p) ∧
        ∀ b ∈ treeA.buckets, ∀ q, b.head? = some q →
          (⟨10, 20, 30⟩ : ColorPoint).distanceTo (palA p.color) ≤
            (⟨10, 20, 30⟩ : ColorPoint).distanceTo (palA q.color)) :=
  findNearest_first_members palA treeA ⟨10, 20, 30⟩
    (Reachable.remove treeA3 treeA ⟨cellA, 0⟩
      (Reachable.add _ ⟨cellA, 2⟩ (Reachable.add _ ⟨cellB, 1⟩
        (Reachable.add _ ⟨cellA, 0⟩ Reachable.root))) rfl)
    (by intro i; unfold palA; split_ifs <;> decide) (by decide) (by decide)

/-- C8: on a fresh driver seeded once, `currentPixel` is 1 and `simulateTo(N)` succeeds for every
`1 ≤ N ≤ 4096 * 4096`; afterwards exactly `N` cells are written, there were `N` calls of `put`,
the `k`-th of them wrote the palette entry `k`, no two went to the same cell, and the written
cells are exactly the cells of those calls.  In the image, the pixel of every cell of a call has
the colour of that call, so for every `k < N` the pixel of the cell of the `k`-th call is the
palette entry `k`, and every pixel no call went to is as it was before the seed. -/
theorem simulateTo_writes_each_once (st st1 : Colorful) (x y cp : Int) (N : Nat)
    (hfresh : Fresh st) (hseed : st.seedIdx x y cp = .ok st1) (hN1 : 1 ≤ N)
    (hN2 : N ≤ 4096 * 4096) :
    st1.currentPixel = 1 ∧
    ∃ st2, st1.simulateTo (N : Int) = .ok st2 ∧
      ((Finset.range (4096 * 4096)).filter (fun h => st2.written h = true)).card = N ∧
      (∀ h, st2.written h = true → h < 4096 * 4096) ∧
      st2.puts.length = N ∧
      st2.puts.reverse.map Prod.snd = (List.range N).map st1.colors ∧
      (st2.puts.map (fun e => e.1.hash)).Nodup ∧
      (∀ h, st2.written h = true ↔ h ∈ st2.puts.map (fun e => e.1.hash)) ∧
      (∀ e ∈ st2.puts, e.1.x < 4096 ∧ e.1.y < 4096 ∧ e.1.hash = e.1.y * 4096 + e.1.x ∧
        st2.image e.1.y e.1.x = e.2.toColor) ∧
      (∀ y x, (∀ e ∈ st2.puts, ¬ (e.1.y = y ∧ e.1.x = x)) → st2.image y x = st.image y x) ∧
      (∀ k, k < N → ∃ cell, st2.puts.reverse[k]? = some (cell, st1.colors k) ∧
        st2.written cell.hash = true ∧
        st2.image cell.y cell.x = (st1.colors k).toColor) := by
  refine ⟨(seedIdx_fresh hfresh hseed).2, ?_⟩
  obtain ⟨st2, h2, inv, hcol⟩ := simulateTo_fresh hfresh hseed N hN1 hN2
  have himg : st2.image = replayPuts st2.puts st.image :=
    simulateTo_image st.image h2 (seedIdx_image hfresh.puts hseed)
  obtain ⟨hat, hother⟩ := replayPuts_spec st.image st2.puts inv.cellsPut inv.nodup
  have hcolors : st2.puts.reverse.map Prod.snd = (List.range N).map st1.colors := by
    rw [← hcol]; exact inv.colorsPut
  refine ⟨st2, h2, inv.card_written, ?_, inv.len, hcolors, inv.nodup, inv.written, ?_, ?_, ?_⟩
  · intro h hh
    obtain ⟨e, he, rfl⟩ := List.mem_map.1 ((inv.written h).1 hh)
    exact (inv.cellsPut e he).1
  · intro e he
    obtain ⟨hlt, hcell⟩ := inv.cellsPut e he
    have hx : e.1.x = e.1.hash % 4096 := by rw [hcell, gridSpace_lt hlt]
    have hy : e.1.y = e.1.hash / 4096 := by rw [hcell, gridSpace_lt hlt]
    unfold gridSize at hlt
    refine ⟨by omega, by omega, by omega, ?_⟩
    rw [himg]
    exact hat e he
  · intro y x hno
    rw [himg]
    exact hother y x hno
  · intro k hk
    obtain ⟨cell, hget, hmem⟩ := puts_get st2.puts st1.colors N hcolors k hk
    refine ⟨cell, hget, ?_, ?_⟩
    · exact (inv.written _).2 (List.mem_map_of_mem (fun e => e.1.hash) hmem)
    · rw [himg]
      exact hat _ hmem

/-- Witness of C8: the run of `main`, seed at (2048,2048) with index 0 and the whole grid. -/
theorem simulateTo_writes_each_once_witness :
    seedCenter.currentPixel = 1 ∧
    ∃ st2, seedCenter.simulateTo ((4096 * 4096 : Nat) : Int) = .ok st2 ∧
      ((Finset.range (4096 * 4096)).filter (fun h => st2.written h = true)).card =
        4096 * 4096 ∧
      (∀ h, st2.written h = true → h < 4096 * 4096) ∧
      st2.puts.length = 4096 * 4096 ∧
      st2.puts.reverse.map Prod.snd = (List.range (4096 * 4096)).map seedCenter.colors ∧
      (st2.puts.map (fun e => e.1.hash)).Nodup ∧
      (∀ h, st2.written h = true ↔ h ∈ st2.puts.map (fun e => e.1.hash)) ∧
      (∀ e ∈ st2.puts, e.1.x < 4096 ∧ e.1.y < 4096 ∧ e.1.hash = e.1.y * 4096 + e.1.x ∧
        st2.image e.1.y e.1.x = e.2.toColor) ∧
      (∀ y x, (∀ e ∈ st2.puts, ¬ (e.1.y = y ∧ e.1.x = x)) →
        st2.image y x = Colorful.new.image y x) ∧
      (∀ k, k < 4096 * 4096 → ∃ cell,
        st2.puts.reverse[k]? = some (cell, seedCenter.colors k) ∧
        st2.written cell.hash = true ∧
        st2.image cell.y cell.x = (seedCenter.colors k).toColor) :=
  simulateTo_writes_each_once Colorful.new seedCenter 2048 2048 0 (4096 * 4096) fresh_new rfl
    (by decide) (by decide)

/-- C9, the code at the failing input: after `seedIdx(0,0,0)` the cell (1,0) is unwritten and in
the index; `seedIdx(1,0,1)` succeeds, marks (1,0) written and leaves the frontier point of (1,0)
in the index. -/
theorem seedIdx_leaves_written_cell_indexed :
    Colorful.new.seedIdx 0 0 0 = .ok seedCorner ∧
    seedCorner.written 1 = false ∧
    seedCorner.seedIdx 1 0 1 = .ok seedCornerTwice ∧
    seedCornerTwice.written 1 = true ∧
    (⟨⟨1, 0, 1⟩, 0⟩ : Point) ∈ seedCornerTwice.root.allPoints :=
  ⟨rfl, by decide, rfl, by decide, by decide⟩

/-- C10, what the code does: the third argument is multiplied by 4096 before it is used as a
palette index.  For an argument `row` in `0..4095` and an unwritten cell `(x,y)` of the grid,
`seedIdx(x, y, row)` swaps the palette entries `currentPixel` and `4096 * row`, not
`currentPixel` and `row`; it leaves the other entries, writes the colour that was at
`4096 * row` to the pixel `(x,y)`, marks that cell and only that cell written, and increments
`currentPixel` by one. -/
theorem seedIdx_effect (st : Colorful) (x y row : Nat) (hx : x < 4096) (hy : y < 4096)
    (hrow : row < 4096) (hgrid : st.space = gridSpace)
    (hunw : st.written (spaceOffset x y) = false) :
    ∃ st1, st.seedIdx (x : Int) (y : Int) (row : Int) = .ok st1 ∧
      st1.colors st.currentPixel = st.colors (4096 * row) ∧
      st1.colors (4096 * row) = st.colors st.currentPixel ∧
      (∀ k, k ≠ st.currentPixel → k ≠ 4096 * row → st1.colors k = st.colors k) ∧
      st1.image y x = (st.colors (4096 * row)).toColor ∧
      st1.puts = (⟨x, y, spaceOffset x y⟩, st.colors (4096 * row)) :: st.puts ∧
      st1.written (spaceOffset x y) = true ∧
      (∀ h, h ≠ spaceOffset x y → st1.written h = st.written h) ∧
      st1.currentPixel = st.currentPixel + 1 := by
  have hoff : spaceOffset x y = y * 4096 + x := spaceOffset_eq hx hy
  have hg : spaceOffset x y < gridSize := by rw [hoff]; unfold gridSize; omega
  have hcell : gridSpace (spaceOffset x y) = ⟨x, y, spaceOffset x y⟩ := by
    rw [gridSpace_lt hg, hoff]
    congr 1 <;> omega
  have hw : wrapInt32 ((row : Int) * 4096) = ((4096 * row : Nat) : Int) := by
    rw [wrapInt32_small (by omega) (by omega)]
    push_cast
    ring
  refine ⟨_, (seedIdx_ok_iff st x y row _).2
    ⟨⟨by omega, by omega, by omega, by omega⟩, ⟨?_, ?_⟩, ?_, rfl⟩, ?_⟩
  · rw [hw]; omega
  · rw [hw]; omega
  · rw [Int.toNat_ofNat, Int.toNat_ofNat, hgrid, hcell]
    exact hunw
  · simp only [hw, Int.toNat_ofNat, hgrid, hcell]
    refine ⟨?_, ?_, ?_, ?_, ?_, ?_, ?_, trivial⟩
    · simp [swapColors]
    · simp only [swapColors]
      split <;> simp_all
    · intro k h1 h2
      simp [swapColors, h1, h2]
    · simp [put, swapColors]
    · simp [swapColors]
    · simp [markWritten]
    · intro h hh
      simp [markWritten, hh]

/-- Witness of C10: on the new driver the palette indices 1, 4096, 255 * 65536 and 1048576 are
all in `0..4096 * 4096 - 1`.  `seedIdx(5, 5, 1)` swaps the entries 0 and 4096, not 0 and 1, and
writes the colour (0,16,0) of entry 4096, not the colour (0,0,1) of entry 1;
`seedIdx(5, 5, 4096)` and `seedIdx(5, 5, 255 * 65536)` are refused as too far; and
`seedIdx(5, 5, 1048576)`, whose product wraps to 0, writes the colour (0,0,0) of entry 0, not
the colour (16,0,0) of entry 1048576. -/
theorem seedIdx_effect_witness :
    (Colorful.new.colors 1 = ⟨0, 0, 1⟩ ∧ Colorful.new.colors 4096 = ⟨0, 16, 0⟩ ∧
      Colorful.new.colors 0 = ⟨0, 0, 0⟩ ∧ Colorful.new.colors 1048576 = ⟨16, 0, 0⟩) ∧
    (Colorful.new.seedIdx 5 5 1 = .ok seedRowOne ∧
      seedRowOne.colors 0 = Colorful.new.colors 4096 ∧
      seedRowOne.colors 4096 = Colorful.new.colors 0 ∧
      seedRowOne.colors 0 ≠ Colorful.new.colors 1 ∧
      seedRowOne.colors 1 = Colorful.new.colors 1 ∧
      seedRowOne.image 5 5 = ⟨0, 16, 0⟩ ∧
      seedRowOne.image 5 5 ≠ (Colorful.new.colors 1).toColor) ∧
    Colorful.new.seedIdx 5 5 4096 = .error .seedTooFar ∧
    Colorful.new.seedIdx 5 5 (255 * 65536) = .error .seedTooFar ∧
    (∃ st1, Colorful.new.seedIdx 5 5 1048576 = .ok st1 ∧ st1.image 5 5 = ⟨0, 0, 0⟩ ∧
      st1.image 5 5 ≠ (Colorful.new.colors 1048576).toColor) ∧
    ∃ st1, Colorful.new.seedIdx ((5 : Nat) : Int) ((5 : Nat) : Int) ((1 : Nat) : Int) = .ok st1 ∧
      st1.colors Colorful.new.currentPixel = Colorful.new.colors (4096 * 1) ∧
      st1.colors (4096 * 1) = Colorful.new.colors Colorful.new.currentPixel ∧
      (∀ k, k ≠ Colorful.new.currentPixel → k ≠ 4096 * 1 →
        st1.colors k = Colorful.new.colors k) ∧
      st1.image 5 5 = (Colorful.new.colors (4096 * 1)).toColor ∧
      st1.puts = (⟨5, 5, spaceOffset 5 5⟩, Colorful.new.colors (4096 * 1)) ::
        Colorful.new.puts ∧
      st1.written (spaceOffset 5 5) = true ∧
      (∀ h, h ≠ spaceOffset 5 5 → st1.written h = Colorful.new.written h) ∧
      st1.currentPixel = Colorful.new.currentPixel + 1 :=
  ⟨⟨by decide, by decide, by decide, by decide⟩,
    ⟨rfl, by decide, by decide, by decide, by decide, by decide, by decide⟩,
    rfl, rfl, ⟨_, rfl, by decide, by decide⟩,
    seedIdx_effect Colorful.new 5 5 1 (by decide) (by decide) (by decide) rfl rfl⟩

end RustColors


/-! ## Claims about the first seed, `nearestInUs`, failing calls and the grid -/

namespace RustColors

/-- C11: on a fresh driver a seed at the in-grid cell `(x,y)` with a valid palette index
succeeds.  Afterwards the cell `(x,y)` was written with palette entry 0; the root holds exactly
one point for each in-grid cell among left, right, up and down of `(x,y)`, in that order and
without duplicates, each pointing at palette entry 0, the colour written at `(x,y)`; no node of
the index holds any other point; and for the seed `(0,0)` the points are those of the cells
`(1,0)` and `(0,1)`. -/
theorem seedIdx_fresh_frontier (st : Colorful) (hf : Fresh st) (x y : Nat) (hx : x < 4096)
    (hy : y < 4096) (cp : Int)
    (hcp : 0 ≤ wrapInt32 (cp * 4096) ∧ wrapInt32 (cp * 4096) < 4096 * 4096) :
    ∃ st1, st.seedIdx x y cp = .ok st1 ∧
      st1.puts = [(⟨x, y, y * 4096 + x⟩, st1.colors 0)] ∧
      st1.image y x = (st1.colors 0).toColor ∧
      st1.root.allPoints =
        ((if 0 < x then [(⟨x - 1, y, y * 4096 + (x - 1)⟩ : SpacePoint)] else []) ++
         (if x + 1 < 4096 then [(⟨x + 1, y, y * 4096 + (x + 1)⟩ : SpacePoint)] else []) ++
         (if 0 < y then [(⟨x, y - 1, (y - 1) * 4096 + x⟩ : SpacePoint)] else []) ++
         (if y + 1 < 4096 then [(⟨x, y + 1, (y + 1) * 4096 + x⟩ : SpacePoint)] else [])).map
          (fun sp => (⟨sp, 0⟩ : Point)) ∧
      st1.root.allPoints.Nodup ∧
      (∀ path n ch q, st1.root.descend path = .node n ch → n.Holds q →
        q ∈ st1.root.allPoints) ∧
      (x = 0 → y = 0 → st1.root.allPoints = [⟨⟨1, 0, 1⟩, 0⟩, ⟨⟨0, 1, 4096⟩, 0⟩]) := by
  obtain ⟨root, image, colors, space, written, cpx, puts⟩ := st
  obtain ⟨hroot, hwr, hcpx, hputs, hspace, hpal⟩ := hf
  simp only at hroot hwr hcpx hputs hspace hpal
  subst hroot hcpx hputs hspace
  obtain ⟨hwf, hall⟩ := addNeighbors_root (swapColors colors 0 (wrapInt32 (cp * 4096)).toNat)
    written hwr 0 hx hy
  have hcells := getNeighbors_cells hx hy
  obtain ⟨hnd, _, _, _, _⟩ := cells_facts hx hy _ hcells
  refine ⟨_, (seedIdx_ok_iff _ x y cp _).2 ⟨⟨by omega, by omega, by omega, by omega⟩, hcp,
    hwr _, rfl⟩, ?_, ?_, ?_, ?_, ?_, ?_⟩
  · simp only [Int.toNat_ofNat, gridSpace_cell hx hy]
  · simp only [Int.toNat_ofNat, gridSpace_cell hx hy, put, and_self, if_true]
  · simp only [Int.toNat_ofNat]
    rw [hall, hcells]
  · simp only [Int.toNat_ofNat]
    rw [hall]
    exact hnd.map (fun a b h => by injection h)
  · intro path n ch q hd hq
    simp only [Int.toNat_ofNat] at hd ⊢
    exact holds_descend_allPoints hwf path n ch q hd hq
  · intro h0 h1
    subst h0 h1
    simp only [Int.toNat_ofNat]
    rw [hall, hcells]
    rfl

/-- Witness of C11: the seed `(0,0)` with palette index 0 on the driver `Colorful()` builds. -/
theorem seedIdx_fresh_frontier_witness :
    ∃ st1, Colorful.new.seedIdx ((0 : Nat) : Int) ((0 : Nat) : Int) 0 = .ok st1 ∧
      st1.puts = [(⟨0, 0, 0 * 4096 + 0⟩, st1.colors 0)] ∧
      st1.image 0 0 = (st1.colors 0).toColor ∧
      st1.root.allPoints =
        ((if 0 < 0 then [(⟨0 - 1, 0, 0 * 4096 + (0 - 1)⟩ : SpacePoint)] else []) ++
         (if 0 + 1 < 4096 then [(⟨0 + 1, 0, 0 * 4096 + (0 + 1)⟩ : SpacePoint)] else []) ++
         (if 0 < 0 then [(⟨0, 0 - 1, (0 - 1) * 4096 + 0⟩ : SpacePoint)] else []) ++
         (if 0 + 1 < 4096 then [(⟨0, 0 + 1, (0 + 1) * 4096 + 0⟩ : SpacePoint)] else [])).map
          (fun sp => (⟨sp, 0⟩ : Point)) ∧
      st1.root.allPoints.Nodup ∧
      (∀ path n ch q, st1.root.descend path = .node n ch → n.Holds q →
        q ∈ st1.root.allPoints) ∧
      (0 = 0 → 0 = 0 → st1.root.allPoints = [⟨⟨1, 0, 1⟩, 0⟩, ⟨⟨0, 1, 4096⟩, 0⟩]) :=
  seedIdx_fresh_frontier Colorful.new fresh_new 0 0 (by decide) (by decide) 0 (by decide)

/-- C12: on a non-empty list of non-empty buckets whose colours have channels in 0..255, and a
query colour `c` in 0..255, `nearestInUs` returns the first member `p` of the bucket at some index
`i`; the distance of `p` is below the sentinel 90000000, is the least among the first members of
all buckets, and every bucket before `i` has a first member strictly farther away. -/
theorem nearestInUs_first_least (colors : Nat → ColorPoint) (c : ColorPoint) (hc : InRange c)
    (points : List Bucket) (hne : points ≠ []) (hb : ∀ b ∈ points, b ≠ [])
    (hcol : ∀ b ∈ points, ∀ q ∈ b, InRange (colors q.color)) :
    ∃ i p, i < points.length ∧ nearestInUs colors points c = .ok p ∧
      (points.getD i []).head? = some p ∧
      c.distanceTo (colors p.color) < 90000000 ∧
      (∀ j q, j < points.length → (points.getD j []).head? = some q →
        c.distanceTo (colors p.color) ≤ c.distanceTo (colors q.color)) ∧
      (∀ j q, j < i → (points.getD j []).head? = some q →
        c.distanceTo (colors p.color) < c.distanceTo (colors q.color)) := by
  have hcol1 : ∀ b ∈ points, ∀ q, b.head? = some q → InRange (colors q.color) :=
    fun b hb1 q hq => hcol b hb1 q (List.mem_of_mem_head? hq)
  obtain ⟨i, p, hi, hr, hp, hmin, hfirst⟩ := nearestInUs_first colors c hc points hne hb hcol1
  refine ⟨i, p, hi, hr, hp, ?_, fun j q hj hq => hmin j hj q hq,
    fun j q hj hq => hfirst j hj q hq⟩
  exact distanceTo_lt_sentinel hc (hcol1 _ (getD_mem_of_lt hi) p hp)

/-- Witness of C12: three buckets, the last two with first members at the same least distance
100 from the query (90,0,0). -/
theorem nearestInUs_first_least_witness :
    nearestInUs palA bucketsA ⟨90, 0, 0⟩ = .ok ⟨cellB, 3⟩ ∧
    ∃ i p, i < bucketsA.length ∧ nearestInUs palA bucketsA ⟨90, 0, 0⟩ = .ok p ∧
      (bucketsA.getD i []).head? = some p ∧
      (⟨90, 0, 0⟩ : ColorPoint).distanceTo (palA p.color) < 90000000 ∧
      (∀ j q, j < bucketsA.length → (bucketsA.getD j []).head? = some q →
        (⟨90, 0, 0⟩ : ColorPoint).distanceTo (palA p.color) ≤
          (⟨90, 0, 0⟩ : ColorPoint).distanceTo (palA q.color)) ∧
      (∀ j q, j < i → (bucketsA.getD j []).head? = some q →
        (⟨90, 0, 0⟩ : ColorPoint).distanceTo (palA p.color) <
          (⟨90, 0, 0⟩ : ColorPoint).distanceTo (palA q.color)) :=
  ⟨by decide, nearestInUs_first_least palA ⟨90, 0, 0⟩ (by decide) bucketsA (by decide)
    (by decide) (by decide)⟩

/-- C13: on a well-formed tree `remove(p)` throws exactly when the position hash of `p` is no key
of the root.  In that case the tree it leaves behind is the tree it was called on.  When the hash
is a key, the call returns without any exception, at every depth. -/
theorem remove_fails_iff_absent (colors : Nat → ColorPoint) (t : Octree) (hwf : WFRoot colors t)
    (p : Point) :
    ((∃ e, t.remove colors p = .error e) ↔ t.keyAt p.space.hash = none) ∧
    t.remove colors p = toExcept (t.removeS colors p) ∧
    (t.keyAt p.space.hash = none → t.removeS colors p = (t, some .removeNonExisting)) ∧
    (t.keyAt p.space.hash ≠ none →
      ∃ t1, t.removeS colors p = (t1, none) ∧ t.remove colors p = .ok t1) := by
  have hpresent : t.keyAt p.space.hash ≠ none →
      ∃ t1, t.removeS colors p = (t1, none) ∧ t.remove colors p = .ok t1 := by
    intro hk
    obtain ⟨t1, h1, _, _⟩ := remove_wfRoot hwf p hk
    refine ⟨t1, toExcept_ok ?_, h1⟩
    rw [← removeS_link]
    exact h1
  refine ⟨⟨?_, ?_⟩, removeS_link colors t p, removeS_absent colors hwf.1 p, hpresent⟩
  · rintro ⟨e, he⟩
    by_contra hk
    obtain ⟨t1, _, h1⟩ := hpresent hk
    rw [h1] at he
    cases he
  · intro hk
    refine ⟨.removeNonExisting, ?_⟩
    rw [removeS_link, removeS_absent colors hwf.1 p hk]
    rfl

/-- Witness of C13: the tree holding the cells (5,7) and (6,7), and a point of cell (7,7). -/
theorem remove_fails_iff_absent_witness :
    WFRoot palA treeA3 ∧
    treeA3.remove palA ⟨cellC, 0⟩ = .error .removeNonExisting ∧
    (((∃ e, treeA3.remove palA ⟨cellC, 0⟩ = .error e) ↔ treeA3.keyAt cellC.hash = none) ∧
    treeA3.remove palA ⟨cellC, 0⟩ = toExcept (treeA3.removeS palA ⟨cellC, 0⟩) ∧
    (treeA3.keyAt cellC.hash = none →
      treeA3.removeS palA ⟨cellC, 0⟩ = (treeA3, some .removeNonExisting)) ∧
    (treeA3.keyAt cellC.hash ≠ none →
      ∃ t1, treeA3.removeS palA ⟨cellC, 0⟩ = (t1, none) ∧
        treeA3.remove palA ⟨cellC, 0⟩ = .ok t1)) :=
  have hwf : WFRoot palA treeA3 :=
    add_wfRoot (add_wfRoot (add_wfRoot (wfRoot_root palA) ⟨cellA, 0⟩) ⟨cellB, 1⟩) ⟨cellA, 2⟩
  ⟨hwf, rfl, remove_fails_iff_absent palA treeA3 hwf ⟨cellC, 0⟩⟩

/-- C14: for every `N`, `simulateTo(N)` on a driver with `currentPixel == 0` throws the no-seed
error, and the driver it leaves behind is the driver it was called on: no pixel written, no
written flag set, the index untouched. -/
theorem simulateTo_needs_seed (st : Colorful) (idxTo : Int) (h : st.currentPixel = 0) :
    st.simulateTo idxTo = .error .needSeed ∧
    st.simulateToS idxTo = (st, some .needSeed) ∧
    st.simulateTo idxTo = toExcept (st.simulateToS idxTo) := by
  refine ⟨?_, ?_, simulateToS_link st idxTo⟩
  · unfold Colorful.simulateTo
    rw [if_pos h]
  · unfold Colorful.simulateToS
    rw [if_pos h]

/-- Witness of C14: the call `simulateTo(4096 * 4096)` of `main` on the driver `Colorful()`
builds, without a seed. -/
theorem simulateTo_needs_seed_witness :
    Colorful.new.currentPixel = 0 ∧
    Colorful.new.simulateTo (4096 * 4096) = .error .needSeed ∧
    Colorful.new.simulateToS (4096 * 4096) = (Colorful.new, some .needSeed) ∧
    Colorful.new.simulateTo (4096 * 4096) = toExcept (Colorful.new.simulateToS (4096 * 4096)) :=
  ⟨rfl, simulateTo_needs_seed Colorful.new (4096 * 4096) rfl⟩

/-- C15: for the cell `(x,y)` of the grid `fillSpaceSpace` builds, `0 <= x,y < 4096`,
`getNeighbors` pushes the cells `(x-1,y)`, `(x+1,y)`, `(x,y-1)`, `(x,y+1)` that are inside the
grid, in this order; the list has no duplicates and does not hold `(x,y)`; it has 2 entries at a
corner, 3 on an edge off the corners, 4 elsewhere. -/
theorem getNeighbors_in_grid (x y : Nat) (hx : x < 4096) (hy : y < 4096) :
    fillSpaceSpace (spaceOffset x y) = ⟨x, y, y * 4096 + x⟩ ∧
    getNeighbors fillSpaceSpace (fillSpaceSpace (spaceOffset x y)) =
      (if 0 < x then [(⟨x - 1, y, y * 4096 + (x - 1)⟩ : SpacePoint)] else []) ++
      (if x + 1 < 4096 then [(⟨x + 1, y, y * 4096 + (x + 1)⟩ : SpacePoint)] else []) ++
      (if 0 < y then [(⟨x, y - 1, (y - 1) * 4096 + x⟩ : SpacePoint)] else []) ++
      (if y + 1 < 4096 then [(⟨x, y + 1, (y + 1) * 4096 + x⟩ : SpacePoint)] else []) ∧
    (getNeighbors fillSpaceSpace (fillSpaceSpace (spaceOffset x y))).Nodup ∧
    fillSpaceSpace (spaceOffset x y) ∉
      getNeighbors fillSpaceSpace (fillSpaceSpace (spaceOffset x y)) ∧
    (getNeighbors fillSpaceSpace (fillSpaceSpace (spaceOffset x y))).length =
      (if x = 0 ∨ x = 4095 then 1 else 2) + (if y = 0 ∨ y = 4095 then 1 else 2) := by
  rw [fillSpaceSpace_eq]
  have hcells := getNeighbors_cells hx hy
  obtain ⟨h1, _, h3, _, h5⟩ := cells_facts hx hy _ hcells
  refine ⟨gridSpace_cell hx hy, hcells, h1, ?_, h5⟩
  intro hmem
  rw [gridSpace_cell hx hy] at hmem h3
  exact h3 hmem

/-- Witness of C15: the corner `(0,4095)` has the neighbours `(1,4095)` and `(0,4094)`. -/
theorem getNeighbors_in_grid_witness :
    getNeighbors fillSpaceSpace (fillSpaceSpace (spaceOffset 0 4095)) =
      [⟨1, 4095, 4095 * 4096 + 1⟩, ⟨0, 4094, 4094 * 4096⟩] ∧
    (getNeighbors fillSpaceSpace (fillSpaceSpace (spaceOffset 0 4095))).length = 2 :=
  have h := getNeighbors_in_grid 0 4095 (by decide) (by decide)
  ⟨h.2.1, h.2.2.2.2⟩

end RustColors


/-! ## Claims about the position hash, bounding boxes, the shuffle, child boxes and thick
nodes at depth `treeTune` -/

namespace RustColors

/-- C16: for `0 <= x, y < 4096` the hash `(y << 12) | x` is `y * 4096 + x`, is below
`4096 * 4096`, two in-grid positions with the same hash are the same position, and
`fillSpaceSpace` stores at the index `hash(x,y)` the position with these `x`, `y` and hash. -/
theorem spaceOffset_hash (x y x1 y1 : Nat) (hx : x < 4096) (hy : y < 4096) (hx1 : x1 < 4096)
    (hy1 : y1 < 4096) :
    spaceOffset x y = y * 4096 + x ∧ spaceOffset x y < 4096 * 4096 ∧
    (spaceOffset x y = spaceOffset x1 y1 → x = x1 ∧ y = y1) ∧
    fillSpaceSpace (spaceOffset x y) = ⟨x, y, spaceOffset x y⟩ := by
  refine ⟨spaceOffset_eq hx hy, ?_, spaceOffset_inj hx hy hx1 hy1, ?_⟩
  · rw [spaceOffset_eq hx hy]; omega
  · rw [fillSpaceSpace_eq, gridSpace_cell hx hy, spaceOffset_eq hx hy]

/-- Witness of C16: the positions (5,7) and (7,5). -/
theorem spaceOffset_hash_witness :
    spaceOffset 5 7 = 7 * 4096 + 5 ∧ spaceOffset 5 7 < 4096 * 4096 ∧
    (spaceOffset 5 7 = spaceOffset 7 5 → 5 = 7 ∧ 7 = 5) ∧
    fillSpaceSpace (spaceOffset 5 7) = ⟨5, 7, spaceOffset 5 7⟩ :=
  spaceOffset_hash 5 7 7 5 (by decide) (by decide) (by decide) (by decide)

/-- C17, counterexample: the boxes `[0,128) x [0,256) x [0,256)` and `[128,256) x [0,256) x
[0,256)` have lower below upper on every axis and `intersects` is true for them, yet on the red
axis the half-open intervals `[0,128)` and `[128,256)` share no point: `max(0,128) < min(128,256)`
is false. -/
theorem intersects_half_open_counterexample :
    BB.Proper ⟨0, 0, 0, 128, 256, 256⟩ ∧ BB.Proper ⟨128, 0, 0, 256, 256, 256⟩ ∧
    BB.intersects ⟨0, 0, 0, 128, 256, 256⟩ ⟨128, 0, 0, 256, 256, 256⟩ = true ∧
    ¬ (max (0 : Int) 128 < min 128 256 ∧ max (0 : Int) 0 < min 256 256 ∧
       max (0 : Int) 0 < min 256 256) := by
  refine ⟨?_, ?_, ?_, ?_⟩
  · unfold BB.Proper; decide
  · unfold BB.Proper; decide
  · decide
  · decide

/-- C17, amended: for boxes with lower below upper on every axis, `intersects` is true exactly
when on each axis the closed intervals `[lower, upper]` of the two boxes share a point, that is
`max(A.lower, B.lower) <= min(A.upper, B.upper)` on every axis. -/
theorem intersects_iff_closed_overlap (a b : BB) (ha : a.Proper) (hb : b.Proper) :
    a.intersects b = true ↔
      max a.lr b.lr ≤ min a.ur b.ur ∧ max a.lg b.lg ≤ min a.ug b.ug ∧
      max a.lb b.lb ≤ min a.ub b.ub :=
  intersects_iff_closed a b ha hb

/-- Witness of C17: the box of a child of the root and a search box that touches it on the red
axis. -/
theorem intersects_iff_closed_overlap_witness :
    BB.Proper ⟨0, 0, 0, 128, 128, 128⟩ ∧ BB.Proper ⟨128, -15, -15, 158, 15, 15⟩ ∧
    (BB.intersects ⟨0, 0, 0, 128, 128, 128⟩ ⟨128, -15, -15, 158, 15, 15⟩ = true ↔
      max (0 : Int) 128 ≤ min 128 158 ∧ max (0 : Int) (-15) ≤ min 128 15 ∧
      max (0 : Int) (-15) ≤ min 128 15) :=
  have h1 : BB.Proper ⟨0, 0, 0, 128, 128, 128⟩ := by unfold BB.Proper; decide
  have h2 : BB.Proper ⟨128, -15, -15, 158, 15, 15⟩ := by unfold BB.Proper; decide
  ⟨h1, h2, intersects_iff_closed_overlap _ _ h1 h2⟩

/-- C18: for every palette and every sequence of values of `rand()`, at every step `i` of
`shuffleColors` the swap partner `j` satisfies `i <= j < 4096 * 4096`; the palette after the call
is a rearrangement of the palette before it, so every colour occurs as often as before (once, if
it occurred once); and no entry from `4096 * 4096` on is touched. -/
theorem shuffleColors_permutes (colors : Nat → ColorPoint) (rand : Nat → Nat) :
    (∀ i, i < 4096 * 4096 - 1 →
      i ≤ shufflePartner rand i ∧ shufflePartner rand i < 4096 * 4096) ∧
    List.Perm ((List.range (4096 * 4096)).map (shuffleColors colors rand))
      ((List.range (4096 * 4096)).map colors) ∧
    (∀ c, ((List.range (4096 * 4096)).map (shuffleColors colors rand)).count c =
      ((List.range (4096 * 4096)).map colors).count c) ∧
    (∀ k, 4096 * 4096 ≤ k → shuffleColors colors rand k = colors k) := by
  obtain ⟨σ, hfix, hσ⟩ := shuffleColors_perm rand
  have hperm : List.Perm ((List.range (4096 * 4096)).map (shuffleColors colors rand))
      ((List.range (4096 * 4096)).map colors) := by
    have h := map_range_perm (4096 * 4096) σ hfix colors
    have e : shuffleColors colors rand = fun k => colors (σ k) := funext (hσ colors)
    rw [e]
    exact h
  refine ⟨fun i hi => shufflePartner_bounds rand hi, hperm, fun c => hperm.count_eq c, ?_⟩
  intro k hk
  rw [hσ, hfix k hk]

/-- Witness of C18: the palette `Colorful()` builds, and a sequence of values of `rand()`. -/
theorem shuffleColors_permutes_witness :
    (∀ i, i < 4096 * 4096 - 1 →
      i ≤ shufflePartner (fun i => 7919 * i + 3) i ∧
      shufflePartner (fun i => 7919 * i + 3) i < 4096 * 4096) ∧
    List.Perm ((List.range (4096 * 4096)).map (shuffleColors gridColors (fun i => 7919 * i + 3)))
      ((List.range (4096 * 4096)).map gridColors) ∧
    (∀ c, ((List.range (4096 * 4096)).map
        (shuffleColors gridColors (fun i => 7919 * i + 3))).count c =
      ((List.range (4096 * 4096)).map gridColors).count c) ∧
    (∀ k, 4096 * 4096 ≤ k → shuffleColors gridColors (fun i => 7919 * i + 3) k = gridColors k) :=
  shuffleColors_permutes gridColors (fun i => 7919 * i + 3)

/-- C19, what the code does for a colour on the midpoint: when the slot `addr(c)` is empty, the
red channel of `c` is exactly the midpoint `l + radius` of the node and the red interval of the
node is `[l, l + 2 * radius)`, the child `getOrCreateChild` creates has the whole red interval
`[l, u)` of the node, not the upper half `[l + radius, u)`. -/
theorem getOrCreateChild_midpoint_whole (n : NodeData) (ch : Nat → Octree) (c : ColorPoint)
    (hnull : ch (addr n.depth c) = .null) (hmid : c.r = n.bounds.lr + n.radius)
    (hu : n.bounds.ur = n.bounds.lr + 2 * n.radius) :
    ∃ cn cch, getOrCreateChild n ch c (addr n.depth c) = .node cn cch ∧
      cn.bounds.lr = n.bounds.lr ∧ cn.bounds.ur = n.bounds.ur :=
  getOrCreateChild_mid n ch c hnull hmid hu

/-- Witness of C19: at the empty root, with the box `[0,256)` on every axis and radius 128, the
colour (128,0,0) has `addr = 4` (red bit 1, green and blue bits 0), and the child created for it
has the box `[0,256) x [0,128) x [0,128)`. -/
theorem getOrCreateChild_midpoint_whole_witness :
    Octree.root = .node rootNode (fun _ => .null) ∧
    addr rootNode.depth ⟨128, 0, 0⟩ = 4 ∧
    (getOrCreateChild rootNode (fun _ => .null) ⟨128, 0, 0⟩ 4).box =
      ⟨0, 0, 0, 256, 128, 128⟩ ∧
    ∃ cn cch, getOrCreateChild rootNode (fun _ => .null) ⟨128, 0, 0⟩
        (addr rootNode.depth ⟨128, 0, 0⟩) = .node cn cch ∧
      cn.bounds.lr = rootNode.bounds.lr ∧ cn.bounds.ur = rootNode.bounds.ur :=
  ⟨rfl, by decide, by decide,
    getOrCreateChild_midpoint_whole rootNode (fun _ => .null) ⟨128, 0, 0⟩ rfl (by decide)
      (by decide)⟩

/-- C20, what the code does: at a node at depth `treeTune = 4` of a well-formed tree that holds
more than `quadTune = 64` buckets, `NNSearchDown` returns the search as it was; `nearestInUs` is
not run. -/
theorem NNSearchDown_skips_thick_leaf (colors : Nat → ColorPoint) (root : Octree)
    (path : List Nat) (s : Search) (hwf : WFRoot colors root) (hlen : path.length = treeTune)
    (hq : quadTune < (root.descend path).pointsSize) :
    NNSearchDown colors (root.descend path) s = .ok s := by
  have h := wf_descend colors path root 0 hwf.2
  rw [Nat.zero_add, hlen] at h
  exact NNSearchDown_thick colors _ s h hq

/-- Witness of C20: 65 points of colour (17,0,0) and one black point, at 66 positions.  The node
at depth 4 with the box `[16,32) x [0,16) x [0,16)` holds 65 buckets and its box intersects the
bounds of the search for (15,0,0) whose best distance is 225; `nearestInUs` at this node finds a
point at squared distance 4, yet `NNSearchDown` leaves the search as it was, and `findNearest` on
the root returns the black point. -/
theorem NNSearchDown_skips_thick_leaf_witness :
    WFRoot palD treeD ∧ leafD = treeD.descend [0, 0, 0, 4] ∧
    leafD.isNull = false ∧ leafD.pointsSize = 65 ∧ leafD.box = ⟨16, 0, 0, 32, 16, 16⟩ ∧
    searchD.bounds.intersects leafD.box = true ∧
    nearestInUs palD leafD.buckets searchD.source = .ok ⟨⟨0, 0, 0⟩, 0⟩ ∧
    searchD.source.distanceTo (palD 0) = 4 ∧ searchD.bestDistanceSq = 225 ∧
    NNSearchDown palD (treeD.descend [0, 0, 0, 4]) searchD = .ok searchD ∧
    treeD.findNearest palD ⟨15, 0, 0⟩ = .ok ⟨⟨65, 0, 65⟩, 65⟩ := by
  have hnd : (pointsD.map (fun p => p.space.hash)).Nodup := by
    set_option maxRecDepth 1000000 in decide
  have hroot : WFRoot palD treeD :=
    (foldl_add_buckets palD pointsD Octree.root (wfRoot_root palD) (fun _ _ => rfl) hnd).1
  refine ⟨hroot, rfl, ?_, ?_, ?_, ?_, ?_, by decide, by decide,
    NNSearchDown_skips_thick_leaf palD treeD [0, 0, 0, 4] searchD hroot rfl ?_, ?_⟩
  · set_option maxRecDepth 1000000 in decide
  · set_option maxRecDepth 1000000 in decide
  · set_option maxRecDepth 1000000 in decide
  · set_option maxRecDepth 1000000 in decide
  · set_option maxRecDepth 1000000 in decide
  · set_option maxRecDepth 1000000 in decide
  · set_option maxRecDepth 1000000 in decide!

end RustColors


/-! ## Claims about the search box, depth `treeTune`, `addr` and the safety of `findNearest` -/

namespace RustColors

/-- C21: let the bounds of a search be the box `setAround(source, floor(sqrt(bestDistanceSq)))`.
Every colour `q` whose squared distance to the source is strictly below `bestDistanceSq` lies
inside the bounds on all three axes.  So when the box of a node does not intersect the bounds,
`NNSearchDown` returns the search as it was, and no colour `q` inside the box of the node, ends
included, is strictly closer to the source than the candidate. -/
theorem prune_keeps_closer (colors : Nat → ColorPoint) (t : Octree) (search : Search)
    (q : ColorPoint) (ht : t.isNull = false)
    (hb : search.bounds = BB.setAround search.source (sqrtInt search.bestDistanceSq)) :
    (search.source.distanceTo q < search.bestDistanceSq → search.bounds.Has q) ∧
    (search.bounds.intersects t.box = false →
      NNSearchDown colors t search = .ok search ∧
      (t.box.Has q → search.bestDistanceSq ≤ search.source.distanceTo q)) := by
  have h1 : search.source.distanceTo q < search.bestDistanceSq → search.bounds.Has q := by
    intro h
    rw [hb]
    exact setAround_has_closer h
  refine ⟨h1, fun hi => ⟨NNSearchDown_pruned colors ht search hi, ?_⟩⟩
  intro hq
  by_contra hlt
  have := intersects_of_has (h1 (by omega)) hq
  rw [hi] at this
  cases this

/-- Witness of C21: the search for (15,0,0) with best squared distance 225 and the box
`[0,30] x [-15,15] x [-15,15]`; the colour (17,0,0) is closer and inside, the fresh node with the
box `[128,256) x [0,128) x [0,128)` is pruned and its colour (128,0,0) is not closer. -/
theorem prune_keeps_closer_witness :
    searchD.bounds = BB.setAround searchD.source (sqrtInt searchD.bestDistanceSq) ∧
    (searchD.source.distanceTo ⟨17, 0, 0⟩ < searchD.bestDistanceSq ∧
      searchD.bounds.Has ⟨17, 0, 0⟩) ∧
    (searchD.bounds.intersects (Octree.new 1 0 128 0 0 256 128 128).box = false ∧
      NNSearchDown palD (Octree.new 1 0 128 0 0 256 128 128) searchD = .ok searchD ∧
      searchD.bestDistanceSq ≤ searchD.source.distanceTo ⟨128, 0, 0⟩) :=
  have hb : searchD.bounds = BB.setAround searchD.source (sqrtInt searchD.bestDistanceSq) := by
    decide!
  have hi : searchD.bounds.intersects (Octree.new 1 0 128 0 0 256 128 128).box = false := by
    decide
  ⟨hb,
    ⟨by decide, (prune_keeps_closer palD (Octree.new 1 0 128 0 0 256 128 128) searchD ⟨17, 0, 0⟩
      rfl hb).1 (by decide)⟩,
    hi,
    ((prune_keeps_closer palD (Octree.new 1 0 128 0 0 256 128 128) searchD ⟨128, 0, 0⟩
      rfl hb).2 hi).1,
    ((prune_keeps_closer palD (Octree.new 1 0 128 0 0 256 128 128) searchD ⟨128, 0, 0⟩
      rfl hb).2 hi).2 (by unfold BB.Has; decide)⟩

/-- C22: in every tree obtained from the empty root by `add` calls and `remove` calls that do not
fail, the node reached along a path has the length of the path as its depth, which is at most
`treeTune = 4`, and a node at depth 4 has no children.  So `findNearest` on a node at depth 4
with at least one bucket, whatever their number, runs `nearestInUs` on that node and returns its
result, or the candidate of the search up that starts from it; it does not enter a child. -/
theorem findNearest_bottoms_out (colors : Nat → ColorPoint) (t : Octree)
    (hreach : Reachable colors t) (path : List Nat) :
    (∀ n ch, t.descend path = .node n ch →
      n.depth = path.length ∧ path.length ≤ treeTune ∧
      (path.length = treeTune → ∀ i, ch i = .null)) ∧
    (path.length = treeTune → (t.descend path).buckets ≠ [] →
      ∀ (anc : List (Octree × Nat)) (c : ColorPoint),
        ∃ ret, nearestInUs colors (t.descend path).buckets c = .ok ret ∧
          (findNearestFrom colors (t.descend path) anc c = .ok ret ∨
           findNearestFrom colors (t.descend path) anc c =
             (NNSearchUp colors anc
               { candidate := ret, source := c,
                 bestDistanceSq := c.distanceTo (colors ret.color),
                 bounds := BB.setAround c (sqrtInt (c.distanceTo (colors ret.color))) }).map
               (fun s => s.candidate))) := by
  have hwf := wf_descend colors path t 0 (reachable_wfRoot hreach).2
  rw [Nat.zero_add] at hwf
  constructor
  · intro n ch hd
    rw [hd] at hwf
    simp only [WF] at hwf
    exact ⟨hwf.1, hwf.2.1, hwf.2.2.2.1⟩
  · intro hlen hne anc c
    rw [hlen] at hwf
    exact findNearestFrom_leaf colors hwf hne anc c

/-- Witness of C22: the node at depth 4 of `treeD` that holds 65 buckets. -/
theorem findNearest_bottoms_out_witness :
    Reachable palD treeD ∧ (treeD.descend [0, 0, 0, 4]).pointsSize = 65 ∧
    ((∀ n ch, treeD.descend [0, 0, 0, 4] = .node n ch →
      n.depth = [0, 0, 0, 4].length ∧ [0, 0, 0, 4].length ≤ treeTune ∧
      ([0, 0, 0, 4].length = treeTune → ∀ i, ch i = .null)) ∧
    ([0, 0, 0, 4].length = treeTune → (treeD.descend [0, 0, 0, 4]).buckets ≠ [] →
      ∀ (anc : List (Octree × Nat)) (c : ColorPoint),
        ∃ ret, nearestInUs palD (treeD.descend [0, 0, 0, 4]).buckets c = .ok ret ∧
          (findNearestFrom palD (treeD.descend [0, 0, 0, 4]) anc c = .ok ret ∨
           findNearestFrom palD (treeD.descend [0, 0, 0, 4]) anc c =
             (NNSearchUp palD anc
               { candidate := ret, source := c,
                 bestDistanceSq := c.distanceTo (palD ret.color),
                 bounds := BB.setAround c (sqrtInt (c.distanceTo (palD ret.color))) }).map
               (fun s => s.candidate)))) := by
  have hr : Reachable palD treeD := reachable_foldl palD pointsD _ Reachable.root
  refine ⟨hr, ?_, findNearest_bottoms_out palD treeD hr [0, 0, 0, 4]⟩
  set_option maxRecDepth 1000000 in decide

/-- C23: for every depth `d` in `0..4` and every colour with channels in `0..255`, `addr` at a
node of depth `d` is `4 * rbit + 2 * gbit + bbit`, where each bit is `(channel >> (7 - d)) & 1`;
it is below 8; and it is the value of the formula of the specification, which cuts nothing to 8
bits. -/
theorem addr_matches_spec (d : Nat) (hd : d ≤ 4) (c : ColorPoint) (hc : InRange c) :
    addr d c = 4 * ((c.r.toNat >>> (7 - d)) &&& 1) + 2 * ((c.g.toNat >>> (7 - d)) &&& 1) +
      ((c.b.toNat >>> (7 - d)) &&& 1) ∧
    addr d c < 8 ∧ addr d c = addrSpec d c := by
  obtain ⟨r0, r1, g0, g1, b0, b1⟩ := id hc
  refine ⟨?_, addr_lt_eight d hd c hc, ?_⟩
  · rw [addr_eq_bits d hd c hc, chan_shift_and d hd c.r r0 r1, chan_shift_and d hd c.g g0 g1,
      chan_shift_and d hd c.b b0 b1]
  · rw [addr_eq_bits d hd c hc, addrSpec_eq_bits d hd c hc]

/-- Witness of C23: the colour (17,200,8) at depth 3, where only the red channel has bit 4 set. -/
theorem addr_matches_spec_witness :
    addr 3 ⟨17, 200, 8⟩ = 4 ∧
    (addr 3 ⟨17, 200, 8⟩ =
      4 * (((17 : Int).toNat >>> (7 - 3)) &&& 1) + 2 * (((200 : Int).toNat >>> (7 - 3)) &&& 1) +
        (((8 : Int).toNat >>> (7 - 3)) &&& 1) ∧
    addr 3 ⟨17, 200, 8⟩ < 8 ∧ addr 3 ⟨17, 200, 8⟩ = addrSpec 3 ⟨17, 200, 8⟩) :=
  ⟨by decide, addr_matches_spec 3 (by decide) ⟨17, 200, 8⟩ (by decide)⟩

/-- C24: on a well-formed tree (consistent nodes, boxes that cover the sub-cube of their node)
with palette colours in `0..255` and at least one frontier point, `findNearest` of a colour in
`0..255` returns a point and raises no error: no `NNSearchUp` is entered on a node whose box
misses the search bounds and no null child is dereferenced.  The point is the first member of a
bucket of some node of the tree, it is indexed at the root, its position hash is a key of the
root, and `remove` of it succeeds, also after any further `add` calls. -/
theorem findNearest_safe (colors : Nat → ColorPoint) (t : Octree) (c : ColorPoint)
    (hpal : ∀ i, InRange (colors i)) (hwf : WFRoot colors t) (hgeo : Geo t 0 0 0 0)
    (hc : InRange c) (hne : t.allPoints ≠ []) :
    ∃ p, t.findNearest colors c = .ok p ∧
      (∃ path n ch b, t.descend path = .node n ch ∧ b ∈ n.points ∧ b.head? = some p) ∧
      p ∈ t.allPoints ∧ t.keyAt p.space.hash ≠ none ∧
      (∃ t1, t.remove colors p = .ok t1) ∧
      ∀ ps : List Point, ∃ t1, (ps.foldl (Octree.add colors) t).remove colors p = .ok t1 := by
  obtain ⟨p, hp, hmem⟩ := findNearest_ok hpal hwf hgeo hc (buckets_ne_nil_of_allPoints hne)
  have hkey : t.keyAt p.space.hash ≠ none := by
    rw [keyAt_iff_bucketAt hwf]
    intro e
    rw [e] at hmem
    cases hmem
  obtain ⟨path, n, ch, hd, b, hb, hh⟩ := findNearest_head hp
  refine ⟨p, hp, ⟨path, n, ch, b, hd, hb, hh⟩, mem_allPoints_of_bucketAt hwf hmem, hkey, ?_, ?_⟩
  · obtain ⟨t1, h1, _⟩ := remove_wfRoot hwf p hkey
    exact ⟨t1, h1⟩
  · intro ps
    obtain ⟨hwf1, hk1⟩ := foldl_add_keeps_key colors p.space.hash ps t hwf hkey
    obtain ⟨t1, h1, _⟩ := remove_wfRoot hwf1 p hk1
    exact ⟨t1, h1⟩

/-- Witness of C24: the tree `treeA`, left by three `add` calls and one `remove`. -/
theorem findNearest_safe_witness :
    ∃ p, treeA.findNearest palA ⟨250, 0, 0⟩ = .ok p ∧
      (∃ path n ch b, treeA.descend path = .node n ch ∧ b ∈ n.points ∧ b.head? = some p) ∧
      p ∈ treeA.allPoints ∧ treeA.keyAt p.space.hash ≠ none ∧
      (∃ t1, treeA.remove palA p = .ok t1) ∧
      ∀ ps : List Point, ∃ t1, (ps.foldl (Octree.add palA) treeA).remove palA p = .ok t1 :=
  have hr : Reachable palA treeA :=
    Reachable.remove treeA3 treeA ⟨cellA, 0⟩
      (Reachable.add _ ⟨cellA, 2⟩ (Reachable.add _ ⟨cellB, 1⟩
        (Reachable.add _ ⟨cellA, 0⟩ Reachable.root))) rfl
  have hpal : ∀ i, InRange (palA i) := by intro i; unfold palA; split_ifs <;> decide
  findNearest_safe palA treeA ⟨250, 0, 0⟩ hpal (reachable_wfRoot hr) (reachable_geo hpal hr)
    (by decide) (by decide)

end RustColors
